import Mathlib

/-! # objc4-818.2 runtime: record lists, dispatch cache and class records

A shallow embedding of `runtime/objc-runtime-new.h`:

* `entsize_list_tt` (the variable-stride record list) with its iterator,
* `list_array_tt` (the aggregator of record lists) with `attachLists`,
  `count`, `countLists`, its iterator and `duplicateInto`,
* `method_t` / `method_list_t` as far as `duplicate()` needs them,
* `bucket_t` with its IMP encoding, and the dispatch cache and the lookup
  that walks the superclass chain,
* `class_ro_t` / `class_rw_t` / `class_data_bits_t` with the Swift flag bits,
* the instance-size functions of `cache_t` and `objc_class`.

Conventions of the embedding

* A pointer is a natural number (`Ptr`), `0` is `nullptr`.  Object pointers are
  never wrapped; `uint32_t` arithmetic is taken modulo `2^32` exactly where the
  source computes in `uint32_t`.
* A C++ reference `Element&` is the address of the element.
* `ASSERT(c)` is a failure of the operation (`none`) when `c` is false.
* Memory that the source reads through a pointer is a function from the
  address to the value stored there.
-/

namespace Objc

/-- A machine address; `0` is `nullptr`. -/
abbrev Ptr := Nat

/-! ## entsize_list_tt -/

/-- The two header words of `entsize_list_tt`; the records follow the header
at byte offset `sizeof(*this) = 8`. -/
structure entsize_list_tt where
  /-- Field `uint32_t entsizeAndFlags`. -/
  entsizeAndFlags : Nat
  /-- Field `uint32_t count`. -/
  count : Nat
deriving DecidableEq, Repr

/-- The template arguments of an instantiation of `entsize_list_tt` that the
code below depends on: `FlagMask` and `PointerModifier::modify`. -/
structure ListKind where
  /-- Template argument `uint32_t FlagMask`. -/
  FlagMask : Nat
  /-- Template argument `PointerModifier`, as its static `modify(list, ptr)`. -/
  modify : entsize_list_tt → Ptr → Ptr

namespace entsize_list_tt

/-- `entsize()`: `entsizeAndFlags & ~FlagMask` on `uint32_t`. -/
def entsize (FlagMask : Nat) (l : entsize_list_tt) : Nat :=
  l.entsizeAndFlags &&& (0xFFFFFFFF ^^^ FlagMask)

/-- `flags()`: `entsizeAndFlags & FlagMask`. -/
def flags (FlagMask : Nat) (l : entsize_list_tt) : Nat :=
  l.entsizeAndFlags &&& FlagMask

/-- `getOrEnd(i)` for the list whose header `l` is stored at address `this`:
`ASSERT(i <= count)`, then the modified address
`(uint8_t *)this + sizeof(*this) + i*entsize()`; the product is computed in
`uint32_t`. -/
def getOrEnd (K : ListKind) (this : Ptr) (l : entsize_list_tt) (i : Nat) : Option Ptr :=
  if i ≤ l.count then
    some (K.modify l (this + 8 + (i * l.entsize K.FlagMask) % 2 ^ 32))
  else none

/-- `get(i)`: `ASSERT(i < count)`, then `getOrEnd(i)`. -/
def get (K : ListKind) (this : Ptr) (l : entsize_list_tt) (i : Nat) : Option Ptr :=
  if i < l.count then getOrEnd K this l i else none

/-- `entsize_list_tt::iterator`. -/
structure iterator where
  /-- Field `uint32_t entsize`. -/
  entsize : Nat
  /-- Field `uint32_t index`. -/
  index : Nat
  /-- Field `Element* element`. -/
  element : Ptr
deriving DecidableEq, Repr

namespace iterator

/-- Constructor `iterator(const List& list, uint32_t start)`. -/
def init (K : ListKind) (this : Ptr) (l : entsize_list_tt) (start : Nat) : Option iterator :=
  (getOrEnd K this l start).map fun e => ⟨l.entsize K.FlagMask, start, e⟩

/-- `operator +=` with a `ptrdiff_t` delta: the element pointer moves by
`delta*entsize` bytes and `index += (int32_t)delta` in `uint32_t`. -/
def add (it : iterator) (delta : Int) : iterator :=
  { it with
    element := ((it.element : Int) + delta * (it.entsize : Int)).toNat
    index := (((it.index : Int) + delta) % 2 ^ 32).toNat }

/-- `operator -=`. -/
def sub (it : iterator) (delta : Int) : iterator :=
  { it with
    element := ((it.element : Int) - delta * (it.entsize : Int)).toNat
    index := (((it.index : Int) - delta) % 2 ^ 32).toNat }

/-- `operator ++` (both forms leave the iterator advanced by one). -/
def incr (it : iterator) : iterator := it.add 1

/-- `operator --`. -/
def decr (it : iterator) : iterator := it.sub 1

/-- `operator -` between two iterators: the difference of the indexes. -/
def diff (it rhs : iterator) : Int := (it.index : Int) - (rhs.index : Int)

/-- `operator *`: the element reference. -/
def deref (it : iterator) : Ptr := it.element

/-- `operator ==`: compares the element pointers only. -/
def eq (it rhs : iterator) : Bool := it.element == rhs.element

/-- `operator !=`. -/
def ne (it rhs : iterator) : Bool := it.element != rhs.element

end iterator

/-- `begin()`: `iterator(*this, 0)`. -/
def begin_ (K : ListKind) (this : Ptr) (l : entsize_list_tt) : Option iterator :=
  iterator.init K this l 0

/-- `end()`: `iterator(*this, count)`. -/
def end_ (K : ListKind) (this : Ptr) (l : entsize_list_tt) : Option iterator :=
  iterator.init K this l l.count

/-- The loop `for (it = begin(); it != end(); ++it) visit(*it)` over one list,
run for at most `fuel` rounds; `none` when the fuel does not suffice. -/
def walk (e : iterator) : Nat → iterator → Option (List Ptr)
  | 0, it => if it.ne e then none else some []
  | fuel + 1, it =>
    if it.ne e then (walk e fuel it.incr).map fun rest => it.deref :: rest
    else some []

/-- The element references a `begin()`..`end()` loop over the list visits. -/
def elements (K : ListKind) (this : Ptr) (l : entsize_list_tt) (fuel : Nat) :
    Option (List Ptr) := do
  let b ← begin_ K this l
  let e ← end_ K this l
  walk e fuel b

/-- The element references of the list in index order: `get(0)`, ...,
`get(count - 1)`. -/
def refs (K : ListKind) (this : Ptr) (l : entsize_list_tt) : List Ptr :=
  (List.range l.count).filterMap fun i => get K this l i

/-- The iterator that stands at index `i` of the list at `this`, `i` strides
of `entsize()` bytes past the first record. -/
def nth (K : ListKind) (this : Ptr) (l : entsize_list_tt) (i : Nat) : iterator :=
  ⟨l.entsize K.FlagMask, i, K.modify l (this + 8) + i * l.entsize K.FlagMask⟩

/-- The list has a real record size and its records lie within the range of
the `uint32_t` offset `i*entsize()`. -/
def Strided (K : ListKind) (l : entsize_list_tt) : Prop :=
  0 < l.entsize K.FlagMask ∧ l.count * l.entsize K.FlagMask < 2 ^ 32

/-- A `Strided` list that holds at least one record. -/
def Iterable (K : ListKind) (l : entsize_list_tt) : Prop :=
  0 < l.count ∧ Strided K l

instance (K : ListKind) (l : entsize_list_tt) : Decidable (Strided K l) :=
  inferInstanceAs (Decidable (_ ∧ _))

instance (K : ListKind) (l : entsize_list_tt) : Decidable (Iterable K l) :=
  inferInstanceAs (Decidable (_ ∧ _))

end entsize_list_tt

/-- The pointer modifier of the instantiation commutes with moving a pointer
by whole records. -/
def ListKind.StrideInvariant (K : ListKind) : Prop :=
  ∀ (l : entsize_list_tt) (a k : Nat),
    K.modify l (a + k * l.entsize K.FlagMask) = K.modify l a + k * l.entsize K.FlagMask

/-- `PointerModifierNop::modify`. -/
def PointerModifierNop : entsize_list_tt → Ptr → Ptr := fun _ ptr => ptr

/-- `method_t::smallMethodListFlag`. -/
def method_t.smallMethodListFlag : Nat := 0x80000000

/-- The `FlagMask` of `method_list_t`. -/
def method_list_t.FlagMask : Nat := 0xffff0003

/-- `method_t::pointer_modifier::modify`: when the list's flags contain
`smallMethodListFlag`, the bottom bit of the pointer is set. -/
def method_t.pointer_modifier.modify (list : entsize_list_tt) (ptr : Ptr) : Ptr :=
  if list.flags method_list_t.FlagMask &&& method_t.smallMethodListFlag ≠ 0 then ptr ||| 1
  else ptr

/-- `method_list_t`:
`entsize_list_tt<method_t, method_list_t, 0xffff0003, method_t::pointer_modifier>`. -/
def method_list_t.kind : ListKind := ⟨method_list_t.FlagMask, method_t.pointer_modifier.modify⟩

/-- `ivar_list_t`: `entsize_list_tt<ivar_t, ivar_list_t, 0>`. -/
def ivar_list_t.kind : ListKind := ⟨0, PointerModifierNop⟩

/-- `property_list_t`: `entsize_list_tt<property_t, property_list_t, 0>`. -/
def property_list_t.kind : ListKind := ⟨0, PointerModifierNop⟩

/-! ## list_array_tt -/

/-- `list_array_tt::array_t`: the `count` field and the slots `lists[]` of the
allocation that follows it. -/
structure array_t where
  /-- Field `uint32_t count`. -/
  count : Nat
  /-- The slots `Ptr<List> lists[]` the block was allocated with. -/
  lists : List Ptr
deriving DecidableEq, Repr

/-- `list_array_tt`: the union of `Ptr<List> list` and the tagged
`uintptr_t arrayAndFlag`.  The low tag bit that `hasArray()` tests is the
constructor; list pointers are aligned, so a `list` never carries the tag.
`list 0` is the empty aggregator. -/
inductive list_array_tt where
  | list (l : Ptr)
  | array (a : array_t)
deriving DecidableEq, Repr

/-- The C conversion of a `uint32_t` value to `int`. -/
def int_of_uint32 (u : Nat) : Int :=
  if u < 2 ^ 31 then (u : Int) else (u : Int) - 2 ^ 32

namespace list_array_tt

/-- `hasArray()`. -/
def hasArray : list_array_tt → Bool
  | list _ => false
  | array _ => true

/-- `countLists()`. -/
def countLists : list_array_tt → Nat
  | array a => a.count
  | list l => if l ≠ 0 then 1 else 0

/-- The storage `beginLists()` and `endLists()` point into: the slots of the
array, or the `list` field itself. -/
def slots : list_array_tt → List Ptr
  | array a => a.lists
  | list l => [l]

/-- `beginLists()`, as a slot index into `slots`. -/
def beginLists (_self : list_array_tt) : Nat := 0

/-- `endLists()`, as a slot index into `slots`. -/
def endLists : list_array_tt → Nat
  | array a => a.count
  | list l => if l ≠ 0 then 1 else 0

/-- The list pointers in `[beginLists(), endLists())`, in slot order. -/
def listPtrs (self : list_array_tt) : List Ptr :=
  (self.slots.drop self.beginLists).take (self.endLists - self.beginLists)

/-- `count()`: the `uint32_t` sum of `(*lists)->count` over
`beginLists()`..`endLists()`; `hdr` is the memory holding the list headers. -/
def count (hdr : Ptr → entsize_list_tt) (self : list_array_tt) : Nat :=
  self.listPtrs.foldl (fun result lists => (result + (hdr lists).count) % 2 ^ 32) 0

/-- An `array_t` carries in `count` the number of slots it was allocated
with (every array `attachLists` builds does). -/
def WellFormed : list_array_tt → Prop
  | array a => a.count = a.lists.length
  | list _ => True

/-- The element references of the aggregator by position: for each list in
`beginLists()`..`endLists()` order, `get(0)`, ..., `get(count - 1)`. -/
def refs (K : ListKind) (hdr : Ptr → entsize_list_tt) (self : list_array_tt) : List Ptr :=
  self.listPtrs.flatMap fun p => entsize_list_tt.refs K p (hdr p)

/-- `attachLists(addedLists, addedCount)`.  `addedLists i` is the pointer
stored at `addedLists[i]`; `junk i` is the indeterminate content of slot `i`
of a block fresh from `malloc`.  `validate()` only authenticates the stored
pointers and changes no state. -/
def attachLists (junk : Nat → Ptr) (addedLists : Nat → Ptr) (addedCount : Nat)
    (self : list_array_tt) : list_array_tt :=
  if addedCount = 0 then self
  else
    match self with
    | array a =>
      -- many lists -> many lists
      let oldCount := a.count
      let newCount := (oldCount + addedCount) % 2 ^ 32
      let newArray : array_t := ⟨newCount, (List.range newCount).map junk⟩
      -- for (int i = oldCount - 1; i >= 0; i--)
      --     newArray->lists[i + addedCount] = array()->lists[i];
      let i0 := int_of_uint32 ((oldCount + 2 ^ 32 - 1) % 2 ^ 32)
      let moved := (List.range (i0 + 1).toNat).reverse.foldl
        (fun ls i => ls.set ((i + addedCount) % 2 ^ 32) (a.lists.getD i 0)) newArray.lists
      -- for (unsigned i = 0; i < addedCount; i++) newArray->lists[i] = addedLists[i];
      let filled := (List.range addedCount).foldl
        (fun ls i => ls.set i (addedLists i)) moved
      array ⟨newCount, filled⟩
    | list l =>
      if l = 0 ∧ addedCount = 1 then
        -- 0 lists -> 1 list
        list (addedLists 0)
      else
        -- 1 list -> many lists
        let oldList := l
        let oldCount := if oldList ≠ 0 then 1 else 0
        let newCount := (oldCount + addedCount) % 2 ^ 32
        let fresh : List Ptr := (List.range newCount).map junk
        let withOld := if oldList ≠ 0 then fresh.set addedCount oldList else fresh
        let filled := (List.range addedCount).foldl
          (fun ls i => ls.set i (addedLists i)) withOld
        array ⟨newCount, filled⟩

/-- A sequence of `attachLists` calls on one aggregator, first call first; the
call for `c` passes an `addedLists` array holding the pointers `c` and
`addedCount = c.length`. -/
def attachAll (junk : Nat → Ptr) (calls : List (List Ptr)) (self : list_array_tt) :
    list_array_tt :=
  calls.foldl (fun s c => s.attachLists junk (fun i => c.getD i 0) c.length) self

/-- `list_array_tt::iterator`.  `lists` and `listsEnd` point into the slot
storage and are kept as slot indexes; `m` and `mEnd` are `none` while the
constructor has left them uninitialised. -/
structure iterator where
  /-- Field `const Ptr<List> *lists`. -/
  lists : Nat
  /-- Field `const Ptr<List> *listsEnd`. -/
  listsEnd : Nat
  /-- Field `typename List::iterator m`. -/
  m : Option entsize_list_tt.iterator
  /-- Field `typename List::iterator mEnd`. -/
  mEnd : Option entsize_list_tt.iterator
deriving DecidableEq, Repr

namespace iterator

/-- Constructor `iterator(begin, end)`; `mem` is the slot storage the two
pointers point into and `hdr` the memory holding the list headers. -/
def init (K : ListKind) (hdr : Ptr → entsize_list_tt) (mem : List Ptr)
    (begin_ end_ : Nat) : Option iterator :=
  if begin_ ≠ end_ then do
    let p ← mem[begin_]?
    let m ← entsize_list_tt.begin_ K p (hdr p)
    let mEnd ← entsize_list_tt.end_ K p (hdr p)
    some ⟨begin_, end_, some m, some mEnd⟩
  else some ⟨begin_, end_, none, none⟩

/-- `operator *`: `*m`; reading an uninitialised `m` fails. -/
def deref (it : iterator) : Option Ptr :=
  it.m.map entsize_list_tt.iterator.deref

/-- `operator !=`. -/
def ne (it rhs : iterator) : Option Bool :=
  if it.lists ≠ rhs.lists then some true
  else if it.lists = it.listsEnd then some false  -- m is undefined
  else do
    let m ← it.m
    let m' ← rhs.m
    some (m.ne m')

/-- `operator ++`. -/
def incr (K : ListKind) (hdr : Ptr → entsize_list_tt) (mem : List Ptr)
    (it : iterator) : Option iterator := do
  let m ← it.m
  let mEnd ← it.mEnd
  -- ASSERT(m != mEnd);
  if m.ne mEnd then
    let m := m.incr
    if m.eq mEnd then
      -- ASSERT(lists != listsEnd);
      if it.lists ≠ it.listsEnd then
        let lists := it.lists + 1
        if lists ≠ it.listsEnd then do
          let p ← mem[lists]?
          let m ← entsize_list_tt.begin_ K p (hdr p)
          let mEnd ← entsize_list_tt.end_ K p (hdr p)
          some ⟨lists, it.listsEnd, some m, some mEnd⟩
        else some ⟨lists, it.listsEnd, some m, some mEnd⟩
      else none
    else some { it with m := some m }
  else none

end iterator

/-- `begin()`: `iterator(beginLists(), endLists())`. -/
def begin_ (K : ListKind) (hdr : Ptr → entsize_list_tt) (self : list_array_tt) :
    Option iterator :=
  iterator.init K hdr self.slots self.beginLists self.endLists

/-- `end()`: `iterator(e, e)` with `e = endLists()`. -/
def end_ (K : ListKind) (hdr : Ptr → entsize_list_tt) (self : list_array_tt) :
    Option iterator :=
  iterator.init K hdr self.slots self.endLists self.endLists

/-- The loop `for (it = begin(); it != end(); ++it) visit(*it)` from `it` on,
run for at most `fuel` rounds.  The result is `none` when an assertion of the
iterator fails, when it reads an uninitialised field, or when the fuel does
not suffice. -/
def walk (K : ListKind) (hdr : Ptr → entsize_list_tt) (self : list_array_tt) :
    Nat → iterator → Option (List Ptr)
  | 0, it => do
    let e ← self.end_ K hdr
    if (← it.ne e) then none else some []
  | fuel + 1, it => do
    let e ← self.end_ K hdr
    if (← it.ne e) then
      let x ← it.deref
      let it' ← it.incr K hdr self.slots
      let rest ← walk K hdr self fuel it'
      some (x :: rest)
    else some []

/-- The element references a `begin()`..`end()` loop over the aggregator
visits, in the order of the visit. -/
def elements (K : ListKind) (hdr : Ptr → entsize_list_tt) (self : list_array_tt)
    (fuel : Nat) : Option (List Ptr) := do
  let b ← self.begin_ K hdr
  walk K hdr self fuel b

/-- A first-match scan in iteration order: the loop
`for (it = begin(); it != end(); ++it) if (p(*it)) return &*it;`, run for at
most `fuel` rounds.  `some none` is the scan reaching `end()` without a match;
`none` is a failure as in `walk`. -/
def scan (K : ListKind) (hdr : Ptr → entsize_list_tt) (self : list_array_tt)
    (p : Ptr → Bool) : Nat → iterator → Option (Option Ptr)
  | 0, it => do
    let e ← self.end_ K hdr
    if (← it.ne e) then none else some none
  | fuel + 1, it => do
    let e ← self.end_ K hdr
    if (← it.ne e) then
      let x ← it.deref
      if p x then some (some x)
      else
        let it' ← it.incr K hdr self.slots
        scan K hdr self p fuel it'
    else some none

/-- The first element in `begin()`..`end()` order that satisfies `p`. -/
def firstMatch (K : ListKind) (hdr : Ptr → entsize_list_tt) (self : list_array_tt)
    (p : Ptr → Bool) (fuel : Nat) : Option (Option Ptr) := do
  let b ← self.begin_ K hdr
  scan K hdr self p fuel b

end list_array_tt

end Objc

/-! ## bucket_t -/

namespace Objc

/-- The method cache encodings of `objc-config.h` that need no pointer
authentication hardware: `CACHE_IMP_ENCODING_NONE` (the cache holds the raw
IMP) and `CACHE_IMP_ENCODING_ISA_XOR` (the cache holds `ISA ^ IMP`). -/
inductive CACHE_IMP_ENCODING where
  | NONE
  | ISA_XOR
deriving DecidableEq, Repr

/-- `bucket_t`: the two words `_sel` and `_imp`. -/
structure bucket_t where
  /-- Field `explicit_atomic<SEL> _sel`. -/
  _sel : Nat
  /-- Field `explicit_atomic<uintptr_t> _imp`. -/
  _imp : Nat
deriving DecidableEq, Repr

namespace bucket_t

/-- `encodeImp(base, newImp, newSel, cls)`; `base` and `newSel` are unused
without pointer authentication. -/
def encodeImp (enc : CACHE_IMP_ENCODING) (_base : Ptr) (newImp : Nat) (_newSel : Nat)
    (cls : Nat) : Nat :=
  if newImp = 0 then 0
  else
    match enc with
    | .ISA_XOR => newImp ^^^ cls
    | .NONE => newImp

/-- `sel()`. -/
def sel (b : bucket_t) : Nat := b._sel

/-- `rawImp(cls)`. -/
def rawImp (enc : CACHE_IMP_ENCODING) (b : bucket_t) (cls : Nat) : Nat :=
  let imp := b._imp
  if imp = 0 then 0
  else
    match enc with
    | .ISA_XOR => imp ^^^ cls
    | .NONE => imp

/-- `imp(base, cls)`. -/
def imp (enc : CACHE_IMP_ENCODING) (b : bucket_t) (_base : Ptr) (cls : Nat) : Nat :=
  let imp := b._imp
  if imp = 0 then 0
  else
    match enc with
    | .ISA_XOR => imp ^^^ cls
    | .NONE => imp

end bucket_t

end Objc

/-! ## class_ro_t, class_rw_ext_t, class_rw_t -/

namespace Objc

/-- `RO_REALIZED`: `1<<31`, never set by the compiler. -/
def RO_REALIZED : Nat := 1 <<< 31

/-- `RW_REALIZED`: `1<<31`. -/
def RW_REALIZED : Nat := 1 <<< 31

/-- `class_ro_t` (LP64 layout), the fields of the base record. -/
structure class_ro_t where
  /-- Field `uint32_t flags`. -/
  flags : Nat
  /-- Field `uint32_t instanceStart`. -/
  instanceStart : Nat
  /-- Field `uint32_t instanceSize`. -/
  instanceSize : Nat
  /-- Field `const uint8_t * ivarLayout` (in a union with `nonMetaclass`). -/
  ivarLayout : Ptr
  /-- Field `explicit_atomic<const char *> name`. -/
  name : Ptr
  /-- Field `void *baseMethodList`. -/
  baseMethodList : Ptr
  /-- Field `protocol_list_t * baseProtocols`. -/
  baseProtocols : Ptr
  /-- Field `const ivar_list_t * ivars`. -/
  ivars : Ptr
  /-- Field `const uint8_t * weakIvarLayout`. -/
  weakIvarLayout : Ptr
  /-- Field `property_list_t *baseProperties`. -/
  baseProperties : Ptr
deriving DecidableEq, Repr

/-- `class_ro_t::baseMethods()` without `ptrauth_calls`:
`(method_list_t *)baseMethodList`. -/
def class_ro_t.baseMethods (ro : class_ro_t) : Ptr := ro.baseMethodList

/-- `class_rw_ext_t`. -/
structure class_rw_ext_t where
  /-- Field `class_ro_t_authed_ptr<const class_ro_t> ro`. -/
  ro : Ptr
  /-- Field `method_array_t methods`. -/
  methods : list_array_tt
  /-- Field `property_array_t properties`. -/
  properties : list_array_tt
  /-- Field `protocol_array_t protocols`. -/
  protocols : list_array_tt
  /-- Field `char *demangledName`. -/
  demangledName : Ptr
  /-- Field `uint32_t version`. -/
  version : Nat
deriving DecidableEq, Repr

/-- Modelled from the spec: the value of the cell `ro_or_rw_ext`, an
`objc::PointerUnion<const class_ro_t, class_rw_ext_t, ...>` whose header
`PointerUnion.h` is not among the sources.  Following "a tagged cell holding
either a ClassBaseRecord reference or a ClassExtendedRecord reference,
discriminated by one bit": `is<T>()` tests the constructor, `get<T>()` reads
the pointer, and `dyn_cast<T>()` is the pointer, or `nullptr` for the other
constructor. -/
inductive ro_or_rw_ext_t where
  | ro (p : Ptr)
  | rwe (p : Ptr)
deriving DecidableEq, Repr

/-- `class_rw_t`. -/
structure class_rw_t where
  /-- Field `uint32_t flags`. -/
  flags : Nat
  /-- Field `uint16_t witness`. -/
  witness : Nat
  /-- Field `explicit_atomic<uintptr_t> ro_or_rw_ext`. -/
  ro_or_rw_ext : ro_or_rw_ext_t
  /-- Field `Class firstSubclass`. -/
  firstSubclass : Ptr
  /-- Field `Class nextSiblingClass`. -/
  nextSiblingClass : Ptr
deriving DecidableEq, Repr

/-- A `class_rw_t` together with the memory that holds the `class_rw_ext_t`
records its cell can point to (`exts p` is the record at address `p`). -/
structure RwState where
  /-- The `class_rw_t` itself. -/
  rw : class_rw_t
  /-- The extended records in memory, by address. -/
  exts : Ptr → class_rw_ext_t

namespace class_rw_t

/-- `get_ro_or_rwe()`. -/
def get_ro_or_rwe (s : RwState) : ro_or_rw_ext_t := s.rw.ro_or_rw_ext

/-- `set_ro_or_rwe(const class_ro_t *ro)`. -/
def set_ro_or_rwe (ro : Ptr) (s : RwState) : RwState :=
  { s with rw := { s.rw with ro_or_rw_ext := .ro ro } }

/-- `set_ro_or_rwe(class_rw_ext_t *rwe, const class_ro_t *ro)`: `rwe->ro = ro`,
then the cell is stored with the extended record. -/
def set_ro_or_rwe_ext (rwe : Ptr) (ro : Ptr) (s : RwState) : RwState :=
  { rw := { s.rw with ro_or_rw_ext := .rwe rwe }
    exts := Function.update s.exts rwe { s.exts rwe with ro := ro } }

/-- Modelled from the spec: `extAlloc(ro)` is declared in the header and defined
outside the sources.  Following "`extAllocIfNeeded()` lazily allocates the
extended record wrapping the current base reference": a record is allocated at
the address `fresh` with the content `init`, and
`set_ro_or_rwe(rwe, ro)` makes it wrap `ro` and publishes it in the cell; the
result is the new record. -/
def extAlloc (fresh : Ptr) (init : class_rw_ext_t) (ro : Ptr) (s : RwState) :
    RwState × Ptr :=
  (set_ro_or_rwe_ext fresh ro { s with exts := Function.update s.exts fresh init }, fresh)

/-- `setFlags(set)`: atomic `flags |= set`. -/
def setFlags (set : Nat) (s : RwState) : RwState :=
  { s with rw := { s.rw with flags := s.rw.flags ||| set } }

/-- `clearFlags(clear)`: atomic `flags &= ~clear` on `uint32_t`. -/
def clearFlags (clear : Nat) (s : RwState) : RwState :=
  { s with rw := { s.rw with flags := s.rw.flags &&& (0xFFFFFFFF ^^^ clear) } }

/-- `changeFlags(set, clear)`: `ASSERT((set & clear) == 0)`, then the
compare-and-swap loop stores `(oldf | set) & ~clear`. -/
def changeFlags (set clear : Nat) (s : RwState) : Option RwState :=
  if set &&& clear = 0 then
    some { s with rw := { s.rw with
      flags := (s.rw.flags ||| set) &&& (0xFFFFFFFF ^^^ clear) } }
  else none

/-- `ext()`: `get_ro_or_rwe().dyn_cast<class_rw_ext_t *>()`. -/
def ext (s : RwState) : Ptr :=
  match get_ro_or_rwe s with
  | .rwe p => p
  | .ro _ => 0

/-- `extAllocIfNeeded()`; `fresh` and `init` are the allocation `extAlloc`
makes when it is called. -/
def extAllocIfNeeded (fresh : Ptr) (init : class_rw_ext_t) (s : RwState) : RwState × Ptr :=
  match get_ro_or_rwe s with
  | .rwe p => (s, p)
  | .ro p => extAlloc fresh init p s

/-- `ro()`. -/
def ro (s : RwState) : Ptr :=
  match get_ro_or_rwe s with
  | .rwe p => (s.exts p).ro
  | .ro p => p

/-- `set_ro(ro)`. -/
def set_ro (ro : Ptr) (s : RwState) : RwState :=
  match get_ro_or_rwe s with
  | .rwe p => { s with exts := Function.update s.exts p { s.exts p with ro := ro } }
  | .ro _ => set_ro_or_rwe ro s

/-- `methods()`; `ros p` is the `class_ro_t` stored at `p`, and
`method_array_t{l}` is the constructor `list_array_tt(List *l) : list(l)`. -/
def methods (ros : Ptr → class_ro_t) (s : RwState) : list_array_tt :=
  match get_ro_or_rwe s with
  | .rwe p => (s.exts p).methods
  | .ro p => .list (ros p).baseMethods

/-- `properties()`. -/
def properties (ros : Ptr → class_ro_t) (s : RwState) : list_array_tt :=
  match get_ro_or_rwe s with
  | .rwe p => (s.exts p).properties
  | .ro p => .list (ros p).baseProperties

/-- `protocols()`. -/
def protocols (ros : Ptr → class_ro_t) (s : RwState) : list_array_tt :=
  match get_ro_or_rwe s with
  | .rwe p => (s.exts p).protocols
  | .ro p => .list (ros p).baseProtocols

/-- One call of the mutators of `class_rw_t` that C12 names. -/
inductive Op where
  | set_ro (ro : Ptr)
  | extAllocIfNeeded (fresh : Ptr) (init : class_rw_ext_t)
  | setFlags (set : Nat)
  | clearFlags (clear : Nat)
  | changeFlags (set clear : Nat)

/-- The condition the call asserts: `(set & clear) == 0` for `changeFlags`. -/
def Op.asserted : Op → Prop
  | .changeFlags set clear => set &&& clear = 0
  | _ => True

/-- The state after one call; `none` when the call fails its assertion. -/
def Op.apply : Op → RwState → Option RwState
  | .set_ro ro, s => some (class_rw_t.set_ro ro s)
  | .extAllocIfNeeded fresh init, s => some (class_rw_t.extAllocIfNeeded fresh init s).1
  | .setFlags set, s => some (class_rw_t.setFlags set s)
  | .clearFlags clear, s => some (class_rw_t.clearFlags clear s)
  | .changeFlags set clear, s => class_rw_t.changeFlags set clear s

/-- The state after a sequence of calls, first call first. -/
def run : List Op → RwState → Option RwState
  | [], s => some s
  | op :: ops, s => (op.apply s).bind (run ops)

end class_rw_t

/-- What a `class_t->data` pointer can point at: a bare `class_ro_t` before
realization, a `class_rw_t` after it. -/
inductive ClassData where
  | ro (r : class_ro_t)
  | rw (w : class_rw_t)

/-- The `uint32_t` at offset 0 of the pointed-at record, which is the field
`flags` of `class_rw_t` and of `class_ro_t` alike. -/
def ClassData.flags : ClassData → Nat
  | .ro r => r.flags
  | .rw w => w.flags

/-- `FAST_DATA_MASK` (LP64). -/
def FAST_DATA_MASK : Nat := 0x00007ffffffffff8

namespace class_data_bits_t

/-- `data()`: `bits & FAST_DATA_MASK`. -/
def data (bits : Nat) : Ptr := bits &&& FAST_DATA_MASK

/-- `safe_ro()`; `mem p` is the record stored at `p` and `exts` the extended
records.  The result is `none` where the source would read a `class_ro_t`
through `class_rw_t::ro()`. -/
def safe_ro (mem : Ptr → ClassData) (exts : Ptr → class_rw_ext_t) (bits : Nat) : Option Ptr :=
  let maybe_rw := data bits
  if (mem maybe_rw).flags &&& RW_REALIZED ≠ 0 then
    -- maybe_rw is rw
    match mem maybe_rw with
    | .rw w => some (class_rw_t.ro ⟨w, exts⟩)
    | .ro _ => none
  else
    -- maybe_rw is actually ro
    some maybe_rw

end class_data_bits_t

end Objc

/-! ## The dispatch cache -/

namespace Objc

/-- `preopt_cache_entry_t`. -/
structure preopt_cache_entry_t where
  /-- Field `uint32_t sel_offs`. -/
  sel_offs : Nat
  /-- Field `uint32_t imp_offs`. -/
  imp_offs : Nat
deriving DecidableEq, Repr

/-- `preopt_cache_t`; the bit-fields hold `shift` in 5 bits, `mask` in 11 bits
and `occupied` in 14 bits. -/
structure preopt_cache_t where
  /-- Field `int32_t fallback_class_offset`. -/
  fallback_class_offset : Int
  /-- Bit-field `uint16_t shift : 5`. -/
  shift : Nat
  /-- Bit-field `uint16_t mask : 11`. -/
  mask : Nat
  /-- Bit-field `uint16_t occupied : 14`. -/
  occupied : Nat
  /-- Bit-field `uint16_t has_inlines : 1`. -/
  has_inlines : Bool
  /-- Bit-field `uint16_t bit_one : 1`. -/
  bit_one : Bool
  /-- The entries `preopt_cache_entry_t entries[]`. -/
  entries : List preopt_cache_entry_t
deriving DecidableEq, Repr

/-- `preopt_cache_t::capacity()`: `mask + 1`. -/
def preopt_cache_t.capacity (c : preopt_cache_t) : Int := (c.mask : Int) + 1

/-- Modelled from the spec: the state of `cache_t`, whose member functions are
declared in the header and defined outside the sources.  Following
"CacheTable: an owned power-of-two Bucket array, a mask, an occupied counter
[...] or, for the preoptimized variant, a non-owned reference to a read-only,
externally built, shared-mapped table": a dynamic cache is its bucket array
(the mask is its length minus one, the empty array is the shared empty
sentinel) with the occupied counter; a preoptimized cache is the table it
refers to. -/
inductive cache_t where
  | dynamic (buckets : List bucket_t) (occupied : Nat)
  | preoptimized (table : preopt_cache_t)
deriving DecidableEq, Repr

namespace cache_t

/-- Modelled from the spec: an empty bucket, "selector == null". -/
def emptyBucket : bucket_t := ⟨0, 0⟩

/-- Modelled from the spec: `capacity()`, "capacity (power of two; zero denotes
a shared empty sentinel)"; for a preoptimized table, its own `capacity()`. -/
def capacity : cache_t → Nat
  | dynamic buckets _ => buckets.length
  | preoptimized table => table.capacity.toNat

/-- Modelled from the spec: `occupied()`, the occupied counter. -/
def occupied : cache_t → Nat
  | dynamic _ occupied => occupied
  | preoptimized table => table.occupied

/-- Modelled from the spec: `initializeToEmpty()`, "CacheTable arrays are
created empty": the shared empty sentinel. -/
def initializeToEmpty : cache_t := dynamic [] 0

/-- Modelled from the spec: the probe of `get` and `insert`, "linear probe
(wrapping) until a bucket whose selector matches (hit [...]) or an empty bucket
(selector == null; miss)", from index `i` for at most `fuel` buckets.  The
result is the index where the probe stops and whether it stops at a match;
`none` is a probe that exhausts the table, the fatal "corruption-detected"
outcome. -/
def probe (buckets : List bucket_t) (sel : Nat) : Nat → Nat → Option (Nat × Bool)
  | 0, _ => none
  | fuel + 1, i =>
    if (buckets.getD i emptyBucket).sel = sel then some (i, true)
    else if (buckets.getD i emptyBucket).sel = 0 then some (i, false)
    else probe buckets sel fuel ((i + 1) &&& (buckets.length - 1))

/-- Modelled from the spec: `cache_getImp(cls, sel)` on the cache of `cls`,
"index = mix(identity(selector)) & mask; linear probe [...]; hit, decode and
return implementation"; the header's comment gives the results: the cached IMP
when one is found, nil (`0`) if there is no cached value and the cache is
dynamic, `value_on_constant_cache_miss` if there is no cached value and the
cache is preoptimized.  The entries of a preoptimized table are offsets from
bases fixed outside the process and are not modelled: of such a table only the
miss is given, its hit is outside this model, and the statements about `get`
are about dynamic tables.  `mix` is the hash the spec leaves open, `enc` the
encoding of the build. -/
def getImp (mix : Nat → Nat) (enc : CACHE_IMP_ENCODING) (cls : Nat) (c : cache_t) (sel : Nat)
    (value_on_constant_cache_miss : Nat) : Option Nat :=
  match c with
  | dynamic buckets _ =>
    if buckets.length = 0 then some 0
    else
      match probe buckets sel buckets.length (mix sel &&& (buckets.length - 1)) with
      | some (i, true) => some ((buckets.getD i emptyBucket).imp enc 0 cls)
      | some (_, false) => some 0
      | none => none
  | preoptimized _ => some value_on_constant_cache_miss

/-- Modelled from the spec: the growth step of `insert`, `reallocate`: "allocate
a new array of double the previous capacity (minimum 4); entries are not
rehashed -- the old array is discarded and the new array starts empty"; the
occupied counter restarts at `0`. -/
def reallocate (oldCapacity : Nat) : cache_t :=
  dynamic (List.replicate (max (2 * oldCapacity) 4) emptyBucket) 0

/-- Modelled from the spec: whether `insert` grows the table first, "if
occupied+1 would exceed three-quarters load factor, or capacity is the empty
sentinel"; a preoptimized cache is first converted "to a private, empty,
writable table". -/
def grows : cache_t → Bool
  | dynamic buckets occupied =>
    decide (buckets.length = 0) || decide (3 * buckets.length < 4 * (occupied + 1))
  | preoptimized _ => true

/-- Modelled from the spec: the table `insert` writes into, after the
conversion of a preoptimized cache and the growth, when one is due. -/
def prepared : cache_t → cache_t
  | dynamic buckets occupied =>
    if grows (dynamic buckets occupied) then reallocate buckets.length
    else dynamic buckets occupied
  | preoptimized _ => reallocate 0

/-- Modelled from the spec: `insert(sel, imp)` on the cache of `cls`: grow when
due, then probe; an empty bucket receives the selector and the encoded
implementation and the occupied counter is incremented; a bucket that already
holds the selector ("re-checks for a concurrently inserted duplicate before
writing") leaves the table as it is. -/
def insert (mix : Nat → Nat) (enc : CACHE_IMP_ENCODING) (cls : Nat) (sel imp : Nat)
    (c : cache_t) : Option cache_t :=
  match prepared c with
  | dynamic buckets occupied =>
    match probe buckets sel buckets.length (mix sel &&& (buckets.length - 1)) with
    | some (i, false) =>
      some (dynamic (buckets.set i ⟨sel, bucket_t.encodeImp enc 0 imp sel cls⟩) (occupied + 1))
    | some (_, true) => some (dynamic buckets occupied)
    | none => none
  | preoptimized _ => none

/-- The number of occupied buckets. -/
def used (buckets : List bucket_t) : Nat :=
  (buckets.filter fun b => b.sel ≠ 0).length

/-- A dynamic cache in the shape the operations keep: empty, or a power of two
of at least 4 buckets, of which `occupied` are in use, at most three quarters
of the capacity. -/
def WellFormed : cache_t → Prop
  | dynamic buckets occupied =>
    occupied = used buckets ∧
      (buckets = [] ∨
        ∃ k, 2 ≤ k ∧ buckets.length = 2 ^ k ∧ 4 * occupied ≤ 3 * buckets.length)
  | preoptimized _ => True

end cache_t

end Objc

namespace Objc

namespace cache_t

/-- Whether some bucket of the cache's own bucket array holds the selector; a
preoptimized cache owns no bucket array. -/
def holds : cache_t → Nat → Bool
  | dynamic buckets _, sel => buckets.any fun b => b.sel == sel
  | preoptimized _, _ => false

/-- A sequence of further `insert` calls (selector, implementation), first
call first, none of which grows the table; `none` when a call would grow the
table or fails. -/
def insertQuietly (mix : Nat → Nat) (enc : CACHE_IMP_ENCODING) (cls : Nat) :
    List (Nat × Nat) → cache_t → Option cache_t
  | [], c => some c
  | (sel, imp) :: rest, c =>
    if grows c then none
    else (insert mix enc cls sel imp c).bind (insertQuietly mix enc cls rest)

end cache_t

/-- A preoptimized table with `mask == 7`. -/
def samplePreoptEight : preopt_cache_t := ⟨0, 0, 7, 3, false, true, []⟩

/-- A hash for the closed statements: the selector itself. -/
def sampleMix : Nat → Nat := fun sel => sel

end Objc

/-! ## The fast instance size bits of cache_t, and objc_class's instance size -/

namespace Objc

/-- Modelled from the spec: `word_align(size_t)` is defined in `objc-os.h`,
which is not among the sources.  By the source's comments on its callers it
rounds up to a pointer-size boundary, 8 bytes on LP64: `(x + 7) & ~7` in
`size_t`. -/
def word_align_size_t (x : Nat) : Nat := ((x + 7) % 2 ^ 64) &&& (2 ^ 64 - 8)

/-- Modelled from the spec: the `uint32_t` overload of `word_align`, which
`alignedInstanceSize` calls: `(x + 7) & ~7` in `uint32_t`. -/
def word_align_uint32 (x : Nat) : Nat := ((x + 7) % 2 ^ 32) &&& (2 ^ 32 - 8)

/-- Modelled from the spec: `align16(size_t)` is defined in `objc-os.h`, which
is not among the sources; it rounds up to the next 16 byte boundary:
`(x + 15) & ~15` in `size_t`. -/
def align16 (x : Nat) : Nat := ((x + 15) % 2 ^ 64) &&& (2 ^ 64 - 16)

/-- `FAST_CACHE_META` (not arm64; on arm64 it is `1<<2`). -/
def FAST_CACHE_META : Nat := 1 <<< 0

/-- `FAST_CACHE_HAS_CXX_CTOR`. -/
def FAST_CACHE_HAS_CXX_CTOR : Nat := 1 <<< 1

/-- `FAST_CACHE_HAS_CXX_DTOR` (not arm64; on arm64 it is `1<<0`). -/
def FAST_CACHE_HAS_CXX_DTOR : Nat := 1 <<< 2

/-- `FAST_CACHE_ALLOC_MASK`. -/
def FAST_CACHE_ALLOC_MASK : Nat := 0x1ff8

/-- `FAST_CACHE_ALLOC_MASK16`. -/
def FAST_CACHE_ALLOC_MASK16 : Nat := 0x1ff0

/-- `FAST_CACHE_ALLOC_DELTA16`. -/
def FAST_CACHE_ALLOC_DELTA16 : Nat := 0x0008

/-- `FAST_CACHE_REQUIRES_RAW_ISA`. -/
def FAST_CACHE_REQUIRES_RAW_ISA : Nat := 1 <<< 13

/-- `FAST_CACHE_HAS_DEFAULT_AWZ`. -/
def FAST_CACHE_HAS_DEFAULT_AWZ : Nat := 1 <<< 14

/-- `FAST_CACHE_HAS_DEFAULT_CORE`. -/
def FAST_CACHE_HAS_DEFAULT_CORE : Nat := 1 <<< 15

namespace cache_t

/-- `hasFastInstanceSize(extra)` on the `uint16_t _flags`.  `constant_p` is
`__builtin_constant_p(extra)` at the call. -/
def hasFastInstanceSize (constant_p : Bool) (extra : Nat) (_flags : Nat) : Bool :=
  if constant_p && extra == 0 then
    _flags &&& FAST_CACHE_ALLOC_MASK16 != 0
  else
    _flags &&& FAST_CACHE_ALLOC_MASK != 0

/-- `fastInstanceSize(extra)`: `ASSERT(hasFastInstanceSize(extra))`, then the
masked flags on the constant-zero path and otherwise
`align16(size + extra - FAST_CACHE_ALLOC_DELTA16)`, computed in `size_t`. -/
def fastInstanceSize (constant_p : Bool) (extra : Nat) (_flags : Nat) : Option Nat :=
  if hasFastInstanceSize constant_p extra _flags then
    if constant_p && extra == 0 then
      some (_flags &&& FAST_CACHE_ALLOC_MASK16)
    else
      let size := _flags &&& FAST_CACHE_ALLOC_MASK
      -- remove the FAST_CACHE_ALLOC_DELTA16 that was added by setFastInstanceSize
      some (align16 ((size + extra + (2 ^ 64 - FAST_CACHE_ALLOC_DELTA16)) % 2 ^ 64))
  else none

/-- `setFastInstanceSize(newSize)`: the new value of `_flags`.  `newBits` and
`sizeBits` are `uint16_t`; `~FAST_CACHE_ALLOC_MASK` is the complement of an
`int`, and the sum `word_align(newSize) + FAST_CACHE_ALLOC_DELTA16` is a
`size_t` that the assignment truncates. -/
def setFastInstanceSize (newSize : Nat) (_flags : Nat) : Nat :=
  let newBits := (_flags &&& (0xFFFFFFFF ^^^ FAST_CACHE_ALLOC_MASK)) % 2 ^ 16
  let sizeBits := ((word_align_size_t newSize + FAST_CACHE_ALLOC_DELTA16) % 2 ^ 64) % 2 ^ 16
  let sizeBits := (sizeBits &&& FAST_CACHE_ALLOC_MASK) % 2 ^ 16
  if newSize ≤ sizeBits then (newBits ||| sizeBits) % 2 ^ 16 else newBits

end cache_t

/-- `RW_FUTURE`. -/
def RW_FUTURE : Nat := 1 <<< 30

/-- `RW_COPIED_RO`. -/
def RW_COPIED_RO : Nat := 1 <<< 27

/-- `RW_REALIZING`. -/
def RW_REALIZING : Nat := 1 <<< 19

/-- The state of an `objc_class` that the functions below read or write. -/
structure objc_class where
  /-- The word `isaBits()` returns. -/
  isa : Nat
  /-- Member `Class superclass`. -/
  superclass : Ptr
  /-- Member `cache_t cache`, without its `_flags`. -/
  cache : cache_t
  /-- Member `cache._flags`. -/
  cache_flags : Nat
  /-- The word `data()->flags`. -/
  rw_flags : Nat
  /-- The word `data()->ro()->instanceSize`. -/
  ro_instanceSize : Nat
  /-- The (selector, implementation) pairs of the method records that an
  iteration of `data()->methods()` visits, in the order of the visit. -/
  methods : List (Nat × Nat)
deriving DecidableEq, Repr

namespace objc_class

/-- `isStubClass()`. -/
def isStubClass (c : objc_class) : Bool := decide (1 ≤ c.isa) && decide (c.isa < 16)

/-- `isRealized()`. -/
def isRealized (c : objc_class) : Bool :=
  !c.isStubClass && (c.rw_flags &&& RW_REALIZED != 0)

/-- `unalignedInstanceSize()`: `ASSERT(isRealized())`, then the `instanceSize`
of the base record. -/
def unalignedInstanceSize (c : objc_class) : Option Nat :=
  if c.isRealized then some c.ro_instanceSize else none

/-- `alignedInstanceSize()`. -/
def alignedInstanceSize (c : objc_class) : Option Nat :=
  c.unalignedInstanceSize.map word_align_uint32

/-- `instanceSize(extraBytes)`; `constant_p` is `__builtin_constant_p` of the
argument where the inlined body tests it. -/
def instanceSize (constant_p : Bool) (extraBytes : Nat) (c : objc_class) : Option Nat :=
  if cache_t.hasFastInstanceSize constant_p extraBytes c.cache_flags then
    cache_t.fastInstanceSize constant_p extraBytes c.cache_flags
  else
    c.alignedInstanceSize.map fun a =>
      let size := (a + extraBytes) % 2 ^ 64
      -- CF requires all objects be at least 16 bytes.
      if size < 16 then 16 else size

/-- `setInstanceSize(newSize)`: the class after the call, `none` when one of
the three assertions fails.  The parameter is a `uint32_t`: the argument of the
call is converted to it, and that value is compared, stored and passed on to
`setFastInstanceSize`. -/
def setInstanceSize (newSize : Nat) (c : objc_class) : Option objc_class :=
  let newSize := newSize % 2 ^ 32
  if c.isRealized && (c.rw_flags &&& RW_REALIZING != 0) then
    if newSize != c.ro_instanceSize then
      if c.rw_flags &&& RW_COPIED_RO != 0 then
        some { c with
          ro_instanceSize := newSize
          cache_flags := cache_t.setFastInstanceSize newSize c.cache_flags }
      else none
    else
      some { c with cache_flags := cache_t.setFastInstanceSize newSize c.cache_flags }
  else none

end objc_class

/-! ## class_data_bits_t: the flag bits -/

/-- `FAST_IS_SWIFT_LEGACY`. -/
def FAST_IS_SWIFT_LEGACY : Nat := 1 <<< 0

/-- `FAST_IS_SWIFT_STABLE`. -/
def FAST_IS_SWIFT_STABLE : Nat := 1 <<< 1

/-- `FAST_HAS_DEFAULT_RR`. -/
def FAST_HAS_DEFAULT_RR : Nat := 1 <<< 2

namespace class_data_bits_t

/-- `getBit(bit)`: `bits & bit` as a `bool`. -/
def getBit (bit : Nat) (bits : Nat) : Bool := bits &&& bit != 0

/-- `setAndClearBits(set, clear)`: `ASSERT((set & clear) == 0)`, then the
store of `(oldBits | set) & ~clear`, which in a run without a concurrent writer
succeeds at the first attempt. -/
def setAndClearBits (set clear : Nat) (bits : Nat) : Option Nat :=
  if set &&& clear = 0 then some ((bits ||| set) &&& (0xFFFFFFFFFFFFFFFF ^^^ clear))
  else none

/-- `setData(newData)`; `newDataFlags` is the word `newData->flags` that the
assertion reads. -/
def setData (newData : Ptr) (newDataFlags : Nat) (bits : Nat) : Option Nat :=
  if data bits = 0 ∨ newDataFlags &&& (RW_REALIZING ||| RW_FUTURE) ≠ 0 then
    some ((bits &&& (0xFFFFFFFFFFFFFFFF ^^^ FAST_DATA_MASK)) ||| newData)
  else none

/-- `isSwiftStable()`. -/
def isSwiftStable (bits : Nat) : Bool := getBit FAST_IS_SWIFT_STABLE bits

/-- `setIsSwiftStable()`. -/
def setIsSwiftStable (bits : Nat) : Option Nat :=
  setAndClearBits FAST_IS_SWIFT_STABLE FAST_IS_SWIFT_LEGACY bits

/-- `isSwiftLegacy()`. -/
def isSwiftLegacy (bits : Nat) : Bool := getBit FAST_IS_SWIFT_LEGACY bits

/-- `setIsSwiftLegacy()`. -/
def setIsSwiftLegacy (bits : Nat) : Option Nat :=
  setAndClearBits FAST_IS_SWIFT_LEGACY FAST_IS_SWIFT_STABLE bits

end class_data_bits_t

/-! ## method_t: the tagged element pointer -/

namespace method_t

/-- `isSmall()`: the bottom bit of `this`. -/
def isSmall (this : Ptr) : Bool := this &&& 1 == 1

/-- `small()`: `ASSERT(isSmall())`, then the address of the `struct small`,
`this & ~1`. -/
def small (this : Ptr) : Option Ptr :=
  if isSmall this then some (this &&& (0xFFFFFFFFFFFFFFFF ^^^ 1)) else none

end method_t

end Objc

/-! ## The lookup orchestrator -/

namespace Objc

namespace objc_class

/-- `getSuperclass()`, in a build without pointer authentication: the member
`superclass`. -/
def getSuperclass (c : objc_class) : Ptr := c.superclass

/-- `isRootClass()`: `getSuperclass() == nil`. -/
def isRootClass (c : objc_class) : Bool := c.getSuperclass == 0

end objc_class

/-- The superclass chain that starts at the class at `cls`: `IsChain classes
cls rest` holds when following `getSuperclass()` from `cls` visits the non-null
classes `rest` in turn and ends at a root class. -/
def IsChain (classes : Ptr → objc_class) : Ptr → List Ptr → Prop
  | cls, [] => (classes cls).isRootClass = true
  | cls, d :: rest => (classes cls).getSuperclass = d ∧ d ≠ 0 ∧ IsChain classes d rest

/-- Modelled from the spec: steps 2, 3 and 5 of `lookup`, whose code is not
among the sources: "scan class's Multi-List of methods [...]; duplicate
selectors across lists resolve to the first match encountered.  If absent,
repeat at class.superclass, continuing to the root; first match anywhere in
the chain wins.  If exhausted at the root with no match, return not-found."
`some none` is not-found; `none` is a walk that `fuel` classes do not end. -/
def resolve (classes : Ptr → objc_class) (sel : Nat) : Nat → Ptr → Option (Option Nat)
  | 0, _ => none
  | fuel + 1, cls =>
    match (classes cls).methods.find? fun m => m.1 == sel with
    | some m => some (some m.2)
    | none =>
      if (classes cls).isRootClass then some none
      else resolve classes sel fuel (classes cls).getSuperclass

/-- Modelled from the spec: `lookup(class, selector)`, whose code is not among
the sources: "1. Dispatch Cache get on class; return on hit.  2. On miss
[...] scan [...].  4. On success, insert the result into the originating
(leaf) class's cache -- never an ancestor's -- [...] return it.  5. [...]
return not-found."  The result is the implementation (`none` for not-found)
with the classes after the call; the outer `none` is a fatal outcome of the
cache or a walk that `fuel` classes do not end. -/
def lookup (mix : Nat → Nat) (enc : CACHE_IMP_ENCODING) (classes : Ptr → objc_class)
    (fuel : Nat) (cls : Ptr) (sel : Nat) : Option (Option Nat × (Ptr → objc_class)) :=
  match cache_t.getImp mix enc cls (classes cls).cache sel 0 with
  | none => none
  | some cached =>
    if cached ≠ 0 then some (some cached, classes)
    else
      match resolve classes sel fuel cls with
      | none => none
      | some none => some (none, classes)
      | some (some imp) =>
        match cache_t.insert mix enc cls sel imp (classes cls).cache with
        | none => none
        | some cache =>
          some (some imp, Function.update classes cls { classes cls with cache := cache })

end Objc

/-! ## method_t records in memory, and method_list_t::duplicate -/

namespace Objc

/-- The memory of the process, field by field: `mem a` is the value of the
field stored at address `a`, a 32-bit field for the two header words of a list
and the three offsets of a small method, a pointer-sized field otherwise. -/
abbrev Memory := Ptr → Nat

/-- The header of the list stored at `p`: `entsizeAndFlags` at offset 0 and
`count` at offset 4. -/
def headerAt (mem : Memory) (p : Ptr) : entsize_list_tt := ⟨mem p, mem (p + 4)⟩

/-- `calloc(size, 1)` when the allocator hands out the block at `dup`: the
`size` bytes from `dup` on read as zero. -/
def calloc (dup size : Nat) (mem : Memory) : Memory :=
  fun a => if dup ≤ a ∧ a < dup + size then 0 else mem a

/-- `RelativePointer<T>::get()` of the relative pointer stored at `a`; the
`int32_t offset` is held as its 32-bit pattern and sign-extended to
`uintptr_t`. -/
def RelativePointer.get (mem : Memory) (a : Ptr) : Ptr :=
  let offset := mem a
  if offset = 0 then 0
  else
    let base := a
    let signExtendedOffset := if offset < 2 ^ 31 then offset else offset + (2 ^ 64 - 2 ^ 32)
    (base + signExtendedOffset) % 2 ^ 64

/-- `entsize_list_tt::byteSize(entsize, count)`:
`sizeof(entsize_list_tt) + count*entsize`, the product in `uint32_t`. -/
def entsize_list_tt.byteSize (entsize count : Nat) : Nat := 8 + (count * entsize) % 2 ^ 32

namespace method_t

/-- The functions `method_t` calls that the sources only declare. -/
structure Runtime where
  /-- `objc::inSharedCache(ptr)`. -/
  inSharedCache : Ptr → Bool
  /-- `remappedImp(needsLock)` of the small method at `this`. -/
  remappedImp : Ptr → Bool → Nat
  /-- `ptrauth_sign_unauthenticated(value, ptrauth_key_function_pointer, 0)`. -/
  ptrauth_sign_unauthenticated : Nat → Nat

/-- `bigSize`: `sizeof(struct big)`, three pointers. -/
def bigSize : Nat := 24

/-- `smallSize`: `sizeof(struct small)`, three `int32_t` offsets. -/
def smallSize : Nat := 12

/-- `big()`: `ASSERT(!isSmall())`, then the record at `this`. -/
def big (this : Ptr) : Option Ptr := if isSmall this then none else some this

/-- `name()`.  In the small branch `s` is the record `small()` returns; with
`CONFIG_SHARED_CACHE_RELATIVE_DIRECT_SELECTORS` set, `small().inSharedCache()`
is `objc::inSharedCache` of its address. -/
def name (rt : Runtime) (mem : Memory) (this : Ptr) : Nat :=
  if isSmall this then
    let s := this &&& (0xFFFFFFFFFFFFFFFF ^^^ 1)
    if rt.inSharedCache s then RelativePointer.get mem s
    else mem (RelativePointer.get mem s)
  else mem this

/-- `types()`: the second field of the record. -/
def types (_rt : Runtime) (mem : Memory) (this : Ptr) : Nat :=
  if isSmall this then
    let s := this &&& (0xFFFFFFFFFFFFFFFF ^^^ 1)
    RelativePointer.get mem (s + 4)
  else mem (this + 8)

/-- `imp(needsLock)`: the third field of the record, for a small method after
the remapped implementation. -/
def imp (rt : Runtime) (mem : Memory) (this : Ptr) (needsLock : Bool) : Nat :=
  if isSmall this then
    let s := this &&& (0xFFFFFFFFFFFFFFFF ^^^ 1)
    let imp := rt.remappedImp this needsLock
    if imp = 0 then rt.ptrauth_sign_unauthenticated (RelativePointer.get mem (s + 8))
    else imp
  else mem (this + 16)

/-- `operator=(const method_t &other)` on the method at `this`:
`ASSERT(!isSmall())`, then the three stores into `big()`, in the order of the
source. -/
def assign (rt : Runtime) (this other : Ptr) (mem : Memory) : Option Memory :=
  if isSmall this then none
  else
    let mem := Function.update mem this (name rt mem other)
    let mem := Function.update mem (this + 8) (types rt mem other)
    let mem := Function.update mem (this + 16) (imp rt mem other false)
    some mem

/-- The addresses of the fields that `name()`, `types()` and `imp()` of the
method at `this` read. -/
def reads (rt : Runtime) (mem : Memory) (this : Ptr) : List Ptr :=
  if isSmall this then
    let s := this &&& (0xFFFFFFFFFFFFFFFF ^^^ 1)
    if rt.inSharedCache s then [s, s + 4, s + 8]
    else [s, s + 4, s + 8, RelativePointer.get mem s]
  else [this, this + 8, this + 16]

end method_t

namespace method_list_t

/-- `isSmallList()`. -/
def isSmallList (l : entsize_list_tt) : Bool :=
  l.flags FlagMask &&& method_t.smallMethodListFlag != 0

/-- `isExpectedSize()`. -/
def isExpectedSize (l : entsize_list_tt) : Bool :=
  if isSmallList l then l.entsize FlagMask == method_t.smallSize
  else l.entsize FlagMask == method_t.bigSize

/-- `std::copy(first, last, d_first)` over the iterators of two method lists:
`while (first != last) *d_first++ = *first++`, each assignment being
`method_t::operator=`, for at most `fuel` rounds; `none` when an assignment
fails its assertion or the fuel does not suffice. -/
def copy (rt : method_t.Runtime) (last : entsize_list_tt.iterator) :
    Nat → entsize_list_tt.iterator → entsize_list_tt.iterator → Memory → Option Memory
  | 0, first, _, mem => if first.ne last then none else some mem
  | fuel + 1, first, d_first, mem =>
    if first.ne last then
      match method_t.assign rt d_first.deref first.deref mem with
      | some mem => copy rt last fuel first.incr d_first.incr mem
      | none => none
    else some mem

/-- `duplicate()` of the list stored at `this`, when `calloc` hands out the
block at `dup`: the new list and the memory after the call. -/
def duplicate (rt : method_t.Runtime) (dup : Ptr) (fuel : Nat) (this : Ptr) (mem : Memory) :
    Option (Ptr × Memory) :=
  let mem :=
    if isSmallList (headerAt mem this) then
      let mem := calloc dup (entsize_list_tt.byteSize method_t.bigSize (headerAt mem this).count) mem
      Function.update mem dup method_t.bigSize
    else
      let mem := calloc dup
        (entsize_list_tt.byteSize ((headerAt mem this).entsize FlagMask) (headerAt mem this).count)
        mem
      Function.update mem dup (headerAt mem this).entsizeAndFlags
  let mem := Function.update mem (dup + 4) (headerAt mem this).count
  match entsize_list_tt.begin_ kind this (headerAt mem this),
      entsize_list_tt.end_ kind this (headerAt mem this),
      entsize_list_tt.begin_ kind dup (headerAt mem dup) with
  | some first, some last, some d_first =>
    (copy rt last fuel first d_first mem).map fun mem => (dup, mem)
  | _, _, _ => none

end method_list_t

end Objc

namespace Objc

/-- The addresses that a read of the method list stored at `this` touches: its
two header words and the fields of its methods. -/
def method_list_t.footprint (rt : method_t.Runtime) (mem : Memory) (this : Ptr) : List Ptr :=
  this :: (this + 4) ::
    (entsize_list_tt.refs method_list_t.kind this (headerAt mem this)).flatMap
      (method_t.reads rt mem)

/-- What the copy loop has established when both iterators stand at index
`j`: outside the new block the memory is the old one, the header of the new
list is in place, and the records below `j` hold the fields of the source's
methods. -/
def CopyInv (rt : method_t.Runtime) (mem0 : Memory) (this : Ptr) (l : entsize_list_tt)
    (dup w c : Nat) (j : Nat) (m : Memory) : Prop :=
  (∀ a, ¬ (dup ≤ a ∧ a < dup + (8 + l.count * 24)) → m a = mem0 a) ∧
    m dup = w ∧ m (dup + 4) = c ∧
    ∀ k, k < j →
      m (dup + 8 + k * 24) =
          method_t.name rt mem0 (entsize_list_tt.nth method_list_t.kind this l k).deref ∧
        m (dup + 8 + k * 24 + 8) =
          method_t.types rt mem0 (entsize_list_tt.nth method_list_t.kind this l k).deref ∧
        m (dup + 8 + k * 24 + 16) =
          method_t.imp rt mem0 (entsize_list_tt.nth method_list_t.kind this l k).deref false

end Objc

/-! ## list_array_tt::duplicateInto -/

namespace Objc

/-- Modelled from the spec: `memdup(a, a->byteSize())` on an `array_t`
(`memdup` is defined outside the sources): a new block that holds the `count`
of `a` and its first `count` slots, `byteSize()` being
`sizeof(array_t) + count*sizeof(lists[0])`; `none` when that size reaches past
the slots `a` was allocated with. -/
def array_t.memdup (a : array_t) : Option array_t :=
  if a.lists.length < a.count then none else some ⟨a.count, a.lists.take a.count⟩

namespace list_array_tt

/-- `duplicateInto(other)`: the aggregator `other` after the call.
`duplicate p s` is `p->duplicate()` of the list type in the state `s` of the
memory, with the new list and the state after the call. -/
def duplicateInto {σ : Type} (duplicate : Ptr → σ → Option (Ptr × σ)) (self : list_array_tt)
    (s : σ) : Option (list_array_tt × σ) :=
  match self with
  | array a =>
    match a.memdup with
    | some other =>
      -- for (uint32_t i = 0; i < a->count; i++)
      ((List.range a.count).foldlM
        (fun (st : array_t × σ) i =>
          (duplicate (a.lists.getD i 0) st.2).map fun r =>
            (({ st.1 with lists := st.1.lists.set i r.1 } : array_t), r.2))
        (other, s)).map fun st => (array st.1, st.2)
    | none => none
  | list l =>
    if l ≠ 0 then (duplicate l s).map fun r => (list r.1, r.2)
    else some (list 0, s)

end list_array_tt

/-- The three values a method is made of: `name()`, `types()` and
`imp(false)`. -/
def method_t.fields (rt : method_t.Runtime) (mem : Memory) (this : Ptr) : Nat × Nat × Nat :=
  (method_t.name rt mem this, method_t.types rt mem this, method_t.imp rt mem this false)

namespace method_array_t

/-- `method_list_t::duplicate()` as the `List::duplicate()` of
`method_array_t`, on the memory and the number of blocks `calloc` has handed
out: its `k`-th block is the one at `fresh k`. -/
def duplicateList (rt : method_t.Runtime) (fresh : Nat → Nat) (fuel : Nat) (this : Ptr)
    (s : Memory × Nat) : Option (Ptr × (Memory × Nat)) :=
  (method_list_t.duplicate rt (fresh s.2) fuel this s.1).map fun r => (r.1, (r.2, s.2 + 1))

/-- The block that the duplicate of the list at `this` occupies when it is
placed at `dup`. -/
def block (mem : Memory) (this : Ptr) (dup : Nat) (a : Nat) : Prop :=
  dup ≤ a ∧ a < dup + (8 + (headerAt mem this).count * 24)

instance (mem : Memory) (this : Ptr) (dup a : Nat) : Decidable (block mem this dup a) :=
  inferInstanceAs (Decidable (_ ∧ _))

/-- What `duplicateInto` needs of the lists `ps` of a `method_array_t` and of
the blocks `calloc` hands out: every list has the expected size, no more than
`fuel` methods and would fit `uint32_t` in big format; the `i`-th block is at
an even non-null address, holds no field of any list of `ps` and lies apart
from the earlier blocks. -/
def Duplicable (rt : method_t.Runtime) (mem : Memory) (fresh : Nat → Nat) (fuel : Nat)
    (ps : List Ptr) : Prop :=
  ∀ i, i < ps.length →
    method_list_t.isExpectedSize (headerAt mem (ps.getD i 0)) = true ∧
    (headerAt mem (ps.getD i 0)).count * 24 < 2 ^ 32 ∧
    (headerAt mem (ps.getD i 0)).count ≤ fuel ∧
    fresh i ≠ 0 ∧ fresh i % 2 = 0 ∧
    (∀ j, j < ps.length → ∀ a : Nat, a ∈ method_list_t.footprint rt mem (ps.getD j 0) →
      ¬ block mem (ps.getD i 0) (fresh i) a) ∧
    (∀ j, j < i →
      fresh j + (8 + (headerAt mem (ps.getD j 0)).count * 24) ≤ fresh i ∨
      fresh i + (8 + (headerAt mem (ps.getD i 0)).count * 24) ≤ fresh j)

instance (rt : method_t.Runtime) (mem : Memory) (fresh : Nat → Nat) (fuel : Nat)
    (ps : List Ptr) : Decidable (Duplicable rt mem fresh fuel ps) :=
  inferInstanceAs (Decidable (∀ i, i < ps.length → _))

end method_array_t

end Objc

namespace Objc

namespace method_array_t

/-- The list at `dup` in the memory `m` is the big-format copy of the list
that the memory `mem` holds at `this`: the header has the count of the source,
and record `i` holds the name, the types and the implementation of the
source's method `i`. -/
def CopiedList (rt : method_t.Runtime) (mem : Memory) (this : Ptr) (dup : Nat) (m : Memory) :
    Prop :=
  headerAt m dup =
      ⟨if method_list_t.isSmallList (headerAt mem this) then method_t.bigSize
        else (headerAt mem this).entsizeAndFlags, (headerAt mem this).count⟩ ∧
    ∀ i, i < (headerAt mem this).count →
      ∃ p, entsize_list_tt.get method_list_t.kind this (headerAt mem this) i = some p ∧
        m (dup + 8 + i * 24) = method_t.name rt mem p ∧
        m (dup + 8 + i * 24 + 8) = method_t.types rt mem p ∧
        m (dup + 8 + i * 24 + 16) = method_t.imp rt mem p false

/-- The memory `m` after the first `k` lists of `ps` were duplicated: outside
the first `k` blocks it is the memory `mem` from before, and block `j` holds
the copy of list `j`. -/
def CopiedUpTo (rt : method_t.Runtime) (mem : Memory) (fresh : Nat → Nat) (ps : List Ptr)
    (k : Nat) (m : Memory) : Prop :=
  (∀ a : Nat, (∀ j, j < k → ¬ block mem (ps.getD j 0) (fresh j) a) → m a = mem a) ∧
    ∀ j, j < k → CopiedList rt mem (ps.getD j 0) (fresh j) m

end method_array_t

end Objc

/-! ## method_list_t::indexOfMethod -/

namespace Objc

/-- `method_list_t::indexOfMethod(meth)` for the list whose header `l` is
stored at `this`: the pointer difference in `uintptr_t`, divided by
`entsize()` and truncated to `uint32_t`, then `ASSERT(i < count)`.  A division
by an `entsize()` of zero is undefined and fails. -/
def method_list_t.indexOfMethod (this : Ptr) (l : entsize_list_tt) (meth : Ptr) : Option Nat :=
  if l.entsize method_list_t.FlagMask = 0 then none
  else
    let i := ((meth % 2 ^ 64 + 2 ^ 64 - this % 2 ^ 64) % 2 ^ 64 /
      l.entsize method_list_t.FlagMask) % 2 ^ 32
    if i < l.count then some i else none

end Objc

/-! ## Sample memory for the closed statements -/

namespace Objc

/-- Three property lists (`entsize` 16): two records at `0x1000`, one at
`0x2000`, three at `0x3000`; an empty list at `0x4000`. -/
def sampleHeaders : Ptr → entsize_list_tt := fun p =>
  if p = 0x1000 then ⟨16, 2⟩
  else if p = 0x2000 then ⟨16, 1⟩
  else if p = 0x3000 then ⟨16, 3⟩
  else if p = 0x4000 then ⟨16, 0⟩
  else ⟨0, 0⟩

/-- Two method lists: a big-format list (`entsize` 24) with one method at
`0x1000`, and a small-format list (`entsize` 12, `smallMethodListFlag` set)
with two methods at `0x2000`. -/
def sampleMethodHeaders : Ptr → entsize_list_tt := fun p =>
  if p = 0x1000 then ⟨24, 1⟩
  else if p = 0x2000 then ⟨0x8000000C, 2⟩
  else ⟨0, 0⟩

/-- The selectors of the sample methods, by element reference: selector `7`
for the method of the list at `0x1000` and for the second method of the list
at `0x2000`. -/
def sampleName : Ptr → Nat := fun x =>
  if x = 0x1008 then 7 else if x = 0x2009 then 5 else if x = 0x2015 then 7 else 0

/-- The implementations of the sample methods, by element reference. -/
def sampleImp : Ptr → Nat := fun x =>
  if x = 0x1008 then 0xA000 else if x = 0x2009 then 0xC000 else if x = 0x2015 then 0xB000 else 0

/-- An extended record wrapping the base record at `0x100`, with the method
list at `0x1000` attached. -/
def sampleExt : class_rw_ext_t :=
  ⟨0x100, .list 0x1000, .list 0, .list 0, 0, 0⟩

/-- A `class_rw_t` in extended form: its cell points to the extended record at
`0x9000`. -/
def sampleRwExtended : RwState :=
  ⟨⟨RW_REALIZED, 0, .rwe 0x9000, 0, 0⟩, fun _ => sampleExt⟩

/-- A `class_rw_t` in base form: its cell points to the base record at
`0x100`. -/
def sampleRwBase : RwState :=
  ⟨⟨RW_REALIZED, 0, .ro 0x100, 0, 0⟩, fun _ => sampleExt⟩

/-- A base record with the method list at `0x1000`, no protocols and the
property list at `0x3000`. -/
def sampleRo : class_ro_t :=
  ⟨0, 8, 16, 0, 0, 0x1000, 0, 0, 0, 0x3000⟩

/-- A realized class that is being realized, with a copied base record, empty
cache flags and instance size 8. -/
def sampleClass : objc_class :=
  ⟨0x100000, 0, cache_t.initializeToEmpty, 0, 0x88080000, 8, []⟩

/-- A root class at `0x100`, with the method `7 -> 0x4000` and an empty cache,
and a leaf class at `0x200`, with another method and an empty cache. -/
def sampleClasses : Ptr → objc_class := fun p =>
  if p = 0x200 then { sampleClass with superclass := 0x100, methods := [(9, 0x5000)] }
  else { sampleClass with methods := [(3, 0x3000), (7, 0x4000)] }

/-- A memory that holds a small method list at `0x2000` with two methods; the
offsets of the second method's name is negative.  The selector references are
at `0x3008` and `0x1014`. -/
def sampleMemory : Memory := fun a =>
  if a = 0x2000 then 0x8000000C else if a = 0x2004 then 2
  else if a = 0x2008 then 0x1000 else if a = 0x200C then 0x2000 else if a = 0x2010 then 0x10000
  else if a = 0x2014 then 0xFFFFF000 else if a = 0x2018 then 0x2000
  else if a = 0x201C then 0x10000
  else if a = 0x3008 then 7 else if a = 0x1014 then 9 else 0

/-- A runtime without a shared cache, remapped implementations or pointer
authentication. -/
def sampleRuntime : method_t.Runtime := ⟨fun _ => false, fun _ _ => 0, fun x => x⟩

/-- Some content of freshly allocated slots. -/
def sampleJunk : Nat → Ptr := fun i => 0xdead0000 + i

end Objc

/-! ## Theorems -/

namespace Objc
open list_array_tt

/-! ### The two copy loops of `attachLists` -/

theorem length_foldl_set {α : Type} (f : Nat → Nat) (g : Nat → α) (is : List Nat) (ls : List α) :
    (is.foldl (fun ls i => ls.set (f i) (g i)) ls).length = ls.length := by
  induction is generalizing ls with
  | nil => rfl
  | cons i is ih => simp [List.foldl_cons, ih]

theorem getElem?_fill {α : Type} (g : Nat → α) (k : Nat) (ls : List α) (n : Nat) :
    ((List.range k).foldl (fun ls i => ls.set i (g i)) ls)[n]? =
      if n < k ∧ n < ls.length then some (g n) else ls[n]? := by
  induction k with
  | zero => simp
  | succ k ih =>
    rw [List.range_succ, List.foldl_append]
    simp only [List.foldl_cons, List.foldl_nil]
    rw [List.getElem?_set, ih, length_foldl_set (fun i => i) g]
    by_cases h1 : k = n
    · subst h1
      by_cases h2 : k < ls.length
      · simp [h2]
      · have h3 : ls[k]? = none := List.getElem?_eq_none (by omega)
        simp [h2, h3]
    · simp only [h1, if_false]
      by_cases h2 : n < k ∧ n < ls.length
      · have h3 : n < k + 1 ∧ n < ls.length := by omega
        simp [h2, h3]
      · have h3 : ¬ (n < k + 1 ∧ n < ls.length) := by omega
        simp [h2, h3]

theorem getElem?_shift {α : Type} (old : List α) (d : α) (k m : Nat) (ls : List α) (n : Nat) :
    ((List.range m).reverse.foldl (fun ls i => ls.set (i + k) (old.getD i d)) ls)[n]? =
      if k ≤ n ∧ n < k + m ∧ n < ls.length then some (old.getD (n - k) d) else ls[n]? := by
  induction m generalizing ls with
  | zero =>
    have h3 : ¬ (k ≤ n ∧ n < k + 0 ∧ n < ls.length) := by omega
    rw [if_neg h3]
    rfl
  | succ m ih =>
    rw [List.range_succ, List.reverse_append]
    simp only [List.reverse_cons, List.reverse_nil, List.nil_append, List.singleton_append,
      List.foldl_cons]
    rw [ih, List.length_set, List.getElem?_set]
    by_cases h1 : m + k = n
    · by_cases h2 : m + k < ls.length
      · have h3 : k ≤ n ∧ n < k + (m + 1) ∧ n < ls.length := by omega
        have h4 : ¬ (k ≤ n ∧ n < k + m ∧ n < ls.length) := by omega
        have h5 : n - k = m := by omega
        rw [if_neg h4, if_pos h1, if_pos h2, if_pos h3, h5]
      · have h3 : ¬ (k ≤ n ∧ n < k + (m + 1) ∧ n < ls.length) := by omega
        have h4 : ¬ (k ≤ n ∧ n < k + m ∧ n < ls.length) := by omega
        have h5 : ls[n]? = none := List.getElem?_eq_none (by omega)
        rw [if_neg h4, if_pos h1, if_neg h2, if_neg h3, h5]
    · by_cases h2 : k ≤ n ∧ n < k + m ∧ n < ls.length
      · have h3 : k ≤ n ∧ n < k + (m + 1) ∧ n < ls.length := by omega
        rw [if_pos h2, if_pos h3]
      · have h3 : ¬ (k ≤ n ∧ n < k + (m + 1) ∧ n < ls.length) := by omega
        rw [if_neg h2, if_neg h1, if_neg h3]

theorem fill_eq {α : Type} (g : Nat → α) (k : Nat) (ls : List α) (h : k ≤ ls.length) :
    (List.range k).foldl (fun ls i => ls.set i (g i)) ls =
      (List.range k).map g ++ ls.drop k := by
  apply List.ext_getElem?
  intro n
  rw [getElem?_fill]
  by_cases h1 : n < k
  · rw [if_pos ⟨h1, by omega⟩, List.getElem?_append_left (by simpa using h1),
      List.getElem?_map, List.getElem?_range h1]
    rfl
  · rw [if_neg (by omega), List.getElem?_append_right (by simpa using Nat.le_of_not_lt h1),
      List.length_map, List.length_range, List.getElem?_drop]
    congr 1
    omega

theorem shift_eq {α : Type} (old : List α) (d : α) (k : Nat) (ls : List α)
    (h : ls.length = k + old.length) :
    (List.range old.length).reverse.foldl (fun ls i => ls.set (i + k) (old.getD i d)) ls =
      ls.take k ++ old := by
  apply List.ext_getElem?
  intro n
  rw [getElem?_shift]
  by_cases h1 : n < k
  · rw [if_neg (by omega), List.getElem?_append_left (by simp; omega), List.getElem?_take_of_lt h1]
  · rw [List.getElem?_append_right (by simp; omega), List.length_take,
      Nat.min_eq_left (by omega)]
    by_cases h2 : n < k + old.length
    · rw [if_pos ⟨by omega, h2, by omega⟩, List.getD_eq_getElem?_getD,
        List.getElem?_eq_getElem (by omega : n - k < old.length)]
      rfl
    · rw [if_neg (by omega), List.getElem?_eq_none (by omega),
        List.getElem?_eq_none (by omega)]

theorem drop_set_last {α : Type} (ls : List α) (k : Nat) (x : α) (h : ls.length = k + 1) :
    (ls.set k x).drop k = [x] := by
  apply List.ext_getElem?
  intro n
  rw [List.getElem?_drop, List.getElem?_set]
  rcases Nat.eq_zero_or_pos n with h0 | h0
  · subst h0
    rw [if_pos (by omega), if_pos (by omega)]
    rfl
  · rw [if_neg (by omega), List.getElem?_eq_none (by omega),
      List.getElem?_eq_none (by simp; omega)]

theorem int_of_uint32_pred (n : Nat) (h : n ≤ 2 ^ 31) :
    (int_of_uint32 ((n + 2 ^ 32 - 1) % 2 ^ 32) + 1).toNat = n := by
  unfold int_of_uint32
  rcases Nat.eq_zero_or_pos n with h0 | h0
  · subst h0; decide
  · have h1 : (n + 2 ^ 32 - 1) % 2 ^ 32 = n - 1 := by omega
    rw [h1]
    have h2 : n - 1 < 2 ^ 31 := by omega
    simp only [h2, if_true]
    omega

theorem listPtrs_attachLists (junk addedLists : Nat → Ptr) (addedCount : Nat)
    (self : list_array_tt) (hwf : WellFormed self)
    (hfit : self.countLists + addedCount < 2 ^ 31)
    (hnn : self = list 0 → addedCount = 1 → addedLists 0 ≠ 0) :
    (self.attachLists junk addedLists addedCount).listPtrs =
      (List.range addedCount).map addedLists ++ self.listPtrs := by
  rcases Nat.eq_zero_or_pos addedCount with hk | hk
  · subst hk; simp [attachLists]
  have hk0 : addedCount ≠ 0 := by omega
  cases self with
  | array a =>
    simp only [WellFormed] at hwf
    simp only [countLists] at hfit
    have hnew : (a.count + addedCount) % 2 ^ 32 = a.count + addedCount := by omega
    simp only [attachLists, hk0, if_false, hnew, int_of_uint32_pred a.count (by omega)]
    simp only [listPtrs, slots, beginLists, endLists, List.drop_zero, Nat.sub_zero]
    have hmod : List.foldl (fun ls i => ls.set ((i + addedCount) % 2 ^ 32) (a.lists.getD i 0))
        (List.map junk (List.range (a.count + addedCount))) (List.range a.count).reverse =
        List.foldl (fun ls i => ls.set (i + addedCount) (a.lists.getD i 0))
        (List.map junk (List.range (a.count + addedCount))) (List.range a.count).reverse := by
      apply List.foldl_ext
      intro ls i hi
      simp only [List.mem_reverse, List.mem_range] at hi
      have : (i + addedCount) % 2 ^ 32 = i + addedCount := by omega
      rw [this]
    rw [hmod, hwf, shift_eq _ _ _ _ (by simp; omega), fill_eq _ _ _ (by simp)]
    have h1 : (List.take addedCount (List.map junk (List.range (a.lists.length + addedCount)))).length
        = addedCount := by simp
    rw [List.drop_append_of_le_length (by omega), List.drop_of_length_le (by omega),
      List.nil_append, List.take_of_length_le (by simp [Nat.add_comm]),
      List.take_of_length_le (by omega)]
  | list l =>
    simp only [countLists] at hfit
    by_cases hl : l = 0
    · subst hl
      by_cases h1 : addedCount = 1
      · subst h1
        have := hnn rfl rfl
        simp [attachLists, listPtrs, slots, beginLists, endLists, this, List.range_succ]
      · simp only [attachLists, hk0, if_false, h1, and_false, ne_eq, not_true, zero_add]
        have hnew : addedCount % 2 ^ 32 = addedCount := by omega
        simp only [listPtrs, slots, beginLists, endLists, List.drop_zero, Nat.sub_zero, hnew,
          if_false, not_true, List.take_nil, List.append_nil]
        rw [fill_eq _ _ _ (by simp)]
        simp
    · simp only [if_pos (show l ≠ 0 from hl)] at hfit
      have hnew : (1 + addedCount) % 2 ^ 32 = 1 + addedCount := by omega
      simp only [attachLists, hk0, if_false, hl, false_and, ne_eq, not_false_eq_true, if_true,
        hnew]
      simp only [listPtrs, slots, beginLists, endLists, List.drop_zero, Nat.sub_zero, ne_eq, hl,
        not_false_eq_true, if_true]
      rw [fill_eq _ _ _ (by simp), drop_set_last _ _ _ (by simp; omega)]
      rw [List.take_of_length_le (by simp; omega)]
      simp


/-! ### Walking one list -/

section perlist
variable (K : ListKind) (this : Ptr) (l : entsize_list_tt)

theorem begin_eq_nth : entsize_list_tt.begin_ K this l = some (entsize_list_tt.nth K this l 0) := by
  simp [entsize_list_tt.begin_, entsize_list_tt.iterator.init, entsize_list_tt.getOrEnd,
    entsize_list_tt.nth]

theorem end_eq_nth (hK : K.StrideInvariant) (hfit : l.count * l.entsize K.FlagMask < 2 ^ 32) :
    entsize_list_tt.end_ K this l = some (entsize_list_tt.nth K this l l.count) := by
  unfold entsize_list_tt.end_ entsize_list_tt.iterator.init entsize_list_tt.getOrEnd
    entsize_list_tt.nth
  rw [if_pos (Nat.le_refl _), Nat.mod_eq_of_lt hfit, hK l]
  rfl

theorem incr_nth (i : Nat) (hi : i + 1 < 2 ^ 32) :
    (entsize_list_tt.nth K this l i).incr = entsize_list_tt.nth K this l (i + 1) := by
  simp only [entsize_list_tt.iterator.incr, entsize_list_tt.iterator.add, entsize_list_tt.nth,
    entsize_list_tt.iterator.mk.injEq, true_and]
  constructor
  · have : (((i : Int) + 1) % 2 ^ 32) = ((i + 1 : Nat) : Int) := by
      have : ((i : Int) + 1) = ((i + 1 : Nat) : Int) := by push_cast; ring
      rw [this]
      norm_cast
      exact Nat.mod_eq_of_lt hi
    rw [this]; simp
  · have : ((K.modify l (this + 8) + i * l.entsize K.FlagMask : Nat) : Int) + 1 * (l.entsize K.FlagMask : Int)
        = ((K.modify l (this + 8) + (i + 1) * l.entsize K.FlagMask : Nat) : Int) := by
      push_cast; ring
    rw [this]
    exact Int.toNat_natCast _

theorem ne_nth (i n : Nat) (hpos : 0 < l.entsize K.FlagMask) :
    (entsize_list_tt.nth K this l i).ne (entsize_list_tt.nth K this l n) = decide (i ≠ n) := by
  simp only [entsize_list_tt.iterator.ne, entsize_list_tt.nth, bne_iff_ne, ne_eq]
  by_cases h : i = n
  · subst h; simp
  · have : i * l.entsize K.FlagMask ≠ n * l.entsize K.FlagMask := by
      intro h'
      exact h (Nat.eq_of_mul_eq_mul_right hpos h')
    simp [h, this]

theorem eq_nth (i n : Nat) (hpos : 0 < l.entsize K.FlagMask) :
    (entsize_list_tt.nth K this l i).eq (entsize_list_tt.nth K this l n) = decide (i = n) := by
  simp only [entsize_list_tt.iterator.eq, entsize_list_tt.nth]
  by_cases h : i = n
  · subst h; simp
  · have : i * l.entsize K.FlagMask ≠ n * l.entsize K.FlagMask := by
      intro h'
      exact h (Nat.eq_of_mul_eq_mul_right hpos h')
    simp [h, this]

theorem get_eq_nth (hK : K.StrideInvariant) (hfit : l.count * l.entsize K.FlagMask < 2 ^ 32)
    (i : Nat) (hi : i < l.count) :
    entsize_list_tt.get K this l i = some (entsize_list_tt.nth K this l i).deref := by
  have h1 : i * l.entsize K.FlagMask ≤ l.count * l.entsize K.FlagMask := Nat.mul_le_mul_right _ (Nat.le_of_lt hi)
  have h2 : (i * l.entsize K.FlagMask) % 2 ^ 32 = i * l.entsize K.FlagMask := Nat.mod_eq_of_lt (by omega)
  unfold entsize_list_tt.get entsize_list_tt.getOrEnd entsize_list_tt.nth
    entsize_list_tt.iterator.deref
  rw [if_pos hi, if_pos (Nat.le_of_lt hi), h2, hK l]

theorem refs_eq_map (hK : K.StrideInvariant) (hfit : l.count * l.entsize K.FlagMask < 2 ^ 32) :
    entsize_list_tt.refs K this l =
      (List.range l.count).map fun i => (entsize_list_tt.nth K this l i).deref := by
  unfold entsize_list_tt.refs
  rw [← List.filterMap_eq_map]
  apply List.filterMap_congr
  intro i hi
  exact get_eq_nth K this l hK hfit i (List.mem_range.mp hi)

end perlist

/-! ### Walking the aggregator -/

theorem end_eq (K : ListKind) (hdr : Ptr → entsize_list_tt) (self : list_array_tt) :
    self.end_ K hdr = some ⟨self.endLists, self.endLists, none, none⟩ := by
  simp [list_array_tt.end_, list_array_tt.iterator.init]

theorem walk_at_end (K : ListKind) (hdr : Ptr → entsize_list_tt) (self : list_array_tt)
    (m mEnd : Option entsize_list_tt.iterator) (fuel : Nat) :
    walk K hdr self fuel ⟨self.endLists, self.endLists, m, mEnd⟩ = some [] := by
  cases fuel <;> simp [walk, end_eq, list_array_tt.iterator.ne]

theorem length_listPtrs (self : list_array_tt) (hend : self.endLists ≤ self.slots.length) :
    self.listPtrs.length = self.endLists := by
  simp [listPtrs, beginLists, hend]

theorem getElem?_listPtrs (self : list_array_tt) (j : Nat) (hj : j < self.endLists) :
    self.listPtrs[j]? = self.slots[j]? := by
  simp [listPtrs, beginLists, List.getElem?_take, hj]

theorem walk_from (K : ListKind) (hK : K.StrideInvariant) (hdr : Ptr → entsize_list_tt)
    (self : list_array_tt) (hend : self.endLists ≤ self.slots.length)
    (hit : ∀ p ∈ self.listPtrs, (hdr p).Iterable K) :
    ∀ (fuel j i : Nat) (p : Ptr), self.listPtrs[j]? = some p → i < (hdr p).count →
      ((hdr p).count - i) +
          ((self.listPtrs.drop (j + 1)).flatMap fun q => entsize_list_tt.refs K q (hdr q)).length
        ≤ fuel →
      walk K hdr self fuel
          ⟨j, self.endLists, some (entsize_list_tt.nth K p (hdr p) i),
            some (entsize_list_tt.nth K p (hdr p) (hdr p).count)⟩ =
        some ((List.range' i ((hdr p).count - i)).map
              (fun n => (entsize_list_tt.nth K p (hdr p) n).deref) ++
            (self.listPtrs.drop (j + 1)).flatMap fun q => entsize_list_tt.refs K q (hdr q)) := by
  intro fuel
  induction fuel with
  | zero =>
    intro j i p hp hi hfuel
    omega
  | succ fuel ih =>
    intro j i p hp hi hfuel
    have hjlt : j < self.listPtrs.length := by
      by_contra h
      rw [List.getElem?_eq_none (by omega)] at hp
      exact Option.noConfusion hp
    have hlen := length_listPtrs self hend
    have hj : j < self.endLists := by omega
    have hpmem : p ∈ self.listPtrs := List.mem_iff_getElem?.mpr ⟨j, hp⟩
    obtain ⟨hc, hpos, hfit⟩ := hit p hpmem
    have hcnt : (hdr p).count < 2 ^ 32 := by
      calc (hdr p).count = (hdr p).count * 1 := (Nat.mul_one _).symm
        _ ≤ (hdr p).count * (hdr p).entsize K.FlagMask := Nat.mul_le_mul_left _ hpos
        _ < 2 ^ 32 := hfit
    have hrange : List.range' i ((hdr p).count - i) =
        i :: List.range' (i + 1) ((hdr p).count - (i + 1)) := by
      have : (hdr p).count - i = ((hdr p).count - (i + 1)) + 1 := by omega
      rw [this, List.range'_succ]
    simp only [walk, end_eq, list_array_tt.iterator.ne, list_array_tt.iterator.deref,
      list_array_tt.iterator.incr, Option.bind_eq_bind, Option.some_bind, Option.map_some',
      ne_eq, Nat.ne_of_lt hj, not_false_eq_true, if_true, Option.pure_def]
    rw [ne_nth K p (hdr p) _ _ hpos, incr_nth K p (hdr p) i (by omega),
      eq_nth K p (hdr p) _ _ hpos]
    simp only [ne_eq, Nat.ne_of_lt hi, not_false_eq_true, decide_True, if_true]
    by_cases hlast : i + 1 = (hdr p).count
    · simp only [hlast, decide_True, if_true]
      have hrest : (hdr p).count - i = 1 := by omega
      by_cases hnext : j + 1 = self.endLists
      · have hdrop : self.listPtrs.drop (j + 1) = [] := List.drop_of_length_le (by omega)
        rw [hdrop, hrest]
        simp only [hnext, not_true, if_false, Option.some_bind]
        rw [walk_at_end]
        simp
      · have hj1 : j + 1 < self.listPtrs.length := by omega
        obtain ⟨q, hq⟩ : ∃ q, self.listPtrs[j + 1]? = some q :=
          ⟨_, List.getElem?_eq_getElem hj1⟩
        have hqs : self.slots[j + 1]? = some q := by
          rw [← getElem?_listPtrs self (j + 1) (by omega)]; exact hq
        have hqmem : q ∈ self.listPtrs := List.mem_iff_getElem?.mpr ⟨j + 1, hq⟩
        obtain ⟨hqc, hqpos, hqfit⟩ := hit q hqmem
        have hdrop : self.listPtrs.drop (j + 1) = q :: self.listPtrs.drop (j + 1 + 1) := by
          rw [List.drop_eq_getElem_cons hj1]
          congr 1
          have := List.getElem?_eq_getElem hj1
          rw [hq] at this
          exact (Option.some.inj this).symm
        simp only [hnext, not_false_eq_true, if_true, hqs, Option.some_bind,
          begin_eq_nth, end_eq_nth K q (hdr q) hK hqfit]
        rw [hdrop] at hfuel ⊢
        simp only [List.flatMap_cons, List.length_append] at hfuel
        rw [refs_eq_map K q (hdr q) hK hqfit] at hfuel
        simp only [List.length_map, List.length_range] at hfuel
        rw [ih (j + 1) 0 q hq hqc (by omega), hrest, List.flatMap_cons,
          refs_eq_map K q (hdr q) hK hqfit, List.range_eq_range']
        simp
    · simp only [hlast, decide_False, if_false, Bool.false_eq_true, Option.some_bind]
      rw [ih j (i + 1) p hp (by omega) (by omega), hrange]
      simp

theorem endLists_le_of_wellFormed (self : list_array_tt) (hwf : self.WellFormed) :
    self.endLists ≤ self.slots.length := by
  cases self with
  | array a => simp only [WellFormed] at hwf; simp [endLists, slots, hwf]
  | list l => simp only [endLists, slots]; split <;> simp

theorem elements_eq_refs (K : ListKind) (hK : K.StrideInvariant) (hdr : Ptr → entsize_list_tt)
    (self : list_array_tt) (hwf : self.WellFormed)
    (hit : ∀ p ∈ self.listPtrs, (hdr p).Iterable K)
    (fuel : Nat) (hfuel : (self.refs K hdr).length ≤ fuel) :
    self.elements K hdr fuel = some (self.refs K hdr) := by
  have hend := endLists_le_of_wellFormed self hwf
  have hlen := length_listPtrs self hend
  unfold elements list_array_tt.begin_ list_array_tt.iterator.init
  by_cases h0 : self.endLists = 0
  · have hnil : self.listPtrs = [] := List.length_eq_zero.mp (by omega)
    simp only [beginLists, h0, ne_eq, not_true, if_false, Option.bind_eq_bind, Option.some_bind]
    have := walk_at_end K hdr self none none fuel
    rw [h0] at this
    rw [this, list_array_tt.refs, hnil]
    rfl
  · have h1 : 0 < self.listPtrs.length := by omega
    obtain ⟨p, hp⟩ : ∃ p, self.listPtrs[0]? = some p := ⟨_, List.getElem?_eq_getElem h1⟩
    have hps : self.slots[0]? = some p := by
      rw [← getElem?_listPtrs self 0 (by omega)]; exact hp
    have hpmem : p ∈ self.listPtrs := List.mem_iff_getElem?.mpr ⟨0, hp⟩
    obtain ⟨hc, hpos, hfit⟩ := hit p hpmem
    have hdrop : self.listPtrs = p :: self.listPtrs.drop 1 := by
      have h2 := List.drop_eq_getElem_cons h1
      rw [List.drop_zero] at h2
      rw [h2]
      congr 1
      have := List.getElem?_eq_getElem h1
      rw [hp] at this
      exact (Option.some.inj this).symm
    have hrefs : self.refs K hdr = (List.range' 0 ((hdr p).count - 0)).map
          (fun n => (entsize_list_tt.nth K p (hdr p) n).deref) ++
        (self.listPtrs.drop (0 + 1)).flatMap fun q => entsize_list_tt.refs K q (hdr q) := by
      conv_lhs => rw [list_array_tt.refs, hdrop]
      rw [List.flatMap_cons, refs_eq_map K p (hdr p) hK hfit, List.range_eq_range']
      rfl
    simp only [beginLists, ne_eq, Ne.symm h0, not_false_eq_true, if_true, hps,
      Option.bind_eq_bind, Option.some_bind, begin_eq_nth, end_eq_nth K p (hdr p) hK hfit]
    rw [hrefs] at hfuel ⊢
    simp only [List.length_append, List.length_map, List.length_range'] at hfuel
    exact walk_from K hK hdr self hend hit fuel 0 0 p hp hc (by omega)

theorem wellFormed_attachLists (junk addedLists : Nat → Ptr) (addedCount : Nat)
    (self : list_array_tt) (hwf : self.WellFormed) :
    (self.attachLists junk addedLists addedCount).WellFormed := by
  unfold attachLists
  split
  · exact hwf
  · cases self with
    | array a =>
      simp only [WellFormed]
      rw [length_foldl_set (fun i => i), length_foldl_set, List.length_map, List.length_range]
    | list l =>
      simp only
      split
      · trivial
      · simp only [WellFormed]
        rw [length_foldl_set (fun i => i)]
        split <;> simp

theorem countLists_eq_length (self : list_array_tt) (hwf : self.WellFormed) :
    self.countLists = self.listPtrs.length := by
  rw [length_listPtrs self (endLists_le_of_wellFormed self hwf)]
  cases self <;> rfl

theorem listPtrs_attachAll (junk : Nat → Ptr) (calls : List (List Ptr)) :
    ∀ (self : list_array_tt), self.WellFormed →
      self.countLists + calls.flatten.length < 2 ^ 31 →
      (∀ p ∈ calls.flatten, p ≠ 0) →
      (self.attachAll junk calls).WellFormed ∧
      (self.attachAll junk calls).listPtrs = calls.reverse.flatten ++ self.listPtrs := by
  induction calls with
  | nil => intro self hwf _ _; exact ⟨hwf, by simp [attachAll]⟩
  | cons c cs ih =>
    intro self hwf hfit hnn
    simp only [List.flatten_cons, List.length_append, List.mem_append] at hfit hnn
    have hstep := listPtrs_attachLists junk (fun i => c.getD i 0) c.length self hwf (by omega)
      (by
        intro _ hlen
        have hi : 0 < c.length := by omega
        show c.getD 0 0 ≠ 0
        apply hnn
        left
        rw [List.getD_eq_getElem?_getD, List.getElem?_eq_getElem hi]
        exact List.getElem_mem _)
    have hmap : (List.range c.length).map (fun i => c.getD i 0) = c := by
      apply List.ext_getElem?
      intro n
      by_cases hn : n < c.length
      · rw [List.getElem?_map, List.getElem?_range hn, List.getElem?_eq_getElem hn]
        simp [List.getD_eq_getElem?_getD, List.getElem?_eq_getElem hn]
      · rw [List.getElem?_eq_none (by simp; omega), List.getElem?_eq_none (by omega)]
    rw [hmap] at hstep
    have hwf1 := wellFormed_attachLists junk (fun i => c.getD i 0) c.length self hwf
    have hcl := countLists_eq_length _ hwf1
    have hcl0 := countLists_eq_length _ hwf
    rw [hstep, List.length_append] at hcl
    obtain ⟨h1, h2⟩ := ih (self.attachLists junk (fun i => c.getD i 0) c.length) hwf1
      (by omega) (fun p hp => hnn p (Or.inr hp))
    refine ⟨h1, ?_⟩
    show (attachAll junk cs (self.attachLists junk (fun i => c.getD i 0) c.length)).listPtrs = _
    rw [h2, hstep]
    simp

/-! ### The instantiations of the source are stride invariant -/

theorem strideInvariant_nop (FlagMask : Nat) :
    ListKind.StrideInvariant ⟨FlagMask, PointerModifierNop⟩ := by
  intro l a k
  rfl

theorem lor_one (n : Nat) : n ||| 1 = 2 * (n / 2) + 1 := by
  have h1 : (n ||| 1) % 2 = 1 := by
    rw [Nat.mod_two_eq_one_iff_testBit_zero, Nat.testBit_or]
    simp
  have h2 : (n ||| 1) / 2 = n / 2 := by
    rw [Nat.or_div_two]
    simp
  omega

theorem method_entsize_even (l : entsize_list_tt) :
    l.entsize method_list_t.FlagMask % 2 = 0 := by
  have h : ¬ (l.entsize method_list_t.FlagMask % 2 = 1) := by
    rw [Nat.mod_two_eq_one_iff_testBit_zero, entsize_list_tt.entsize, Nat.testBit_and]
    simp [method_list_t.FlagMask]
  omega

theorem strideInvariant_method_list_t : method_list_t.kind.StrideInvariant := by
  intro l a k
  show method_t.pointer_modifier.modify l (a + k * l.entsize method_list_t.FlagMask) =
    method_t.pointer_modifier.modify l a + k * l.entsize method_list_t.FlagMask
  unfold method_t.pointer_modifier.modify
  split
  · rw [lor_one, lor_one]
    have := method_entsize_even l
    obtain ⟨c, hc⟩ : ∃ c, l.entsize method_list_t.FlagMask = 2 * c :=
      ⟨l.entsize method_list_t.FlagMask / 2, by omega⟩
    rw [hc]
    have : (a + k * (2 * c)) / 2 = a / 2 + k * c := by
      rw [show a + k * (2 * c) = a + 2 * (k * c) by ring]
      omega
    rw [this]
    ring
  · rfl

/-! ### C1: iteration order after a sequence of attachLists calls -/

/-- C1, as stated, fails: with the base list at `0x1000` (two records) and one
`attachLists` call adding the list at `0x2000` (one record), the iteration
visits the record of the attached list first, `[0x2008, 0x1008, 0x1018]`,
whereas base-list-first order is `[0x1008, 0x1018, 0x2008]`. -/
theorem C1_base_first_counterexample :
    (attachAll sampleJunk [[0x2000]] (list 0x1000)).elements property_list_t.kind
        sampleHeaders 3 = some [0x2008, 0x1008, 0x1018] ∧
      (([0x1000] ++ [[0x2000]].flatten).flatMap fun p =>
        entsize_list_tt.refs property_list_t.kind p (sampleHeaders p)) =
        [0x1008, 0x1018, 0x2008] ∧
      decide ((attachAll sampleJunk [[0x2000]] (list 0x1000)).elements property_list_t.kind
        sampleHeaders 3 = some (([0x1000] ++ [[0x2000]].flatten).flatMap fun p =>
          entsize_list_tt.refs property_list_t.kind p (sampleHeaders p))) = false := by
  decide

/-- C1, amended: for a stride-invariant instantiation, a non-null base list and
any sequence of `attachLists` calls with non-null lists, all lists non-empty
with a positive stride and fewer than `2^31` lists in total, iterating from
`begin()` to `end()` (with enough fuel for every element) yields exactly the
elements of the lists of the LAST call first, then those of the earlier calls
back to the first, and the base list last; within one call the lists come in
`addedLists` order and within a list the elements in index order. -/
theorem C1_iteration_is_latest_first (K : ListKind) (hK : K.StrideInvariant)
    (hdr : Ptr → entsize_list_tt) (junk : Nat → Ptr) (base : Ptr) (calls : List (List Ptr))
    (hbase : base ≠ 0) (hnn : ∀ p ∈ calls.flatten, p ≠ 0)
    (hit : ∀ p ∈ base :: calls.flatten, (hdr p).Iterable K)
    (hfit : 1 + calls.flatten.length < 2 ^ 31) (fuel : Nat)
    (hfuel : ((calls.reverse.flatten ++ [base]).flatMap fun p =>
      entsize_list_tt.refs K p (hdr p)).length ≤ fuel) :
    ((list base).attachAll junk calls).elements K hdr fuel =
      some ((calls.reverse.flatten ++ [base]).flatMap fun p =>
        entsize_list_tt.refs K p (hdr p)) := by
  have hbl : (list base).listPtrs = [base] := by
    simp [listPtrs, slots, beginLists, endLists, hbase]
  obtain ⟨hwf, hptrs⟩ := listPtrs_attachAll junk calls (list base) trivial
    (by simp only [countLists, if_pos hbase]; exact hfit) hnn
  rw [hbl] at hptrs
  have hrefs : ((list base).attachAll junk calls).refs K hdr =
      (calls.reverse.flatten ++ [base]).flatMap fun p => entsize_list_tt.refs K p (hdr p) := by
    rw [list_array_tt.refs, hptrs]
  rw [← hrefs] at hfuel ⊢
  apply elements_eq_refs K hK hdr _ hwf _ fuel hfuel
  intro p hp
  rw [hptrs] at hp
  apply hit
  simp only [List.mem_append, List.mem_flatten, List.mem_reverse, List.mem_singleton,
    List.mem_cons] at hp ⊢
  rcases hp with ⟨c, hc, hpc⟩ | hp | hp
  · exact Or.inr ⟨c, hc, hpc⟩
  · exact Or.inl hp
  · exact absurd hp (List.not_mem_nil p)

/-- C1, amended, at a concrete input: the base list at `0x1000`, then a call
attaching `0x2000` and a call attaching `0x3000`. -/
theorem C1_iteration_is_latest_first_witness :
    ((list 0x1000).attachAll sampleJunk [[0x2000], [0x3000]]).elements property_list_t.kind
        sampleHeaders 6 =
      some [0x3008, 0x3018, 0x3028, 0x2008, 0x1008, 0x1018] :=
  C1_iteration_is_latest_first property_list_t.kind (strideInvariant_nop 0) sampleHeaders
    sampleJunk 0x1000 [[0x2000], [0x3000]] (by decide) (by decide) (by decide) (by decide) 6
    (by decide)

/-! ### C2: an attached category list shadows the older entries -/

theorem attachLists_front (junk addedLists : Nat → Ptr) (k : Nat) (self : list_array_tt)
    (hk : 0 < k) (hnn : addedLists 0 ≠ 0) (hfit : self.countLists + k < 2 ^ 32) :
    0 < (self.attachLists junk addedLists k).endLists ∧
      (self.attachLists junk addedLists k).slots[0]? = some (addedLists 0) := by
  have hk0 : k ≠ 0 := by omega
  cases self with
  | array a =>
    simp only [countLists] at hfit
    have hnew : (a.count + k) % 2 ^ 32 = a.count + k := Nat.mod_eq_of_lt hfit
    simp only [attachLists, hk0, if_false, hnew, endLists, slots]
    refine ⟨by omega, ?_⟩
    rw [getElem?_fill, if_pos]
    refine ⟨hk, ?_⟩
    rw [length_foldl_set, List.length_map, List.length_range]
    omega
  | list l =>
    by_cases hl : l = 0
    · subst hl
      by_cases h1 : k = 1
      · subst h1
        simp [attachLists, endLists, slots, hnn]
      · have hnew : k % 2 ^ 32 = k := Nat.mod_eq_of_lt (by simpa [countLists] using hfit)
        simp only [attachLists, hk0, if_false, h1, and_false, ne_eq, not_true, zero_add, hnew,
          endLists, slots]
        refine ⟨hk, ?_⟩
        rw [getElem?_fill, if_pos]
        refine ⟨hk, ?_⟩
        rw [List.length_map, List.length_range]
        exact hk
    · simp only [countLists, if_pos (show l ≠ 0 from hl)] at hfit
      have hnew : (1 + k) % 2 ^ 32 = 1 + k := Nat.mod_eq_of_lt hfit
      simp only [attachLists, hk0, if_false, hl, false_and, ne_eq, not_false_eq_true, if_true,
        hnew, endLists, slots]
      refine ⟨by omega, ?_⟩
      rw [getElem?_fill, if_pos]
      refine ⟨hk, ?_⟩
      rw [List.length_set, List.length_map, List.length_range]
      omega

theorem attachLists_one_front (junk addedLists : Nat → Ptr) (self : list_array_tt)
    (hnn : addedLists 0 ≠ 0) (hfit : self.countLists + 1 < 2 ^ 32) :
    0 < (self.attachLists junk addedLists 1).endLists ∧
      (self.attachLists junk addedLists 1).slots[0]? = some (addedLists 0) :=
  attachLists_front junk addedLists 1 self (by decide) hnn hfit

theorem scan_first_list (K : ListKind) (_hK : K.StrideInvariant) (hdr : Ptr → entsize_list_tt)
    (self : list_array_tt) (pr : Ptr → Bool) (cat : Ptr) (j : Nat)
    (hend : 0 < self.endLists)
    (hsize : (hdr cat).count * (hdr cat).entsize K.FlagMask < 2 ^ 32)
    (hj : j < (hdr cat).count)
    (hhit : pr (entsize_list_tt.nth K cat (hdr cat) j).deref = true)
    (hfirst : ∀ i, i < j → pr (entsize_list_tt.nth K cat (hdr cat) i).deref = false) :
    ∀ (fuel i : Nat), i ≤ j → j - i < fuel →
      scan K hdr self pr fuel
          ⟨0, self.endLists, some (entsize_list_tt.nth K cat (hdr cat) i),
            some (entsize_list_tt.nth K cat (hdr cat) (hdr cat).count)⟩ =
        some (some (entsize_list_tt.nth K cat (hdr cat) j).deref) := by
  intro fuel
  induction fuel with
  | zero => intro i _ h; omega
  | succ fuel ih =>
    intro i hij hfuel
    simp only [scan, end_eq, list_array_tt.iterator.ne, list_array_tt.iterator.deref,
      list_array_tt.iterator.incr, Option.bind_eq_bind, Option.some_bind, Option.map_some',
      ne_eq, Nat.ne_of_lt hend, not_false_eq_true, if_true, Option.pure_def]
    rcases Nat.lt_or_eq_of_le hij with hlt | heq
    · have hpos : 0 < (hdr cat).entsize K.FlagMask := by
        by_contra h0
        have h0 : (hdr cat).entsize K.FlagMask = 0 := by omega
        have h1 := hfirst i hlt
        have h2 : (entsize_list_tt.nth K cat (hdr cat) i).deref =
            (entsize_list_tt.nth K cat (hdr cat) j).deref := by
          simp [entsize_list_tt.nth, entsize_list_tt.iterator.deref, h0]
        rw [h2, hhit] at h1
        exact Bool.noConfusion h1
      have hcnt : (hdr cat).count < 2 ^ 32 := by
        calc (hdr cat).count = (hdr cat).count * 1 := (Nat.mul_one _).symm
          _ ≤ (hdr cat).count * (hdr cat).entsize K.FlagMask := Nat.mul_le_mul_left _ hpos
          _ < 2 ^ 32 := hsize
      rw [hfirst i hlt, ne_nth K cat (hdr cat) _ _ hpos, incr_nth K cat (hdr cat) i (by omega),
        eq_nth K cat (hdr cat) _ _ hpos]
      have h3 : i ≠ (hdr cat).count := by omega
      have h4 : i + 1 ≠ (hdr cat).count := by omega
      simp only [ne_eq, h3, not_false_eq_true, decide_True, if_true, h4, decide_False,
        Bool.false_eq_true, if_false, Option.some_bind]
      exact ih (i + 1) (by omega) (by omega)
    · subst heq
      rw [hhit]
      simp

/-- C2: whatever a method aggregator held before (in particular an entry
`S -> A`), after `attachLists` of one non-null category list of less than
`2^32` bytes whose first entry with selector `S` is `x`, with implementation
`B`, the first-match scan over `begin()`..`end()` for selector `S` stops at
`x`: it resolves `S` to `B`.  (`name` and `imp` read a method's selector and
implementation through its element reference.) -/
theorem C2_attached_category_wins (hdr : Ptr → entsize_list_tt) (junk addedLists : Nat → Ptr)
    (self : list_array_tt) (name imp : Ptr → Nat) (S B : Nat) (j : Nat) (x : Ptr)
    (hnn : addedLists 0 ≠ 0)
    (hfit : self.countLists + 1 < 2 ^ 32)
    (hsize : (hdr (addedLists 0)).count *
      (hdr (addedLists 0)).entsize method_list_t.FlagMask < 2 ^ 32)
    (hx : entsize_list_tt.get method_list_t.kind (addedLists 0) (hdr (addedLists 0)) j = some x)
    (hname : name x = S) (himp : imp x = B)
    (hfirst : ∀ i y, i < j →
      entsize_list_tt.get method_list_t.kind (addedLists 0) (hdr (addedLists 0)) i = some y →
      name y ≠ S)
    (fuel : Nat) (hfuel : j < fuel) :
    ∃ m, (self.attachLists junk addedLists 1).firstMatch method_list_t.kind hdr
        (fun y => name y == S) fuel = some (some m) ∧ name m = S ∧ imp m = B := by
  have hK := strideInvariant_method_list_t
  have hj : j < (hdr (addedLists 0)).count := by
    by_contra h
    simp [entsize_list_tt.get, h] at hx
  have hxn := get_eq_nth method_list_t.kind (addedLists 0) (hdr (addedLists 0)) hK hsize j hj
  rw [hx] at hxn
  have hxe := Option.some.inj hxn
  obtain ⟨hend, hslot⟩ := attachLists_one_front junk addedLists self hnn hfit
  refine ⟨x, ?_, hname, himp⟩
  unfold firstMatch list_array_tt.begin_ list_array_tt.iterator.init
  simp only [beginLists, ne_eq, Nat.ne_of_lt hend, not_false_eq_true, if_true, hslot,
    Option.bind_eq_bind, Option.some_bind, begin_eq_nth,
    end_eq_nth method_list_t.kind (addedLists 0) (hdr (addedLists 0)) hK hsize]
  rw [hxe]
  apply scan_first_list method_list_t.kind hK hdr _ _ (addedLists 0) j hend hsize hj
  · rw [← hxe]; simp [hname]
  · intro i hi
    have hgi := get_eq_nth method_list_t.kind (addedLists 0) (hdr (addedLists 0)) hK hsize i
      (by omega)
    have := hfirst i _ hi hgi
    simpa using this
  · exact Nat.zero_le j
  · omega

/-- C2 at a concrete input: the aggregator holds the list at `0x1000`, whose
method has selector `7` and implementation `0xA000`; the category list at
`0x2000` (small format) has selector `7` with implementation `0xB000` as its
second entry. -/
theorem C2_attached_category_wins_witness :
    ∃ m, ((list 0x1000).attachLists sampleJunk (fun _ => 0x2000) 1).firstMatch
        method_list_t.kind sampleMethodHeaders (fun y => sampleName y == 7) 2 = some (some m) ∧
      sampleName m = 7 ∧ sampleImp m = 0xB000 :=
  C2_attached_category_wins sampleMethodHeaders sampleJunk (fun _ => 0x2000) (list 0x1000)
    sampleName sampleImp 7 0xB000 1 0x2015 (by decide) (by decide) (by decide) (by decide)
    (by decide) (by decide)
    (by
      intro i y hi hy
      have hi0 : i = 0 := by omega
      subst hi0
      have : y = 0x2009 := by
        have h : entsize_list_tt.get method_list_t.kind 0x2000 (sampleMethodHeaders 0x2000) 0
            = some 0x2009 := by decide
        rw [h] at hy
        exact (Option.some.inj hy).symm
      subst this
      decide)
    2 (by decide)

/-! ### C3: attachLists neither loses nor duplicates an element -/

/-- C4: `attachLists` rebuilds only the index structure.  For a well-formed
aggregator whose new number of lists fits `int`, the list references held
before the call are, in the same relative order, the last references held
after it (the reference at position `i` moves to position `i + addedCount`);
each still points at the same list, so its header (`entsizeAndFlags`, `count`)
and its element references read from the unchanged list memory `hdr` are the
same.  The list memory is no argument and no result of `attachLists`: the
call neither reads nor writes a list. -/
theorem C4_attach_keeps_held_lists (K : ListKind) (hdr : Ptr → entsize_list_tt)
    (junk addedLists : Nat → Ptr) (addedCount : Nat) (self : list_array_tt)
    (hwf : self.WellFormed) (hfit : self.countLists + addedCount < 2 ^ 31) :
    self.listPtrs <:+ (self.attachLists junk addedLists addedCount).listPtrs ∧
      (∀ i p, self.listPtrs[i]? = some p →
        (self.attachLists junk addedLists addedCount).listPtrs[i + addedCount]? = some p) ∧
      (self.listPtrs.map fun p => (p, hdr p, entsize_list_tt.refs K p (hdr p))) <:+
        ((self.attachLists junk addedLists addedCount).listPtrs.map
          fun p => (p, hdr p, entsize_list_tt.refs K p (hdr p))) := by
  by_cases hempty : self = list 0
  · subst hempty
    have h0 : (list 0).listPtrs = [] := by decide
    rw [h0]
    exact ⟨List.nil_suffix, by simp, List.nil_suffix⟩
  · have hptrs := listPtrs_attachLists junk addedLists addedCount self hwf hfit
      (fun h => absurd h hempty)
    rw [hptrs]
    refine ⟨List.suffix_append _ _, ?_, ?_⟩
    · intro i p hp
      rw [List.getElem?_append_right (by simp), List.length_map, List.length_range,
        Nat.add_sub_cancel]
      exact hp
    · rw [List.map_append]
      exact List.suffix_append _ _

/-- C4 at a concrete input: the aggregator holds the lists `0x2000`, `0x1000`
and the list at `0x3000` is attached. -/
theorem C4_attach_keeps_held_lists_witness :
    [0x2000, 0x1000] <:+
      ((array ⟨2, [0x2000, 0x1000]⟩).attachLists sampleJunk (fun _ => 0x3000) 1).listPtrs :=
  (C4_attach_keeps_held_lists property_list_t.kind sampleHeaders sampleJunk (fun _ => 0x3000) 1
    (array ⟨2, [0x2000, 0x1000]⟩) rfl (by decide)).1

/-! ### C5: attachLists with addedCount == 0 -/

/-- C5: `attachLists` with `addedCount == 0` is a no-op.  Whatever the
aggregator (empty, single list, array), the `addedLists` pointer and the
content of fresh memory, the representation after the call is the one before
it, and so are `countLists()`, `count()` and the iterated element sequence
(for every fuel). -/
theorem C5_attach_nothing_is_noop (K : ListKind) (hdr : Ptr → entsize_list_tt)
    (junk addedLists : Nat → Ptr) (self : list_array_tt) (fuel : Nat) :
    self.attachLists junk addedLists 0 = self ∧
      (self.attachLists junk addedLists 0).countLists = self.countLists ∧
      (self.attachLists junk addedLists 0).count hdr = self.count hdr ∧
      (self.attachLists junk addedLists 0).elements K hdr fuel = self.elements K hdr fuel := by
  have h : self.attachLists junk addedLists 0 = self := by
    unfold attachLists
    rw [if_pos rfl]
  rw [h]
  exact ⟨rfl, rfl, rfl, rfl⟩

/-! ### C6: the number of lists after attachLists -/

/-- C6: for `k >= 1` non-null added lists and a new total that fits
`uint32_t`, `countLists()` after `attachLists` is `countLists()` before plus
`k`; the result has no array exactly when the aggregator was empty and
`k == 1`; otherwise it is an array whose `count` and whose number of allocated
slots are both exactly the new total. -/
theorem C6_attach_adds_k_lists (junk addedLists : Nat → Ptr) (k : Nat) (self : list_array_tt)
    (hk : 1 ≤ k) (hnn : ∀ i, i < k → addedLists i ≠ 0)
    (hfit : self.countLists + k < 2 ^ 32) :
    (self.attachLists junk addedLists k).countLists = self.countLists + k ∧
      ((self.attachLists junk addedLists k).hasArray = false ↔ (self = list 0 ∧ k = 1)) ∧
      ((self.attachLists junk addedLists k).hasArray = true →
        ∃ a, self.attachLists junk addedLists k = array a ∧
          a.count = self.countLists + k ∧ a.lists.length = self.countLists + k) := by
  have hk0 : k ≠ 0 := by omega
  cases self with
  | array a =>
    simp only [countLists] at hfit
    have hnew : (a.count + k) % 2 ^ 32 = a.count + k := Nat.mod_eq_of_lt hfit
    simp only [attachLists, hk0, if_false, hnew]
    refine ⟨rfl, by simp [hasArray], fun _ => ⟨_, rfl, rfl, ?_⟩⟩
    rw [length_foldl_set (fun i => i), length_foldl_set, List.length_map, List.length_range]
    rfl
  | list l =>
    by_cases hl : l = 0
    · subst hl
      by_cases h1 : k = 1
      · subst h1
        have := hnn 0 (by omega)
        simp [attachLists, countLists, hasArray, this]
      · have hnew : k % 2 ^ 32 = k := Nat.mod_eq_of_lt (by simpa [countLists] using hfit)
        simp only [attachLists, hk0, if_false, h1, and_false, ne_eq, not_true, zero_add, hnew]
        refine ⟨by simp [countLists], by simp [hasArray, h1], fun _ => ⟨_, rfl, ?_, ?_⟩⟩
        · simp [countLists]
        · rw [length_foldl_set (fun i => i), List.length_map, List.length_range]
          simp [countLists]
    · simp only [countLists, if_pos (show l ≠ 0 from hl)] at hfit
      have hnew : (1 + k) % 2 ^ 32 = 1 + k := Nat.mod_eq_of_lt hfit
      simp only [attachLists, hk0, if_false, hl, false_and, ne_eq, not_false_eq_true, if_true,
        hnew]
      refine ⟨by simp [countLists, hl], by simp [hasArray, hl], fun _ => ⟨_, rfl, ?_, ?_⟩⟩
      · simp [countLists, hl]
      · rw [length_foldl_set (fun i => i), List.length_set, List.length_map, List.length_range]
        simp [countLists, hl]

/-- C6 at a concrete input: two lists are attached to the aggregator that
holds a single list. -/
theorem C6_attach_adds_k_lists_witness :
    ((list 0x1000).attachLists sampleJunk (fun i => [0x2000, 0x3000].getD i 0) 2).countLists =
      (list 0x1000).countLists + 2 :=
  (C6_attach_adds_k_lists sampleJunk (fun i => [0x2000, 0x3000].getD i 0) 2 (list 0x1000)
    (by decide) (by decide) (by decide)).1
/-! ### C7: getOrEnd and get -/

/-- C7: for a list with `count = n` stored at `this`, `getOrEnd(i)` passes its
assertion exactly when `i <= n` and `get(i)` exactly when `i < n`; so index `n`
is an end position for `getOrEnd` and no element for `get`.  For `i < n`,
`get(i)` is the pointer modifier applied to the address `8 + i*entsize()`
bytes past the header, the product being the source's `uint32_t` product
(equal to the exact product whenever that is below `2^32`). -/
theorem C7_get_and_getOrEnd (K : ListKind) (this : Ptr) (l : entsize_list_tt) :
    (∀ i, (entsize_list_tt.getOrEnd K this l i).isSome = true ↔ i ≤ l.count) ∧
      (∀ i, (entsize_list_tt.get K this l i).isSome = true ↔ i < l.count) ∧
      (entsize_list_tt.getOrEnd K this l l.count).isSome = true ∧
      entsize_list_tt.get K this l l.count = none ∧
      (∀ i, i < l.count →
        entsize_list_tt.get K this l i =
          some (K.modify l (this + 8 + (i * l.entsize K.FlagMask) % 2 ^ 32))) ∧
      (∀ i, i < l.count → i * l.entsize K.FlagMask < 2 ^ 32 →
        entsize_list_tt.get K this l i =
          some (K.modify l (this + 8 + i * l.entsize K.FlagMask))) := by
  have hge : ∀ i, (entsize_list_tt.getOrEnd K this l i).isSome = true ↔ i ≤ l.count := by
    intro i
    unfold entsize_list_tt.getOrEnd
    split <;> simp [*]
  have hg : ∀ i, i < l.count →
      entsize_list_tt.get K this l i =
        some (K.modify l (this + 8 + (i * l.entsize K.FlagMask) % 2 ^ 32)) := by
    intro i hi
    unfold entsize_list_tt.get entsize_list_tt.getOrEnd
    rw [if_pos hi, if_pos (Nat.le_of_lt hi)]
  refine ⟨hge, ?_, (hge _).mpr (Nat.le_refl _), ?_, hg, ?_⟩
  · intro i
    by_cases hi : i < l.count
    · simp [hg i hi, hi]
    · simp [entsize_list_tt.get, hi]
  · simp [entsize_list_tt.get]
  · intro i hi hprod
    rw [hg i hi, Nat.mod_eq_of_lt hprod]

/-- C7 at a concrete input: the small-format method list with two methods at
`0x2000`; `get(1)` is the tagged address of the record at offset `8 + 1*12`. -/
theorem C7_get_and_getOrEnd_witness :
    entsize_list_tt.get method_list_t.kind 0x2000 ⟨0x8000000C, 2⟩ 1 =
      some (method_list_t.kind.modify ⟨0x8000000C, 2⟩ (0x2000 + 8 + 1 * 12)) :=
  (C7_get_and_getOrEnd method_list_t.kind 0x2000 ⟨0x8000000C, 2⟩).2.2.2.2.2 1
    (by decide) (by decide)

/-! ### C8: iterating one list -/

theorem iterate_incr_nth (K : ListKind) (this : Ptr) (l : entsize_list_tt) (i : Nat)
    (hi : i < 2 ^ 32) :
    entsize_list_tt.iterator.incr^[i] (entsize_list_tt.nth K this l 0) =
      entsize_list_tt.nth K this l i := by
  induction i with
  | zero => rfl
  | succ i ih =>
    rw [Function.iterate_succ_apply', ih (by omega), incr_nth K this l i hi]

theorem walk_list (K : ListKind) (this : Ptr) (l : entsize_list_tt)
    (hs : entsize_list_tt.Strided K l) :
    ∀ (fuel i : Nat), i ≤ l.count → l.count - i ≤ fuel →
      entsize_list_tt.walk (entsize_list_tt.nth K this l l.count) fuel
          (entsize_list_tt.nth K this l i) =
        some ((List.range' i (l.count - i)).map
          fun n => (entsize_list_tt.nth K this l n).deref) := by
  obtain ⟨hpos, hfit⟩ := hs
  have hcnt : l.count < 2 ^ 32 := by
    calc l.count = l.count * 1 := (Nat.mul_one _).symm
      _ ≤ l.count * l.entsize K.FlagMask := Nat.mul_le_mul_left _ hpos
      _ < 2 ^ 32 := hfit
  intro fuel
  induction fuel with
  | zero =>
    intro i hi hfuel
    have : i = l.count := by omega
    subst this
    simp [entsize_list_tt.walk, ne_nth K this l _ _ hpos]
  | succ fuel ih =>
    intro i hi hfuel
    rcases Nat.lt_or_eq_of_le hi with hlt | heq
    · have hrange : List.range' i (l.count - i) =
          i :: List.range' (i + 1) (l.count - (i + 1)) := by
        have : l.count - i = (l.count - (i + 1)) + 1 := by omega
        rw [this, List.range'_succ]
      simp only [entsize_list_tt.walk, ne_nth K this l _ _ hpos, ne_eq, Nat.ne_of_lt hlt,
        not_false_eq_true, decide_True, if_true]
      rw [incr_nth K this l i (by omega), ih (i + 1) (by omega) (by omega), hrange]
      simp
    · subst heq
      simp [entsize_list_tt.walk, ne_nth K this l _ _ hpos]

/-- C8: for a list of a stride-invariant instantiation with a positive stride
whose records lie below offset `2^32`: `begin()` and `end()` exist; advancing
from `begin()` with `++`, the iterator differs from `end()` after `i < count`
steps, where it stands on `get(i)`, and equals `end()` after exactly `count`
steps; `end() - begin() == count`; the `begin()`..`end()` loop visits
`get(0)`, ..., `get(count - 1)` within `count` rounds, and every further walk
(the list is not changed by walking) yields the same sequence. -/
theorem C8_list_iteration (K : ListKind) (hK : K.StrideInvariant) (this : Ptr)
    (l : entsize_list_tt) (hs : entsize_list_tt.Strided K l) :
    ∃ b e, entsize_list_tt.begin_ K this l = some b ∧ entsize_list_tt.end_ K this l = some e ∧
      (∀ i, i < l.count →
        (entsize_list_tt.iterator.incr^[i] b).eq e = false ∧
        entsize_list_tt.get K this l i = some (entsize_list_tt.iterator.incr^[i] b).deref) ∧
      (entsize_list_tt.iterator.incr^[l.count] b).eq e = true ∧
      e.diff b = (l.count : Int) ∧
      (∀ fuel, l.count ≤ fuel →
        entsize_list_tt.elements K this l fuel = some (entsize_list_tt.refs K this l)) := by
  have hpos := hs.1
  have hfit := hs.2
  have hcnt : l.count < 2 ^ 32 := by
    calc l.count = l.count * 1 := (Nat.mul_one _).symm
      _ ≤ l.count * l.entsize K.FlagMask := Nat.mul_le_mul_left _ hpos
      _ < 2 ^ 32 := hfit
  refine ⟨_, _, begin_eq_nth K this l, end_eq_nth K this l hK hfit, ?_, ?_, ?_, ?_⟩
  · intro i hi
    rw [iterate_incr_nth K this l i (by omega), eq_nth K this l _ _ hpos]
    exact ⟨by simp [Nat.ne_of_lt hi], get_eq_nth K this l hK hfit i hi⟩
  · rw [iterate_incr_nth K this l _ hcnt, eq_nth K this l _ _ hpos]
    simp
  · simp [entsize_list_tt.iterator.diff, entsize_list_tt.nth]
  · intro fuel hfuel
    unfold entsize_list_tt.elements
    rw [begin_eq_nth, end_eq_nth K this l hK hfit]
    simp only [Option.bind_eq_bind, Option.some_bind]
    rw [walk_list K this l hs fuel 0 (Nat.zero_le _) (by omega),
      refs_eq_map K this l hK hfit, List.range_eq_range']
    rfl

/-- C8 at a concrete input: the small-format method list with two methods at
`0x2000`. -/
theorem C8_list_iteration_witness :
    ∃ b e, entsize_list_tt.begin_ method_list_t.kind 0x2000 ⟨0x8000000C, 2⟩ = some b ∧
      entsize_list_tt.end_ method_list_t.kind 0x2000 ⟨0x8000000C, 2⟩ = some e ∧
      (∀ i, i < 2 →
        (entsize_list_tt.iterator.incr^[i] b).eq e = false ∧
        entsize_list_tt.get method_list_t.kind 0x2000 ⟨0x8000000C, 2⟩ i =
          some (entsize_list_tt.iterator.incr^[i] b).deref) ∧
      (entsize_list_tt.iterator.incr^[2] b).eq e = true ∧
      e.diff b = 2 ∧
      (∀ fuel, 2 ≤ fuel →
        entsize_list_tt.elements method_list_t.kind 0x2000 ⟨0x8000000C, 2⟩ fuel =
          some (entsize_list_tt.refs method_list_t.kind 0x2000 ⟨0x8000000C, 2⟩)) :=
  C8_list_iteration method_list_t.kind strideInvariant_method_list_t 0x2000 ⟨0x8000000C, 2⟩
    (by decide)

/-! ### C11: the cache encodings of an implementation -/

/-- C11, as stated, fails under `CACHE_IMP_ENCODING_ISA_XOR`: for the
implementation address `0x1000` and the class identity `0x1000`, `encodeImp`
writes `0x1000 ^ 0x1000 = 0`, the word of an empty bucket, and `imp` decodes
it to nil. -/
theorem C11_xor_imp_equal_class_counterexample :
    bucket_t.encodeImp .ISA_XOR 0x5000 0x1000 7 0x1000 = 0 ∧
      bucket_t.imp .ISA_XOR ⟨7, bucket_t.encodeImp .ISA_XOR 0x5000 0x1000 7 0x1000⟩
        0x5000 0x1000 = 0 ∧
      decide (bucket_t.imp .ISA_XOR ⟨7, bucket_t.encodeImp .ISA_XOR 0x5000 0x1000 7 0x1000⟩
        0x5000 0x1000 = 0x1000) = false := by
  decide

/-- C11, amended: under the raw and the XOR-with-class encodings, decoding the
word written by `encodeImp(base, imp, sel, cls)` with `imp(base, cls)` under
the same `cls` returns `imp` exactly when the encoding is raw, or `imp` is nil,
or `imp` differs from `cls`; in the one remaining case (XOR, `imp == cls`
non-nil) the bucket holds `0` and the decode returns nil. -/
theorem C11_decode_encode (enc : CACHE_IMP_ENCODING) (base : Ptr) (imp sel cls : Nat) :
    (bucket_t.imp enc ⟨sel, bucket_t.encodeImp enc base imp sel cls⟩ base cls = imp ↔
      (enc = .NONE ∨ imp = 0 ∨ imp ≠ cls)) ∧
    (enc = .ISA_XOR → imp ≠ 0 → imp = cls →
      bucket_t.imp enc ⟨sel, bucket_t.encodeImp enc base imp sel cls⟩ base cls = 0) := by
  unfold bucket_t.imp bucket_t.encodeImp
  by_cases h0 : imp = 0
  · subst h0
    simp
  · cases enc with
    | NONE => simp [h0]
    | ISA_XOR =>
      have hx : imp ^^^ cls = 0 ↔ imp = cls := Nat.xor_eq_zero
      by_cases hc : imp = cls
      · subst hc
        simp [h0, eq_comm]
      · have hx' : ¬ (imp ^^^ cls = 0) := fun h => hc (hx.mp h)
        simp [h0, hc, hx', Nat.xor_cancel_right]

/-- C11, amended, at a concrete input: XOR encoding, implementation `0x4000`,
class `0x1000`. -/
theorem C11_decode_encode_witness :
    bucket_t.imp .ISA_XOR ⟨7, bucket_t.encodeImp .ISA_XOR 0x5000 0x4000 7 0x1000⟩
      0x5000 0x1000 = 0x4000 :=
  (C11_decode_encode .ISA_XOR 0x5000 0x4000 7 0x1000).1.mpr (by decide)

/-! ### C12, C13, C14, C19: the two forms of class_rw_t -/

theorem ext_apply (op : class_rw_t.Op) (s s' : RwState) (p : Ptr)
    (h : s.rw.ro_or_rw_ext = .rwe p) (hs : op.apply s = some s') :
    s'.rw.ro_or_rw_ext = .rwe p := by
  cases op with
  | set_ro ro =>
    simp only [class_rw_t.Op.apply, class_rw_t.set_ro, class_rw_t.get_ro_or_rwe, h,
      Option.some.injEq] at hs
    rw [← hs]; exact h
  | extAllocIfNeeded fresh init =>
    simp only [class_rw_t.Op.apply, class_rw_t.extAllocIfNeeded, class_rw_t.get_ro_or_rwe, h,
      Option.some.injEq] at hs
    rw [← hs]; exact h
  | setFlags set =>
    simp only [class_rw_t.Op.apply, class_rw_t.setFlags, Option.some.injEq] at hs
    rw [← hs]; exact h
  | clearFlags clear =>
    simp only [class_rw_t.Op.apply, class_rw_t.clearFlags, Option.some.injEq] at hs
    rw [← hs]; exact h
  | changeFlags set clear =>
    simp only [class_rw_t.Op.apply, class_rw_t.changeFlags] at hs
    split at hs
    · rw [← Option.some.inj hs]; exact h
    · exact Option.noConfusion hs

theorem apply_isSome (op : class_rw_t.Op) (s : RwState) (h : op.asserted) :
    ∃ s', op.apply s = some s' := by
  cases op with
  | changeFlags set clear =>
    simp only [class_rw_t.Op.asserted] at h
    simp only [class_rw_t.Op.apply, class_rw_t.changeFlags, if_pos h]
    exact ⟨_, rfl⟩
  | set_ro ro => exact ⟨_, rfl⟩
  | extAllocIfNeeded fresh init => exact ⟨_, rfl⟩
  | setFlags set => exact ⟨_, rfl⟩
  | clearFlags clear => exact ⟨_, rfl⟩

/-- C12: once the cell `ro_or_rw_ext` of a `class_rw_t` holds a `class_rw_ext_t`
(`ext()` is the non-null `p`), every sequence of `set_ro`, `extAllocIfNeeded`,
`setFlags`, `clearFlags` and `changeFlags` calls leaves the cell holding the
same record: after every sequence that runs to its end `ext()` is still `p`,
and a sequence runs to its end whenever each `changeFlags` call satisfies its
assertion `(set & clear) == 0`. -/
theorem C12_never_demoted (ops : List class_rw_t.Op) (s : RwState) (p : Ptr)
    (hext : class_rw_t.ext s = p) (hp : p ≠ 0) :
    (∀ s', class_rw_t.run ops s = some s' →
      class_rw_t.ext s' = p ∧ s'.rw.ro_or_rw_ext = .rwe p) ∧
    ((∀ op ∈ ops, op.asserted) → ∃ s', class_rw_t.run ops s = some s') := by
  have hcell : s.rw.ro_or_rw_ext = .rwe p := by
    unfold class_rw_t.ext class_rw_t.get_ro_or_rwe at hext
    cases hc : s.rw.ro_or_rw_ext with
    | ro q => rw [hc] at hext; exact absurd hext.symm hp
    | rwe q => rw [hc] at hext; simp only at hext; rw [hext]
  clear hext
  induction ops generalizing s with
  | nil =>
    refine ⟨?_, fun _ => ⟨s, rfl⟩⟩
    intro s' hs
    simp only [class_rw_t.run, Option.some.injEq] at hs
    subst hs
    exact ⟨by simp [class_rw_t.ext, class_rw_t.get_ro_or_rwe, hcell], hcell⟩
  | cons op ops ih =>
    constructor
    · intro s' hs
      simp only [class_rw_t.run] at hs
      cases h1 : op.apply s with
      | none => rw [h1] at hs; exact Option.noConfusion hs
      | some s1 =>
        rw [h1] at hs
        exact (ih s1 (ext_apply op s s1 p hcell h1)).1 s' hs
    · intro hall
      obtain ⟨s1, h1⟩ := apply_isSome op s (hall op (List.mem_cons_self _ _))
      obtain ⟨s', h2⟩ := (ih s1 (ext_apply op s s1 p hcell h1)).2
        (fun o ho => hall o (List.mem_cons_of_mem _ ho))
      exact ⟨s', by simp only [class_rw_t.run, h1]; exact h2⟩

/-- C12 at a concrete input: each of the five operations once, on a record
whose cell points to the extended record at `0x9000`. -/
theorem C12_never_demoted_witness :
    ∃ s', class_rw_t.run
        [.set_ro 0x200, .extAllocIfNeeded 0x9100 sampleExt, .setFlags 1, .clearFlags 2,
          .changeFlags 4 8] sampleRwExtended = some s' ∧
      class_rw_t.ext s' = 0x9000 :=
  have h := C12_never_demoted
    [.set_ro 0x200, .extAllocIfNeeded 0x9100 sampleExt, .setFlags 1, .clearFlags 2,
      .changeFlags 4 8] sampleRwExtended 0x9000 rfl (by decide)
  have hrun := h.2 (by
    intro op hop
    simp only [List.mem_cons, List.mem_singleton, List.not_mem_nil, or_false] at hop
    rcases hop with rfl | rfl | rfl | rfl | rfl
    · trivial
    · trivial
    · trivial
    · trivial
    · show 4 &&& 8 = 0
      decide)
  hrun.elim fun s' hs => ⟨s', hs, (h.1 s' hs).1⟩

/-- C13: `extAllocIfNeeded` is idempotent.  In extended form it returns the
record the cell holds and leaves the state as it is.  In base form it returns
the record it allocates: the cell then holds that record, which wraps the base
reference the cell held and otherwise has the content it was allocated with,
and nothing else of the `class_rw_t` changes.  In either form the result is
the extended record `ext()` returns after the call; a second call right after
the first returns the record the first returned and changes nothing more
(whatever allocation each call would have had at hand); and `ro()` after the
call is `ro()` before it. -/
theorem C13_extAllocIfNeeded_idempotent (fresh fresh2 : Ptr) (init init2 : class_rw_ext_t)
    (s : RwState) :
    (∀ p, s.rw.ro_or_rw_ext = .rwe p →
      class_rw_t.extAllocIfNeeded fresh init s = (s, p)) ∧
    (∀ q, s.rw.ro_or_rw_ext = .ro q →
      (class_rw_t.extAllocIfNeeded fresh init s).2 = fresh ∧
      (class_rw_t.extAllocIfNeeded fresh init s).1.rw =
        { s.rw with ro_or_rw_ext := .rwe fresh } ∧
      (class_rw_t.extAllocIfNeeded fresh init s).1.exts fresh = { init with ro := q } ∧
      (∀ a, a ≠ fresh → (class_rw_t.extAllocIfNeeded fresh init s).1.exts a = s.exts a)) ∧
    class_rw_t.ext (class_rw_t.extAllocIfNeeded fresh init s).1 =
      (class_rw_t.extAllocIfNeeded fresh init s).2 ∧
    (class_rw_t.extAllocIfNeeded fresh2 init2 (class_rw_t.extAllocIfNeeded fresh init s).1 =
      class_rw_t.extAllocIfNeeded fresh init s) ∧
    class_rw_t.ro (class_rw_t.extAllocIfNeeded fresh init s).1 = class_rw_t.ro s := by
  refine ⟨?_, ?_, ?_, ?_, ?_⟩
  · intro p hp
    simp [class_rw_t.extAllocIfNeeded, class_rw_t.get_ro_or_rwe, hp]
  · intro q hq
    have hcall : class_rw_t.extAllocIfNeeded fresh init s =
        class_rw_t.extAlloc fresh init q s := by
      simp only [class_rw_t.extAllocIfNeeded, class_rw_t.get_ro_or_rwe, hq]
    rw [hcall]
    refine ⟨rfl, rfl, ?_, ?_⟩
    · simp [class_rw_t.extAlloc, class_rw_t.set_ro_or_rwe_ext]
    · intro a ha
      simp [class_rw_t.extAlloc, class_rw_t.set_ro_or_rwe_ext, Function.update_noteq ha]
  · cases hc : s.rw.ro_or_rw_ext with
    | ro q =>
      simp [class_rw_t.extAllocIfNeeded, class_rw_t.get_ro_or_rwe, hc, class_rw_t.extAlloc,
        class_rw_t.set_ro_or_rwe_ext, class_rw_t.ext]
    | rwe q =>
      simp [class_rw_t.extAllocIfNeeded, class_rw_t.get_ro_or_rwe, hc, class_rw_t.ext]
  · cases hc : s.rw.ro_or_rw_ext with
    | ro q =>
      simp [class_rw_t.extAllocIfNeeded, class_rw_t.get_ro_or_rwe, hc, class_rw_t.extAlloc,
        class_rw_t.set_ro_or_rwe_ext]
    | rwe q =>
      simp [class_rw_t.extAllocIfNeeded, class_rw_t.get_ro_or_rwe, hc]
  · cases hc : s.rw.ro_or_rw_ext with
    | ro q =>
      simp [class_rw_t.extAllocIfNeeded, class_rw_t.get_ro_or_rwe, hc, class_rw_t.extAlloc,
        class_rw_t.set_ro_or_rwe_ext, class_rw_t.ro]
    | rwe q =>
      simp [class_rw_t.extAllocIfNeeded, class_rw_t.get_ro_or_rwe, hc]

/-- C13 at concrete inputs: the record in extended form with its cell at
`0x9000` returns `0x9000`; the record in base form returns the record
allocated at `0x9100`, which `ext()` then returns, and a second call with
another allocation at hand returns `0x9100` again. -/
theorem C13_extAllocIfNeeded_idempotent_witness :
    (class_rw_t.extAllocIfNeeded 0x9100 sampleExt sampleRwExtended).2 = 0x9000 ∧
      (class_rw_t.extAllocIfNeeded 0x9100 sampleExt sampleRwBase).2 = 0x9100 ∧
      class_rw_t.ext (class_rw_t.extAllocIfNeeded 0x9100 sampleExt sampleRwBase).1 = 0x9100 ∧
      (class_rw_t.extAllocIfNeeded 0x9200 sampleExt
        (class_rw_t.extAllocIfNeeded 0x9100 sampleExt sampleRwBase).1).2 = 0x9100 :=
  ⟨congrArg Prod.snd
      ((C13_extAllocIfNeeded_idempotent 0x9100 0x9200 sampleExt sampleExt sampleRwExtended).1
        0x9000 rfl),
    ((C13_extAllocIfNeeded_idempotent 0x9100 0x9200 sampleExt sampleExt sampleRwBase).2.1
      0x100 rfl).1,
    ((C13_extAllocIfNeeded_idempotent 0x9100 0x9200 sampleExt sampleExt sampleRwBase).2.2.1).trans
      ((C13_extAllocIfNeeded_idempotent 0x9100 0x9200 sampleExt sampleExt sampleRwBase).2.1
        0x100 rfl).1,
    (congrArg Prod.snd
      (C13_extAllocIfNeeded_idempotent 0x9100 0x9200 sampleExt sampleExt
        sampleRwBase).2.2.2.1).trans
      ((C13_extAllocIfNeeded_idempotent 0x9100 0x9200 sampleExt sampleExt sampleRwBase).2.1
        0x100 rfl).1⟩

/-- C14: in either form, after `set_ro(r)` the accessor `ro()` returns `r`;
in extended form the cell still holds the same `class_rw_ext_t`, whose
`methods`, `properties` and `protocols` aggregators are unchanged, and the
`flags` of the `class_rw_t` are unchanged. -/
theorem C14_set_ro (r : Ptr) (s : RwState) :
    class_rw_t.ro (class_rw_t.set_ro r s) = r ∧
    (∀ p, s.rw.ro_or_rw_ext = .rwe p →
      (class_rw_t.set_ro r s).rw.ro_or_rw_ext = .rwe p ∧
      class_rw_t.ext (class_rw_t.set_ro r s) = p ∧
      ((class_rw_t.set_ro r s).exts p).methods = (s.exts p).methods ∧
      ((class_rw_t.set_ro r s).exts p).properties = (s.exts p).properties ∧
      ((class_rw_t.set_ro r s).exts p).protocols = (s.exts p).protocols ∧
      (class_rw_t.set_ro r s).rw.flags = s.rw.flags) := by
  constructor
  · cases hc : s.rw.ro_or_rw_ext with
    | ro q =>
      simp [class_rw_t.set_ro, class_rw_t.get_ro_or_rwe, hc, class_rw_t.set_ro_or_rwe,
        class_rw_t.ro]
    | rwe q =>
      simp [class_rw_t.set_ro, class_rw_t.get_ro_or_rwe, hc, class_rw_t.ro]
  · intro p hp
    simp [class_rw_t.set_ro, class_rw_t.get_ro_or_rwe, hp, class_rw_t.ext]

/-- C14 at a concrete input: `set_ro(0x200)` on the record in extended form. -/
theorem C14_set_ro_witness :
    class_rw_t.ro (class_rw_t.set_ro 0x200 sampleRwExtended) = 0x200 ∧
      ((class_rw_t.set_ro 0x200 sampleRwExtended).exts 0x9000).methods = .list 0x1000 :=
  ⟨(C14_set_ro 0x200 sampleRwExtended).1,
    ((C14_set_ro 0x200 sampleRwExtended).2 0x9000 rfl).2.2.1⟩

/-- C19: in base form `methods()`, `properties()` and `protocols()` are each
the aggregator built from the base record's list pointer: it holds exactly
that list as its single list, and is the empty aggregator when the pointer is
null; in extended form they are the aggregators of the extended record. -/
theorem C19_lists_of_either_form (ros : Ptr → class_ro_t) (s : RwState) :
    (∀ p, s.rw.ro_or_rw_ext = .ro p →
      class_rw_t.methods ros s = .list (ros p).baseMethods ∧
      class_rw_t.properties ros s = .list (ros p).baseProperties ∧
      class_rw_t.protocols ros s = .list (ros p).baseProtocols) ∧
    (∀ l : Ptr, l ≠ 0 →
      (list_array_tt.list l).listPtrs = [l] ∧ (list_array_tt.list l).countLists = 1 ∧
      (list_array_tt.list l).hasArray = false) ∧
    ((list_array_tt.list 0).listPtrs = [] ∧ (list_array_tt.list 0).countLists = 0) ∧
    (∀ p, s.rw.ro_or_rw_ext = .rwe p →
      class_rw_t.methods ros s = (s.exts p).methods ∧
      class_rw_t.properties ros s = (s.exts p).properties ∧
      class_rw_t.protocols ros s = (s.exts p).protocols) := by
  refine ⟨?_, ?_, ⟨by decide, by decide⟩, ?_⟩
  · intro p hp
    simp [class_rw_t.methods, class_rw_t.properties, class_rw_t.protocols,
      class_rw_t.get_ro_or_rwe, hp]
  · intro l hl
    simp [listPtrs, slots, beginLists, endLists, countLists, hasArray, hl]
  · intro p hp
    simp [class_rw_t.methods, class_rw_t.properties, class_rw_t.protocols,
      class_rw_t.get_ro_or_rwe, hp]

/-- C19 at a concrete input: the record in base form over the sample base
record. -/
theorem C19_lists_of_either_form_witness :
    class_rw_t.methods (fun _ => sampleRo) sampleRwBase = .list 0x1000 ∧
      class_rw_t.properties (fun _ => sampleRo) sampleRwBase = .list 0x3000 ∧
      class_rw_t.protocols (fun _ => sampleRo) sampleRwBase = .list 0 :=
  (C19_lists_of_either_form (fun _ => sampleRo) sampleRwBase).1 0x100 rfl

/-! ### C20: safe_ro -/

/-- C20: `safe_ro()` returns the base record in both realization states.  When
the data pointer points at a bare `class_ro_t` whose flags lack bit 31
(`RO_REALIZED`), the result is that record itself, the data pointer; when it
points at a `class_rw_t` with `RW_REALIZED` set, the result is that record's
`ro()`. -/
theorem C20_safe_ro (mem : Ptr → ClassData) (exts : Ptr → class_rw_ext_t) (bits : Nat) :
    (∀ r, mem (class_data_bits_t.data bits) = .ro r → r.flags &&& RO_REALIZED = 0 →
      class_data_bits_t.safe_ro mem exts bits = some (class_data_bits_t.data bits)) ∧
    (∀ w, mem (class_data_bits_t.data bits) = .rw w → w.flags &&& RW_REALIZED ≠ 0 →
      class_data_bits_t.safe_ro mem exts bits = some (class_rw_t.ro ⟨w, exts⟩)) := by
  constructor
  · intro r hr hflag
    have : r.flags &&& RW_REALIZED = 0 := hflag
    simp [class_data_bits_t.safe_ro, hr, ClassData.flags, this]
  · intro w hw hflag
    simp [class_data_bits_t.safe_ro, hw, ClassData.flags, hflag]

/-- C20 at a concrete input: the data pointer `0x9000` points at the realized
`class_rw_t` in base form over `0x100`; the low flag bits of `bits` are set. -/
theorem C20_safe_ro_witness :
    class_data_bits_t.safe_ro (fun _ => .rw sampleRwBase.rw) sampleRwBase.exts 0x9003 =
      some 0x100 :=
  (C20_safe_ro (fun _ => .rw sampleRwBase.rw) sampleRwBase.exts 0x9003).2 sampleRwBase.rw rfl
    (by decide)


/-! ### Masks as arithmetic -/

theorem and_shifted_mask (x a b : Nat) :
    x &&& ((2 ^ a - 1) * 2 ^ b) = (x / 2 ^ b % 2 ^ a) * 2 ^ b := by
  apply Nat.eq_of_testBit_eq
  intro j
  rw [← Nat.shiftLeft_eq, ← Nat.shiftLeft_eq, Nat.testBit_and, Nat.testBit_shiftLeft,
    Nat.testBit_shiftLeft, Nat.testBit_two_pow_sub_one, Nat.testBit_mod_two_pow,
    ← Nat.shiftRight_eq_div_pow, Nat.testBit_shiftRight]
  by_cases h : b ≤ j
  · have : b + (j - b) = j := by omega
    simp only [ge_iff_le, h, decide_True, Bool.true_and, this]
    exact Bool.and_comm _ _
  · simp [h]

theorem and_alloc_mask (x : Nat) : x &&& 0x1ff8 = x / 8 % 1024 * 8 :=
  and_shifted_mask x 10 3

theorem and_alloc_mask16 (x : Nat) : x &&& 0x1ff0 = x / 16 % 512 * 16 :=
  and_shifted_mask x 9 4

theorem and_not_seven (x : Nat) : x &&& (2 ^ 64 - 8) = x / 8 % 2 ^ 61 * 8 :=
  and_shifted_mask x 61 3

theorem and_not_fifteen (x : Nat) : x &&& (2 ^ 64 - 16) = x / 16 % 2 ^ 60 * 16 :=
  and_shifted_mask x 60 4

theorem and_not_seven32 (x : Nat) : x &&& (2 ^ 32 - 8) = x / 8 % 2 ^ 29 * 8 :=
  and_shifted_mask x 29 3

theorem or_and_of_disjoint (a b m : Nat) (ha : a &&& m = 0) :
    (a ||| b) &&& m = b &&& m := by
  rw [Nat.and_comm, Nat.and_or_distrib_left, Nat.and_comm m a, Nat.and_comm m b, ha,
    Nat.zero_or]

theorem or_and_of_disjoint_right (a b m : Nat) (hb : b &&& m = 0) :
    (a ||| b) &&& m = a &&& m := by
  rw [Nat.and_comm, Nat.and_or_distrib_left, Nat.and_comm m a, Nat.and_comm m b, hb,
    Nat.or_zero]

theorem word_align_size_t_eq (x : Nat) :
    word_align_size_t x = (x + 7) % 2 ^ 64 / 8 * 8 := by
  unfold word_align_size_t
  rw [and_not_seven]
  omega

theorem word_align_uint32_eq (x : Nat) :
    word_align_uint32 x = (x + 7) % 2 ^ 32 / 8 * 8 := by
  unfold word_align_uint32
  rw [and_not_seven32]
  omega

theorem align16_eq (x : Nat) : align16 x = (x + 15) % 2 ^ 64 / 16 * 16 := by
  unfold align16
  rw [and_not_fifteen]
  omega

/-- The value `setFastInstanceSize` computes, with the truncations resolved:
the old flags outside the mask, joined with the size bits when the size
fits. -/
theorem setFastInstanceSize_eq (n f : Nat) :
    cache_t.setFastInstanceSize n f =
      (f &&& 0xE007) |||
        (if n ≤ (word_align_size_t n + 8) &&& 0x1ff8 then (word_align_size_t n + 8) &&& 0x1ff8
          else 0) := by
  have hnew : (f &&& (0xFFFFFFFF ^^^ FAST_CACHE_ALLOC_MASK)) % 2 ^ 16 = f &&& 0xE007 := by
    rw [← Nat.and_pow_two_sub_one_eq_mod, Nat.and_assoc]
    rfl
  have hsz : ((((word_align_size_t n + FAST_CACHE_ALLOC_DELTA16) % 2 ^ 64) % 2 ^ 16) &&&
      FAST_CACHE_ALLOC_MASK) % 2 ^ 16 = (word_align_size_t n + 8) &&& 0x1ff8 := by
    show ((((word_align_size_t n + 8) % 2 ^ 64) % 2 ^ 16) &&& 0x1ff8) % 2 ^ 16 = _
    rw [and_alloc_mask, and_alloc_mask]
    omega
  unfold cache_t.setFastInstanceSize
  simp only [hnew, hsz]
  split
  · apply Nat.mod_eq_of_lt
    apply Nat.or_lt_two_pow
    · exact Nat.lt_of_le_of_lt Nat.and_le_right (by decide)
    · exact Nat.lt_of_le_of_lt Nat.and_le_right (by decide)
  · rw [Nat.or_zero]


/-! ### C21, C22, C25, C26: the fast instance size bits -/

theorem and_and_of_disjoint (x a b : Nat) (h : a &&& b = 0) : (x &&& a) &&& b = 0 := by
  rw [Nat.and_assoc, h, Nat.and_zero]

/-- The bits of the mask after `setFastInstanceSize`. -/
theorem setFastInstanceSize_alloc (n f : Nat) :
    cache_t.setFastInstanceSize n f &&& 0x1ff8 =
      if n ≤ (word_align_size_t n + 8) &&& 0x1ff8 then (word_align_size_t n + 8) &&& 0x1ff8
      else 0 := by
  rw [setFastInstanceSize_eq, or_and_of_disjoint _ _ _ (and_and_of_disjoint _ _ _ rfl)]
  split
  · rw [Nat.and_assoc]; rfl
  · rfl

/-- The bits of the 16-byte mask after `setFastInstanceSize`. -/
theorem setFastInstanceSize_alloc16 (n f : Nat) :
    cache_t.setFastInstanceSize n f &&& 0x1ff0 =
      if n ≤ (word_align_size_t n + 8) &&& 0x1ff8 then (word_align_size_t n + 8) &&& 0x1ff0
      else 0 := by
  rw [setFastInstanceSize_eq, or_and_of_disjoint _ _ _ (and_and_of_disjoint _ _ _ rfl)]
  split
  · rw [Nat.and_assoc]; rfl
  · rfl

/-- The bits outside the mask after `setFastInstanceSize`. -/
theorem setFastInstanceSize_frame (n f : Nat) :
    cache_t.setFastInstanceSize n f &&& 0xE007 = f &&& 0xE007 := by
  rw [setFastInstanceSize_eq, or_and_of_disjoint_right]
  · rw [Nat.and_assoc]; rfl
  · split
    · exact and_and_of_disjoint _ _ _ rfl
    · rfl

/-- C21: for `1 <= n <= 0x1ff0` and every prior `_flags`, after
`setFastInstanceSize(n)` the check `hasFastInstanceSize(0)` on the
constant-zero path is true and `fastInstanceSize(0)` on that path returns
`n` rounded up to the next multiple of 16: the multiple `r` of 16 with
`n <= r < n + 16`. -/
theorem C21_fast_size_roundtrip (n f : Nat) (h1 : 1 ≤ n) (h2 : n ≤ 0x1ff0) :
    cache_t.hasFastInstanceSize true 0 (cache_t.setFastInstanceSize n f) = true ∧
      cache_t.fastInstanceSize true 0 (cache_t.setFastInstanceSize n f) =
        some ((n + 15) / 16 * 16) ∧
      ((n + 15) / 16 * 16) % 16 = 0 ∧ n ≤ (n + 15) / 16 * 16 ∧ (n + 15) / 16 * 16 < n + 16 := by
  have hv : cache_t.setFastInstanceSize n f &&& FAST_CACHE_ALLOC_MASK16 =
      (n + 15) / 16 * 16 := by
    show cache_t.setFastInstanceSize n f &&& 0x1ff0 = _
    rw [setFastInstanceSize_alloc16, and_alloc_mask, and_alloc_mask16, word_align_size_t_eq]
    have hfit : n ≤ (((n + 7) % 2 ^ 64 / 8 * 8 + 8) / 8 % 1024 * 8) := by omega
    rw [if_pos hfit]
    omega
  have hhas : cache_t.hasFastInstanceSize true 0 (cache_t.setFastInstanceSize n f) = true := by
    simp only [cache_t.hasFastInstanceSize, hv, Bool.true_and, beq_self_eq_true, if_true,
      bne_iff_ne, ne_eq]
    omega
  refine ⟨hhas, ?_, by omega, by omega, by omega⟩
  simp only [cache_t.fastInstanceSize, hhas, if_true, Bool.true_and, beq_self_eq_true, hv]

/-- C21 at a concrete input: size 40 on flags that have other bits set. -/
theorem C21_fast_size_roundtrip_witness :
    cache_t.fastInstanceSize true 0 (cache_t.setFastInstanceSize 40 0xE007) = some 48 :=
  (C21_fast_size_roundtrip 40 0xE007 (by decide) (by decide)).2.1

/-- C22: for every `size_t` value `n > 0x1ff0` and every prior `_flags`,
`setFastInstanceSize(n)` leaves `0` in the `FAST_CACHE_ALLOC_MASK` bits, and
`hasFastInstanceSize(extra)` is false for every `extra` on either path. -/
theorem C22_size_does_not_fit (n f : Nat) (h1 : 0x1ff0 < n) (h2 : n < 2 ^ 64) :
    cache_t.setFastInstanceSize n f &&& FAST_CACHE_ALLOC_MASK = 0 ∧
      ∀ (constant_p : Bool) (extra : Nat),
        cache_t.hasFastInstanceSize constant_p extra (cache_t.setFastInstanceSize n f) = false := by
  have hno : ¬ n ≤ (word_align_size_t n + 8) &&& 0x1ff8 := by
    rw [and_alloc_mask, word_align_size_t_eq]
    omega
  have hv : cache_t.setFastInstanceSize n f &&& FAST_CACHE_ALLOC_MASK = 0 := by
    show cache_t.setFastInstanceSize n f &&& 0x1ff8 = 0
    rw [setFastInstanceSize_alloc, if_neg hno]
  have hv16 : cache_t.setFastInstanceSize n f &&& FAST_CACHE_ALLOC_MASK16 = 0 := by
    show cache_t.setFastInstanceSize n f &&& 0x1ff0 = 0
    rw [setFastInstanceSize_alloc16, if_neg hno]
  refine ⟨hv, fun constant_p extra => ?_⟩
  unfold cache_t.hasFastInstanceSize
  rw [hv, hv16]
  split <;> rfl

/-- C22 at a concrete input: the largest `size_t`, for which the word
alignment wraps. -/
theorem C22_size_does_not_fit_witness :
    cache_t.hasFastInstanceSize false 0
      (cache_t.setFastInstanceSize 0xFFFFFFFFFFFFFFFF 0xFFFF) = false :=
  (C22_size_does_not_fit 0xFFFFFFFFFFFFFFFF 0xFFFF (by decide) (by decide)).2 false 0


theorem and_of_and_mask (x y m F : Nat) (h : x &&& m = y &&& m) (hF : m &&& F = F) :
    x &&& F = y &&& F := by
  rw [← hF, ← Nat.and_assoc, ← Nat.and_assoc, h]

/-- C25: `setFastInstanceSize` changes only the bits of `_flags` inside
`FAST_CACHE_ALLOC_MASK`: for every prior `_flags` and every `n` the bits
outside the mask are the same before and after, in particular each of
`FAST_CACHE_META`, `FAST_CACHE_HAS_CXX_CTOR`, `FAST_CACHE_HAS_CXX_DTOR`,
`FAST_CACHE_REQUIRES_RAW_ISA`, `FAST_CACHE_HAS_DEFAULT_AWZ` and
`FAST_CACHE_HAS_DEFAULT_CORE`. -/
theorem C25_set_fast_size_frame (n f : Nat) :
    cache_t.setFastInstanceSize n f &&& (0xFFFF ^^^ FAST_CACHE_ALLOC_MASK) =
        f &&& (0xFFFF ^^^ FAST_CACHE_ALLOC_MASK) ∧
      cache_t.setFastInstanceSize n f &&& FAST_CACHE_META = f &&& FAST_CACHE_META ∧
      cache_t.setFastInstanceSize n f &&& FAST_CACHE_HAS_CXX_CTOR =
        f &&& FAST_CACHE_HAS_CXX_CTOR ∧
      cache_t.setFastInstanceSize n f &&& FAST_CACHE_HAS_CXX_DTOR =
        f &&& FAST_CACHE_HAS_CXX_DTOR ∧
      cache_t.setFastInstanceSize n f &&& FAST_CACHE_REQUIRES_RAW_ISA =
        f &&& FAST_CACHE_REQUIRES_RAW_ISA ∧
      cache_t.setFastInstanceSize n f &&& FAST_CACHE_HAS_DEFAULT_AWZ =
        f &&& FAST_CACHE_HAS_DEFAULT_AWZ ∧
      cache_t.setFastInstanceSize n f &&& FAST_CACHE_HAS_DEFAULT_CORE =
        f &&& FAST_CACHE_HAS_DEFAULT_CORE ∧
      cache_t.setFastInstanceSize n f < 2 ^ 16 := by
  have h := setFastInstanceSize_frame n f
  refine ⟨h, and_of_and_mask _ _ _ _ h rfl, and_of_and_mask _ _ _ _ h rfl,
    and_of_and_mask _ _ _ _ h rfl, and_of_and_mask _ _ _ _ h rfl,
    and_of_and_mask _ _ _ _ h rfl, and_of_and_mask _ _ _ _ h rfl, ?_⟩
  rw [setFastInstanceSize_eq]
  apply Nat.or_lt_two_pow
  · exact Nat.lt_of_le_of_lt Nat.and_le_right (by decide)
  · split
    · exact Nat.lt_of_le_of_lt Nat.and_le_right (by decide)
    · decide

/-- The two paths of `fastInstanceSize` at `extra == 0`, for any `_flags` on
which the constant-zero check holds. -/
theorem fastInstanceSize_paths (g : Nat) (h : cache_t.hasFastInstanceSize true 0 g = true) :
    cache_t.fastInstanceSize false 0 g = some (g &&& FAST_CACHE_ALLOC_MASK16) ∧
      cache_t.fastInstanceSize true 0 g = some (g &&& FAST_CACHE_ALLOC_MASK16) := by
  have h16 : g &&& 0x1ff0 ≠ 0 := by
    simpa [cache_t.hasFastInstanceSize, FAST_CACHE_ALLOC_MASK16] using h
  constructor
  · have hgen : cache_t.hasFastInstanceSize false 0 g = true := by
      simp only [cache_t.hasFastInstanceSize, Bool.false_and, Bool.false_eq_true, if_false,
        bne_iff_ne, ne_eq, FAST_CACHE_ALLOC_MASK]
      rw [and_alloc_mask16] at h16
      rw [and_alloc_mask]
      omega
    simp only [cache_t.fastInstanceSize, hgen, if_true, Bool.false_and, Bool.false_eq_true,
      if_false, Option.some.injEq, FAST_CACHE_ALLOC_MASK, FAST_CACHE_ALLOC_MASK16,
      FAST_CACHE_ALLOC_DELTA16]
    rw [and_alloc_mask16] at h16 ⊢
    rw [align16_eq, and_alloc_mask]
    omega
  · simp only [cache_t.fastInstanceSize, h, if_true, Bool.true_and, beq_self_eq_true]

/-- C26: the two paths of `fastInstanceSize` agree at `extra == 0`: for every
`_flags` value that `setFastInstanceSize(n)` produces and on which
`hasFastInstanceSize(0)` holds on the constant path, the constant-zero path
(`_flags & FAST_CACHE_ALLOC_MASK16`) and the general path
(`align16((_flags & FAST_CACHE_ALLOC_MASK) + 0 - FAST_CACHE_ALLOC_DELTA16)`)
both pass their assertion and return the same size. -/
theorem C26_fast_size_paths_agree (n f : Nat)
    (h : cache_t.hasFastInstanceSize true 0 (cache_t.setFastInstanceSize n f) = true) :
    cache_t.fastInstanceSize true 0 (cache_t.setFastInstanceSize n f) =
        cache_t.fastInstanceSize false 0 (cache_t.setFastInstanceSize n f) ∧
      cache_t.fastInstanceSize true 0 (cache_t.setFastInstanceSize n f) =
        some (cache_t.setFastInstanceSize n f &&& FAST_CACHE_ALLOC_MASK16) := by
  have hp := fastInstanceSize_paths _ h
  exact ⟨hp.2.trans hp.1.symm, hp.2⟩

/-- C26 at a concrete input: size 40 stored into empty flags. -/
theorem C26_fast_size_paths_agree_witness :
    cache_t.fastInstanceSize true 0 (cache_t.setFastInstanceSize 40 0) =
      cache_t.fastInstanceSize false 0 (cache_t.setFastInstanceSize 40 0) :=
  (C26_fast_size_paths_agree 40 0 (by decide)).1


/-! ### C23, C24: the instance size -/

theorem setInstanceSize_spec (c0 c : objc_class) (n : Nat)
    (hset : c0.setInstanceSize n = some c) :
    c.isRealized = true ∧ c.ro_instanceSize = n % 2 ^ 32 ∧
      c.cache_flags = cache_t.setFastInstanceSize (n % 2 ^ 32) c0.cache_flags := by
  unfold objc_class.setInstanceSize at hset
  dsimp only at hset
  split at hset
  · rename_i hr
    have hreal : c0.isRealized = true := by
      simp only [Bool.and_eq_true] at hr
      exact hr.1
    split at hset
    · split at hset
      · simp only [Option.some.injEq] at hset
        subst hset
        exact ⟨hreal, rfl, rfl⟩
      · exact Option.noConfusion hset
    · rename_i hne
      simp only [bne_iff_ne, ne_eq, not_not] at hne
      simp only [Option.some.injEq] at hset
      subst hset
      exact ⟨hreal, hne.symm, rfl⟩
  · exact Option.noConfusion hset

/-- The result of `instanceSize` for a realized class whose fast size bits
were stored by `setFastInstanceSize` for its instance size. -/
theorem instanceSize_bounds (c : objc_class) (n f extra : Nat) (constant_p : Bool)
    (hreal : c.isRealized = true) (hsize : c.ro_instanceSize = n)
    (hflags : c.cache_flags = cache_t.setFastInstanceSize n f) :
    ∃ r, c.instanceSize constant_p extra = some r ∧
      (cache_t.hasFastInstanceSize constant_p extra c.cache_flags = false → 16 ≤ r) ∧
      (1 ≤ n → word_align_uint32 n + extra + 15 < 2 ^ 64 → 16 ≤ r) ∧
      (word_align_uint32 n + extra + 15 < 2 ^ 64 → word_align_uint32 n + extra ≤ r) := by
  have hv := setFastInstanceSize_alloc n f
  have hv16 := setFastInstanceSize_alloc16 n f
  rw [and_alloc_mask (word_align_size_t n + 8)] at hv hv16
  rw [and_alloc_mask16 (word_align_size_t n + 8)] at hv16
  rw [word_align_size_t_eq] at hv hv16
  rw [← hflags] at hv hv16
  have hslow : c.alignedInstanceSize = some (word_align_uint32 n) := by
    simp [objc_class.alignedInstanceSize, objc_class.unalignedInstanceSize, hreal, hsize]
  rw [word_align_uint32_eq] at hslow ⊢
  simp only [objc_class.instanceSize, cache_t.hasFastInstanceSize, cache_t.fastInstanceSize,
    FAST_CACHE_ALLOC_MASK, FAST_CACHE_ALLOC_MASK16, FAST_CACHE_ALLOC_DELTA16, hslow,
    Option.map_some', align16_eq]
  generalize c.cache_flags &&& 0x1ff8 = v at hv ⊢
  generalize c.cache_flags &&& 0x1ff0 = v16 at hv16 ⊢
  by_cases hc : (constant_p && extra == 0) = true
  · have he : extra = 0 := by
      simp only [Bool.and_eq_true, beq_iff_eq] at hc
      exact hc.2
    subst he
    simp only [hc, if_true]
    by_cases h0 : v16 = 0
    · simp only [h0, bne_self_eq_false, Bool.false_eq_true, if_false]
      refine ⟨_, rfl, ?_, ?_, ?_⟩ <;> intros <;> split <;> omega
    · have hb : (v16 != 0) = true := by simpa using h0
      simp only [hb, if_true]
      refine ⟨_, rfl, ?_, ?_, ?_⟩
      · intro h
        exact absurd h (by simp)
      · intro _ _
        split at hv16 <;> omega
      · intro _
        split at hv16 <;> omega
  · simp only [hc, if_false]
    by_cases h0 : v = 0
    · simp only [h0, bne_self_eq_false, Bool.false_eq_true, if_false]
      refine ⟨_, rfl, ?_, ?_, ?_⟩ <;> intros <;> split <;> omega
    · have hb : (v != 0) = true := by simpa using h0
      simp only [hb, if_true]
      refine ⟨_, rfl, ?_, ?_, ?_⟩
      · intro h
        exact absurd h (by simp)
      · intro _ _
        split at hv <;> omega
      · intro _
        split at hv <;> omega

/-- The `uint32_t` `word_align` of a size it does not wrap on is the size
rounded up to the next multiple of 8. -/
theorem word_align_uint32_round (n : Nat) (hn : n ≤ 2 ^ 32 - 8) :
    n ≤ word_align_uint32 n ∧ word_align_uint32 n < n + 8 ∧ word_align_uint32 n % 8 = 0 := by
  rw [word_align_uint32_eq]
  omega

/-- C23: `instanceSize` returns less than 16 on the fast path.  The sample
class is realized; after `setInstanceSize(8)` and with `extraBytes = 2^64 - 8`
the sum `size + extra - FAST_CACHE_ALLOC_DELTA16` wraps to `0` and
`instanceSize` returns `align16(0) = 0`.  After `setInstanceSize(0)` the stored
bits are `FAST_CACHE_ALLOC_DELTA16` alone: `instanceSize(0)` with a run-time
argument takes the fast path and returns `align16(8 + 0 - 8) = 0`, while with
the literal `0` it takes the slow path and returns 16.  The slow path clamps
also when its sum wraps: after `setInstanceSize(0x2000)`, which has no fast
size, `extraBytes = 2^64 - 0x2000` gives 16. -/
theorem C23_fast_path_below_16 :
    (sampleClass.setInstanceSize 8).map objc_class.isRealized = some true ∧
      (sampleClass.setInstanceSize 8).bind
        (objc_class.instanceSize false 0xFFFFFFFFFFFFFFF8) = some 0 ∧
      (sampleClass.setInstanceSize 0).map objc_class.isRealized = some true ∧
      (sampleClass.setInstanceSize 0).bind (objc_class.instanceSize false 0) = some 0 ∧
      (sampleClass.setInstanceSize 0).bind (objc_class.instanceSize true 0) = some 16 ∧
      (sampleClass.setInstanceSize 0x2000).bind
        (objc_class.instanceSize false 0xFFFFFFFFFFFFE000) = some 16 ∧
      (0 : Nat) < 16 := by
  decide

/-- C24, as stated, fails at two edges of its range.  For `n = 1` and
`extraBytes = 2^64 - 17` the sum `n + extraBytes + 15` is `2^64 - 1` and does
not overflow, but `word_align(1) + extraBytes + 15` does, and `instanceSize`
returns `0` on the fast path, below `word_align(1) + extraBytes = 2^64 - 9`.
For `n = 0xFFFFFFFD` and no extra bytes the `uint32_t` `word_align(n)` wraps to
`0`, and `instanceSize` returns 16, less than the instance. -/
theorem C24_edge_of_range_counterexample :
    decide (1 + 0xFFFFFFFFFFFFFFEF + 15 < 2 ^ 64) = true ∧
      (sampleClass.setInstanceSize 1).bind
        (objc_class.instanceSize false 0xFFFFFFFFFFFFFFEF) = some 0 ∧
      word_align_uint32 1 + 0xFFFFFFFFFFFFFFEF = 0xFFFFFFFFFFFFFFF7 ∧
      decide (0xFFFFFFFD + 0 + 15 < 2 ^ 64) = true ∧
      (sampleClass.setInstanceSize 0xFFFFFFFD).bind (objc_class.instanceSize false 0) =
        some 16 ∧
      word_align_uint32 0xFFFFFFFD = 0 ∧
      decide ((16 : Nat) < 0xFFFFFFFD + 0) = true := by
  decide

/-- C24, amended: for a class whose size was set by `setInstanceSize(n)` with
`n <= 2^32 - 8`, so that the `uint32_t` `word_align(n)` does not wrap and is
`n` rounded up to a multiple of 8, and every `extraBytes` such that
`word_align(n) + extraBytes + 15` does not overflow `size_t`,
`instanceSize(extraBytes)` returns a size that is at least
`word_align(n) + extraBytes`, on the fast and on the slow path, and so at least
the instance size `n` plus the extra bytes. -/
theorem C24_instance_size_covers (c0 c : objc_class) (n extraBytes : Nat)
    (constant_p : Bool) (hset : c0.setInstanceSize n = some c)
    (hn : n ≤ 2 ^ 32 - 8)
    (hfit : word_align_uint32 n + extraBytes + 15 < 2 ^ 64) :
    ∃ r, c.instanceSize constant_p extraBytes = some r ∧
      word_align_uint32 n + extraBytes ≤ r ∧ n + extraBytes ≤ r ∧
      n ≤ word_align_uint32 n ∧ word_align_uint32 n < n + 8 ∧
      word_align_uint32 n % 8 = 0 := by
  obtain ⟨hreal, hsize, hflags⟩ := setInstanceSize_spec c0 c n hset
  have hmod : n % 2 ^ 32 = n := Nat.mod_eq_of_lt (by omega)
  rw [hmod] at hsize hflags
  obtain ⟨r, hr, _, _, hcover⟩ :=
    instanceSize_bounds c n c0.cache_flags extraBytes constant_p hreal hsize hflags
  obtain ⟨hle, hlt, hmul⟩ := word_align_uint32_round n hn
  have hc := hcover hfit
  exact ⟨r, hr, hc, by omega, hle, hlt, hmul⟩

/-- C24, amended, at a concrete input: the sample class after
`setInstanceSize(20)`, with 4 extra bytes. -/
theorem C24_instance_size_covers_witness :
    ∃ r, objc_class.instanceSize false 4
        { sampleClass with cache_flags := 32, ro_instanceSize := 20 } = some r ∧
      word_align_uint32 20 + 4 ≤ r ∧ 20 + 4 ≤ r :=
  (C24_instance_size_covers sampleClass
    { sampleClass with cache_flags := 32, ro_instanceSize := 20 } 20 4 false
    (by decide) (by decide) (by decide)).elim fun r h => ⟨r, h.1, h.2.1, h.2.2.1⟩


/-! ### C27, C28: the flag bits of class_data_bits_t -/

theorem and_and_const (x a b c : Nat) (h : a &&& b = c) : (x &&& a) &&& b = x &&& c := by
  rw [Nat.and_assoc, h]

theorem or_and_self_mask (a m : Nat) : (a ||| m) &&& m = m := by
  apply Nat.eq_of_testBit_eq
  intro i
  rw [Nat.testBit_and, Nat.testBit_or]
  cases a.testBit i <;> cases m.testBit i <;> rfl

/-- What `setData` stores, for a pointer inside the mask. -/
theorem setData_bits (bits p m : Nat) (hp : p &&& FAST_DATA_MASK = p)
    (hm : FAST_DATA_MASK &&& m = 0) (hm2 : (0xFFFFFFFFFFFFFFFF ^^^ FAST_DATA_MASK) &&& m = m) :
    ((bits &&& (0xFFFFFFFFFFFFFFFF ^^^ FAST_DATA_MASK)) ||| p) &&& m = bits &&& m := by
  rw [or_and_of_disjoint_right, and_and_const _ _ _ _ hm2]
  rw [← hp]
  exact and_and_of_disjoint _ _ _ hm

/-- C27: for every pointer `p` that has no bits outside `FAST_DATA_MASK`,
`setData(p)` passes its assertion whenever the data pointer was null or the new
record is marked `RW_REALIZING` or `RW_FUTURE`, and after it `data()` returns
`p` and the bits of `bits` outside `FAST_DATA_MASK` are as before, in
particular `FAST_IS_SWIFT_LEGACY`, `FAST_IS_SWIFT_STABLE` and
`FAST_HAS_DEFAULT_RR`. -/
theorem C27_setData_frame (bits p newDataFlags : Nat) (hp : p &&& FAST_DATA_MASK = p) :
    (∀ b, class_data_bits_t.setData p newDataFlags bits = some b →
      class_data_bits_t.data b = p ∧
      b &&& (0xFFFFFFFFFFFFFFFF ^^^ FAST_DATA_MASK) =
        bits &&& (0xFFFFFFFFFFFFFFFF ^^^ FAST_DATA_MASK) ∧
      b &&& FAST_IS_SWIFT_LEGACY = bits &&& FAST_IS_SWIFT_LEGACY ∧
      b &&& FAST_IS_SWIFT_STABLE = bits &&& FAST_IS_SWIFT_STABLE ∧
      b &&& FAST_HAS_DEFAULT_RR = bits &&& FAST_HAS_DEFAULT_RR) ∧
    ((class_data_bits_t.data bits = 0 ∨ newDataFlags &&& (RW_REALIZING ||| RW_FUTURE) ≠ 0) →
      ∃ b, class_data_bits_t.setData p newDataFlags bits = some b) := by
  constructor
  · intro b hb
    unfold class_data_bits_t.setData at hb
    split at hb
    · simp only [Option.some.injEq] at hb
      subst hb
      refine ⟨?_, setData_bits bits p _ hp rfl rfl, setData_bits bits p _ hp rfl rfl,
        setData_bits bits p _ hp rfl rfl, setData_bits bits p _ hp rfl rfl⟩
      unfold class_data_bits_t.data
      rw [or_and_of_disjoint _ _ _ (and_and_of_disjoint _ _ _ rfl)]
      exact hp
    · exact Option.noConfusion hb
  · intro h
    exact ⟨_, if_pos h⟩

/-- C27 at a concrete input: a new data pointer stored over an old one, with
all three flag bits set. -/
theorem C27_setData_frame_witness :
    class_data_bits_t.setData 0x9000 RW_REALIZING 0x7007 = some 0x9007 ∧
      class_data_bits_t.data 0x9007 = 0x9000 :=
  have h := C27_setData_frame 0x7007 0x9000 RW_REALIZING (by decide)
  ⟨by decide, (h.1 0x9007 (by decide)).1⟩

/-- What `setAndClearBits` stores for two distinct single flags, seen through a
mask. -/
theorem setAndClearBits_and (set clear bits m k : Nat)
    (hk : (0xFFFFFFFFFFFFFFFF ^^^ clear) &&& m = k) :
    ((bits ||| set) &&& (0xFFFFFFFFFFFFFFFF ^^^ clear)) &&& m = (bits ||| set) &&& k :=
  and_and_const _ _ _ _ hk

/-- C28: for every value of `bits`, `setIsSwiftStable()` and
`setIsSwiftLegacy()` pass the assertion of `setAndClearBits`; after
`setIsSwiftStable()`, `isSwiftStable()` is true and `isSwiftLegacy()` is false,
after `setIsSwiftLegacy()` the reverse; in both cases `data()` and all bits
other than the two Swift bits are unchanged. -/
theorem C28_swift_bits_exclusive (bits : Nat) :
    (∃ b, class_data_bits_t.setIsSwiftStable bits = some b ∧
      class_data_bits_t.isSwiftStable b = true ∧ class_data_bits_t.isSwiftLegacy b = false ∧
      class_data_bits_t.data b = class_data_bits_t.data bits ∧
      b &&& 0xFFFFFFFFFFFFFFFC = bits &&& 0xFFFFFFFFFFFFFFFC) ∧
    (∃ b, class_data_bits_t.setIsSwiftLegacy bits = some b ∧
      class_data_bits_t.isSwiftLegacy b = true ∧ class_data_bits_t.isSwiftStable b = false ∧
      class_data_bits_t.data b = class_data_bits_t.data bits ∧
      b &&& 0xFFFFFFFFFFFFFFFC = bits &&& 0xFFFFFFFFFFFFFFFC) := by
  have hs : class_data_bits_t.setIsSwiftStable bits =
      some ((bits ||| FAST_IS_SWIFT_STABLE) &&&
        (0xFFFFFFFFFFFFFFFF ^^^ FAST_IS_SWIFT_LEGACY)) := by
    unfold class_data_bits_t.setIsSwiftStable class_data_bits_t.setAndClearBits
    exact if_pos (by decide)
  have hl : class_data_bits_t.setIsSwiftLegacy bits =
      some ((bits ||| FAST_IS_SWIFT_LEGACY) &&&
        (0xFFFFFFFFFFFFFFFF ^^^ FAST_IS_SWIFT_STABLE)) := by
    unfold class_data_bits_t.setIsSwiftLegacy class_data_bits_t.setAndClearBits
    exact if_pos (by decide)
  constructor
  · refine ⟨_, hs, ?_, ?_, ?_, ?_⟩
    · unfold class_data_bits_t.isSwiftStable class_data_bits_t.getBit
      rw [setAndClearBits_and FAST_IS_SWIFT_STABLE FAST_IS_SWIFT_LEGACY bits
        FAST_IS_SWIFT_STABLE FAST_IS_SWIFT_STABLE rfl, or_and_self_mask]
      rfl
    · unfold class_data_bits_t.isSwiftLegacy class_data_bits_t.getBit
      rw [setAndClearBits_and FAST_IS_SWIFT_STABLE FAST_IS_SWIFT_LEGACY bits
        FAST_IS_SWIFT_LEGACY 0 rfl, Nat.and_zero]
      rfl
    · unfold class_data_bits_t.data
      rw [setAndClearBits_and FAST_IS_SWIFT_STABLE FAST_IS_SWIFT_LEGACY bits
        FAST_DATA_MASK FAST_DATA_MASK rfl, or_and_of_disjoint_right _ _ _ rfl]
    · rw [setAndClearBits_and FAST_IS_SWIFT_STABLE FAST_IS_SWIFT_LEGACY bits
        0xFFFFFFFFFFFFFFFC 0xFFFFFFFFFFFFFFFC rfl, or_and_of_disjoint_right _ _ _ rfl]
  · refine ⟨_, hl, ?_, ?_, ?_, ?_⟩
    · unfold class_data_bits_t.isSwiftLegacy class_data_bits_t.getBit
      rw [setAndClearBits_and FAST_IS_SWIFT_LEGACY FAST_IS_SWIFT_STABLE bits
        FAST_IS_SWIFT_LEGACY FAST_IS_SWIFT_LEGACY rfl, or_and_self_mask]
      rfl
    · unfold class_data_bits_t.isSwiftStable class_data_bits_t.getBit
      rw [setAndClearBits_and FAST_IS_SWIFT_LEGACY FAST_IS_SWIFT_STABLE bits
        FAST_IS_SWIFT_STABLE 0 rfl, Nat.and_zero]
      rfl
    · unfold class_data_bits_t.data
      rw [setAndClearBits_and FAST_IS_SWIFT_LEGACY FAST_IS_SWIFT_STABLE bits
        FAST_DATA_MASK FAST_DATA_MASK rfl, or_and_of_disjoint_right _ _ _ rfl]
    · rw [setAndClearBits_and FAST_IS_SWIFT_LEGACY FAST_IS_SWIFT_STABLE bits
        0xFFFFFFFFFFFFFFFC 0xFFFFFFFFFFFFFFFC rfl, or_and_of_disjoint_right _ _ _ rfl]


/-! ### C29, C30: the header word and the tagged element pointer -/

theorem xor_or_self_uint32 (m : Nat) (hm : m < 2 ^ 32) :
    (0xFFFFFFFF ^^^ m) ||| m = 0xFFFFFFFF := by
  show ((2 ^ 32 - 1) ^^^ m) ||| m = 2 ^ 32 - 1
  apply Nat.eq_of_testBit_eq
  intro i
  rw [Nat.testBit_or, Nat.testBit_xor, Nat.testBit_two_pow_sub_one]
  by_cases hi : i < 32
  · cases m.testBit i <;> simp [hi]
  · have hmi : m.testBit i = false :=
      Nat.testBit_lt_two_pow (Nat.lt_of_lt_of_le hm (Nat.pow_le_pow_right (by decide) (by omega)))
    simp [hi, hmi]

theorem xor_and_self_uint32 (m : Nat) (hm : m < 2 ^ 32) :
    (0xFFFFFFFF ^^^ m) &&& m = 0 := by
  show ((2 ^ 32 - 1) ^^^ m) &&& m = 0
  apply Nat.eq_of_testBit_eq
  intro i
  rw [Nat.testBit_and, Nat.testBit_xor, Nat.testBit_two_pow_sub_one, Nat.zero_testBit]
  by_cases hi : i < 32
  · cases m.testBit i <;> simp [hi]
  · have hmi : m.testBit i = false :=
      Nat.testBit_lt_two_pow (Nat.lt_of_lt_of_le hm (Nat.pow_le_pow_right (by decide) (by omega)))
    simp [hi, hmi]

/-- C29: for every instantiation (`FlagMask` a `uint32_t`) and every header
word, `entsize()` and `flags()` partition `entsizeAndFlags`:
`entsize() | flags() == entsizeAndFlags` and `entsize() & flags() == 0`; for
`method_list_t` `entsize()` is a multiple of 4 below 65536; for `ivar_list_t`
and `property_list_t` `flags()` is 0 and `entsize()` is the whole word. -/
theorem C29_entsize_flags_partition (l : entsize_list_tt) (FlagMask : Nat)
    (hw : l.entsizeAndFlags < 2 ^ 32) (hm : FlagMask < 2 ^ 32) :
    (l.entsize FlagMask ||| l.flags FlagMask = l.entsizeAndFlags ∧
      l.entsize FlagMask &&& l.flags FlagMask = 0) ∧
    (l.entsize method_list_t.kind.FlagMask % 4 = 0 ∧
      l.entsize method_list_t.kind.FlagMask < 65536) ∧
    (l.flags ivar_list_t.kind.FlagMask = 0 ∧
      l.entsize ivar_list_t.kind.FlagMask = l.entsizeAndFlags) ∧
    (l.flags property_list_t.kind.FlagMask = 0 ∧
      l.entsize property_list_t.kind.FlagMask = l.entsizeAndFlags) := by
  have hword : l.entsizeAndFlags &&& 0xFFFFFFFF = l.entsizeAndFlags := by
    show l.entsizeAndFlags &&& (2 ^ 32 - 1) = _
    rw [Nat.and_pow_two_sub_one_eq_mod, Nat.mod_eq_of_lt hw]
  refine ⟨⟨?_, ?_⟩, ⟨?_, ?_⟩, ⟨?_, hword⟩, ⟨?_, hword⟩⟩
  · unfold entsize_list_tt.entsize entsize_list_tt.flags
    rw [← Nat.and_or_distrib_left, xor_or_self_uint32 _ hm, hword]
  · unfold entsize_list_tt.entsize entsize_list_tt.flags
    rw [Nat.and_assoc, Nat.and_comm l.entsizeAndFlags FlagMask, ← Nat.and_assoc _ FlagMask,
      xor_and_self_uint32 _ hm, Nat.zero_and, Nat.and_zero]
  · show (l.entsizeAndFlags &&& 0xFFFC) % 4 = 0
    rw [show l.entsizeAndFlags &&& 0xFFFC = l.entsizeAndFlags / 4 % 2 ^ 14 * 4 from
      and_shifted_mask _ 14 2]
    omega
  · show l.entsizeAndFlags &&& 0xFFFC < 65536
    exact Nat.lt_of_le_of_lt Nat.and_le_right (by decide)
  · exact Nat.and_zero _
  · exact Nat.and_zero _

/-- C29 at a concrete input: the header word of a small method list with
stride 12. -/
theorem C29_entsize_flags_partition_witness :
    entsize_list_tt.entsize method_list_t.FlagMask ⟨0x8000000C, 2⟩ |||
        entsize_list_tt.flags method_list_t.FlagMask ⟨0x8000000C, 2⟩ = 0x8000000C ∧
      entsize_list_tt.entsize method_list_t.FlagMask ⟨0x8000000C, 2⟩ &&&
        entsize_list_tt.flags method_list_t.FlagMask ⟨0x8000000C, 2⟩ = 0 :=
  (C29_entsize_flags_partition ⟨0x8000000C, 2⟩ method_list_t.FlagMask (by decide)
    (by decide)).1

theorem tagged_even (raw : Nat) (heven : raw % 2 = 0) (haddr : raw < 2 ^ 64) :
    (raw ||| 1) &&& 1 = 1 ∧ raw &&& 1 = 0 ∧
      (raw ||| 1) &&& (0xFFFFFFFFFFFFFFFF ^^^ 1) = raw := by
  have hone : ∀ x : Nat, x &&& 1 = x % 2 := fun x => Nat.and_pow_two_sub_one_eq_mod x 1
  have hclear : ∀ x : Nat, x &&& (0xFFFFFFFFFFFFFFFF ^^^ 1) = x / 2 % 2 ^ 63 * 2 :=
    fun x => and_shifted_mask x 63 1
  have hp : raw ||| 1 = raw + 1 := by
    rw [lor_one]
    omega
  rw [hp, hone, hone, hclear]
  omega

/-- C30: for a `method_list_t` stored at `this` and `i <= count`, where the
record address `this + 8 + i*entsize()` is even and an address of the machine,
`getOrEnd(i)` returns a pointer whose low bit is set exactly when the list's
flags contain `smallMethodListFlag`.  In that case `isSmall()` is true and
`small()` is the record at the untagged address; otherwise the pointer is the
untagged address and `isSmall()` is false. -/
theorem C30_tagged_element_pointer (this : Ptr) (l : entsize_list_tt) (i : Nat)
    (hi : i ≤ l.count)
    (heven : (this + 8 + (i * l.entsize method_list_t.FlagMask) % 2 ^ 32) % 2 = 0)
    (haddr : this + 8 + (i * l.entsize method_list_t.FlagMask) % 2 ^ 32 < 2 ^ 64) :
    ∃ p, entsize_list_tt.getOrEnd method_list_t.kind this l i = some p ∧
      (p &&& 1 = 1 ↔ l.flags method_list_t.FlagMask &&& method_t.smallMethodListFlag ≠ 0) ∧
      (l.flags method_list_t.FlagMask &&& method_t.smallMethodListFlag ≠ 0 →
        method_t.isSmall p = true ∧
        method_t.small p = some (this + 8 + (i * l.entsize method_list_t.FlagMask) % 2 ^ 32)) ∧
      (l.flags method_list_t.FlagMask &&& method_t.smallMethodListFlag = 0 →
        p = this + 8 + (i * l.entsize method_list_t.FlagMask) % 2 ^ 32 ∧
        method_t.isSmall p = false) := by
  obtain ⟨raw, hraw⟩ :
      ∃ raw : Nat, this + 8 + (i * l.entsize method_list_t.FlagMask) % 2 ^ 32 = raw := ⟨_, rfl⟩
  rw [hraw] at heven haddr ⊢
  obtain ⟨htag, hplain, huntag⟩ := tagged_even raw heven haddr
  have hget : entsize_list_tt.getOrEnd method_list_t.kind this l i =
      some (method_t.pointer_modifier.modify l raw) := by
    unfold entsize_list_tt.getOrEnd
    rw [if_pos hi]
    show some (method_t.pointer_modifier.modify l
      (this + 8 + (i * l.entsize method_list_t.FlagMask) % 2 ^ 32)) = _
    rw [hraw]
  refine ⟨_, hget, ?_⟩
  unfold method_t.pointer_modifier.modify
  by_cases hf : l.flags method_list_t.FlagMask &&& method_t.smallMethodListFlag = 0
  · rw [if_neg (not_not.mpr hf)]
    refine ⟨?_, fun h => absurd hf h, fun _ => ⟨rfl, ?_⟩⟩
    · constructor
      · intro h
        rw [hplain] at h
        exact absurd h (by decide)
      · intro h; exact absurd hf h
    · unfold method_t.isSmall
      rw [hplain]
      rfl
  · rw [if_pos hf]
    have hs : method_t.isSmall (raw ||| 1) = true := by
      unfold method_t.isSmall
      rw [htag]
      rfl
    refine ⟨⟨fun _ => hf, fun _ => htag⟩, fun _ => ⟨hs, ?_⟩, fun h => absurd h hf⟩
    unfold method_t.small
    rw [if_pos hs, huntag]

/-- C30 at a concrete input: record 1 of the small method list at `0x2000`. -/
theorem C30_tagged_element_pointer_witness :
    ∃ p, entsize_list_tt.getOrEnd method_list_t.kind 0x2000 ⟨0x8000000C, 2⟩ 1 = some p ∧
      method_t.small p = some 0x2014 :=
  (C30_tagged_element_pointer 0x2000 ⟨0x8000000C, 2⟩ 1 (by decide) (by decide)
    (by decide)).elim fun p hp => ⟨p, hp.1, (hp.2.2.1 (by decide)).2⟩

/-! ### The dispatch cache: probing -/

theorem and_mask_lt (x n : Nat) (hn : 0 < n) : x &&& (n - 1) < n :=
  Nat.lt_of_le_of_lt Nat.and_le_right (by omega)

theorem probe_lt (buckets : List bucket_t) (sel : Nat) (hn : 0 < buckets.length) :
    ∀ (fuel j i : Nat) (m : Bool), j < buckets.length →
      cache_t.probe buckets sel fuel j = some (i, m) → i < buckets.length := by
  intro fuel
  induction fuel with
  | zero => intro j i m _ h; exact Option.noConfusion h
  | succ fuel ih =>
    intro j i m hj h
    simp only [cache_t.probe] at h
    split at h
    · simp only [Option.some.injEq, Prod.mk.injEq] at h
      omega
    · split at h
      · simp only [Option.some.injEq, Prod.mk.injEq] at h
        omega
      · exact ih _ i m (and_mask_lt _ _ hn) h

theorem probe_stop (buckets : List bucket_t) (sel : Nat) :
    ∀ (fuel j i : Nat) (m : Bool), cache_t.probe buckets sel fuel j = some (i, m) →
      (m = true → (buckets.getD i cache_t.emptyBucket).sel = sel) ∧
      (m = false → (buckets.getD i cache_t.emptyBucket).sel = 0 ∧ sel ≠ 0) := by
  intro fuel
  induction fuel with
  | zero => intro j i m h; exact Option.noConfusion h
  | succ fuel ih =>
    intro j i m h
    simp only [cache_t.probe] at h
    split at h
    · rename_i hsel
      simp only [Option.some.injEq, Prod.mk.injEq] at h
      obtain ⟨rfl, rfl⟩ := h
      exact ⟨fun _ => hsel, fun hm => Bool.noConfusion hm⟩
    · rename_i hsel
      split at h
      · rename_i h0
        simp only [Option.some.injEq, Prod.mk.injEq] at h
        obtain ⟨rfl, rfl⟩ := h
        refine ⟨fun hm => Bool.noConfusion hm, fun _ => ⟨h0, ?_⟩⟩
        intro hs
        rw [hs] at hsel
        exact hsel h0
      · exact ih _ i m h

theorem getD_set_self (buckets : List bucket_t) (i : Nat) (b : bucket_t)
    (hi : i < buckets.length) : (buckets.set i b).getD i cache_t.emptyBucket = b := by
  rw [List.getD_eq_getElem?_getD, List.getElem?_set, if_pos rfl, if_pos hi]
  rfl

theorem getD_set_other (buckets : List bucket_t) (i j : Nat) (b : bucket_t) (hij : i ≠ j) :
    (buckets.set i b).getD j cache_t.emptyBucket = buckets.getD j cache_t.emptyBucket := by
  rw [List.getD_eq_getElem?_getD, List.getD_eq_getElem?_getD, List.getElem?_set, if_neg hij]

/-- After an empty bucket on the probe path of `sel` received `sel`, the probe
stops there with a match. -/
theorem probe_after_write (buckets : List bucket_t) (sel : Nat) (b : bucket_t)
    (hb : b.sel = sel) (i : Nat) (hi : i < buckets.length) :
    ∀ (fuel j : Nat), cache_t.probe buckets sel fuel j = some (i, false) →
      cache_t.probe (buckets.set i b) sel fuel j = some (i, true) := by
  intro fuel
  induction fuel with
  | zero => intro j h; exact Option.noConfusion h
  | succ fuel ih =>
    intro j h
    simp only [cache_t.probe] at h ⊢
    by_cases hji : j = i
    · subst hji
      rw [getD_set_self _ _ _ hi, if_pos hb]
    · rw [getD_set_other _ _ _ _ (Ne.symm hji), List.length_set]
      split at h
      · simp only [Option.some.injEq, Prod.mk.injEq] at h
        exact absurd h.2 (by decide)
      · rename_i hsel
        rw [if_neg hsel]
        split at h
        · simp only [Option.some.injEq, Prod.mk.injEq] at h
          exact absurd h.1 hji
        · rename_i h0
          rw [if_neg h0]
          exact ih _ h

/-- A write into an empty bucket leaves every probe that stops at a match where
it was, and the matching bucket as it was. -/
theorem probe_after_other_write (buckets : List bucket_t) (sel : Nat) (hsel : sel ≠ 0)
    (b : bucket_t) (w : Nat) (hw : (buckets.getD w cache_t.emptyBucket).sel = 0) (i : Nat) :
    ∀ (fuel j : Nat), cache_t.probe buckets sel fuel j = some (i, true) →
      cache_t.probe (buckets.set w b) sel fuel j = some (i, true) ∧
      (buckets.set w b).getD i cache_t.emptyBucket = buckets.getD i cache_t.emptyBucket := by
  intro fuel
  induction fuel with
  | zero => intro j h; exact Option.noConfusion h
  | succ fuel ih =>
    intro j h
    simp only [cache_t.probe] at h ⊢
    have hjw : (buckets.getD j cache_t.emptyBucket).sel ≠ 0 → w ≠ j := by
      intro h1 h2
      rw [h2] at hw
      exact h1 hw
    split at h
    · rename_i hs
      simp only [Option.some.injEq, Prod.mk.injEq] at h
      have hwj : w ≠ j := hjw (by rw [hs]; exact hsel)
      rw [getD_set_other _ _ _ _ hwj, if_pos hs, ← h.1]
      exact ⟨by simp, getD_set_other _ _ _ _ hwj⟩
    · rename_i hs
      split at h
      · simp only [Option.some.injEq, Prod.mk.injEq] at h
        exact absurd h.2 (by decide)
      · rename_i h0
        have hwj : w ≠ j := hjw h0
        rw [getD_set_other _ _ _ _ hwj, if_neg hs, if_neg h0, List.length_set]
        exact ih _ h

/-! ### The dispatch cache: the shape the operations keep -/

theorem used_replicate (n : Nat) : cache_t.used (List.replicate n cache_t.emptyBucket) = 0 := by
  unfold cache_t.used
  rw [List.length_eq_zero, List.filter_eq_nil_iff]
  intro b hb
  rw [List.eq_of_mem_replicate hb]
  simp [cache_t.emptyBucket, bucket_t.sel]

theorem used_cons (x : bucket_t) (xs : List bucket_t) :
    cache_t.used (x :: xs) = cache_t.used xs + (if x.sel = 0 then 0 else 1) := by
  unfold cache_t.used
  by_cases h : x.sel = 0 <;> simp [List.filter_cons, h]

theorem used_set (b : bucket_t) (hb : b.sel ≠ 0) :
    ∀ (buckets : List bucket_t) (i : Nat), i < buckets.length →
      (buckets.getD i cache_t.emptyBucket).sel = 0 →
      cache_t.used (buckets.set i b) = cache_t.used buckets + 1 := by
  intro buckets
  induction buckets with
  | nil => intro i hi; simp at hi
  | cons x xs ih =>
    intro i hi h0
    cases i with
    | zero =>
      simp only [List.getD_cons_zero] at h0
      rw [List.set_cons_zero, used_cons, used_cons, if_neg hb, if_pos h0]
    | succ i =>
      simp only [List.getD_cons_succ] at h0
      rw [List.set_cons_succ, used_cons, used_cons, ih i (by simpa using hi) h0]
      omega

theorem used_le_length (buckets : List bucket_t) : cache_t.used buckets ≤ buckets.length :=
  List.length_filter_le _ _

theorem wellFormed_reallocate (n : Nat) (hn : n = 0 ∨ ∃ k, 2 ≤ k ∧ n = 2 ^ k) :
    cache_t.WellFormed (cache_t.reallocate n) ∧
      ∃ k, 2 ≤ k ∧ max (2 * n) 4 = 2 ^ k := by
  have hk : ∃ k, 2 ≤ k ∧ max (2 * n) 4 = 2 ^ k := by
    rcases hn with h0 | ⟨k, hk, hn⟩
    · subst h0
      exact ⟨2, Nat.le_refl _, by decide⟩
    · refine ⟨k + 1, by omega, ?_⟩
      have h4 : 2 ^ 2 ≤ 2 ^ k := Nat.pow_le_pow_right (by decide) hk
      rw [hn, Nat.pow_succ]
      omega
  refine ⟨?_, hk⟩
  obtain ⟨k, hk2, hmax⟩ := hk
  unfold cache_t.reallocate cache_t.WellFormed
  refine ⟨(used_replicate _).symm, Or.inr ⟨k, hk2, ?_, by omega⟩⟩
  rw [List.length_replicate, hmax]

/-- The table `insert` writes into is a well-formed dynamic table with room
for one more selector. -/
theorem prepared_spec (c : cache_t) (hwf : c.WellFormed) :
    (∃ buckets occupied, cache_t.prepared c = cache_t.dynamic buckets occupied ∧
      occupied = cache_t.used buckets ∧
      (∃ k, 2 ≤ k ∧ buckets.length = 2 ^ k) ∧
      4 * (occupied + 1) ≤ 3 * buckets.length ∧
      c.capacity ≤ buckets.length) ∨
    ((∃ t, c = cache_t.preoptimized t) ∧ cache_t.prepared c = cache_t.reallocate 0) := by
  cases c with
  | preoptimized t => exact Or.inr ⟨⟨t, rfl⟩, rfl⟩
  | dynamic b o =>
    left
    obtain ⟨hocc, hshape⟩ := hwf
    have hn : b.length = 0 ∨ ∃ k, 2 ≤ k ∧ b.length = 2 ^ k := by
      rcases hshape with h | ⟨k, hk, hl, _⟩
      · left; rw [h]; rfl
      · exact Or.inr ⟨k, hk, hl⟩
    by_cases hg : cache_t.grows (cache_t.dynamic b o) = true
    · obtain ⟨_, k, hk, hmax⟩ := wellFormed_reallocate b.length hn
      refine ⟨List.replicate (max (2 * b.length) 4) cache_t.emptyBucket, 0, ?_,
        (used_replicate _).symm, ⟨k, hk, ?_⟩, ?_, ?_⟩
      · simp only [cache_t.prepared, hg, if_true, cache_t.reallocate]
      · rw [List.length_replicate]
        exact hmax
      · rw [List.length_replicate]
        omega
      · simp only [cache_t.capacity, List.length_replicate]
        omega
    · have hg' : cache_t.grows (cache_t.dynamic b o) = false := by
        simpa using hg
      have hg2 := hg'
      simp only [cache_t.grows, Bool.or_eq_false_iff, decide_eq_false_iff_not, Nat.not_lt] at hg2
      refine ⟨b, o, ?_, hocc, ?_, hg2.2, Nat.le_refl _⟩
      · simp only [cache_t.prepared, hg', Bool.false_eq_true, if_false]
      · rcases hn with h | h
        · exact absurd h hg2.1
        · exact h

theorem imp_encodeImp (enc : CACHE_IMP_ENCODING) (sel imp cls : Nat)
    (h : enc = .NONE ∨ imp ≠ cls) :
    bucket_t.imp enc ⟨sel, bucket_t.encodeImp enc 0 imp sel cls⟩ 0 cls = imp := by
  unfold bucket_t.imp bucket_t.encodeImp
  by_cases h0 : imp = 0
  · subst h0
    simp
  · cases enc with
    | NONE => simp [h0]
    | ISA_XOR =>
      have hc : imp ≠ cls := by
        rcases h with h | h
        · exact CACHE_IMP_ENCODING.noConfusion h
        · exact h
      have hx : ¬ (imp ^^^ cls = 0) := fun hx => hc (Nat.xor_eq_zero.mp hx)
      simp [h0, hx, Nat.xor_cancel_right]

theorem any_of_probe (buckets : List bucket_t) (sel fuel j i : Nat) (hi : i < buckets.length)
    (h : cache_t.probe buckets sel fuel j = some (i, true)) :
    (buckets.any fun b => b.sel == sel) = true := by
  have hs := (probe_stop buckets sel fuel j i true h).1 rfl
  rw [List.any_eq_true]
  refine ⟨buckets[i], List.getElem_mem _, ?_⟩
  rw [List.getD_eq_getElem?_getD, List.getElem?_eq_getElem hi] at hs
  simpa using hs

theorem prepared_dynamic (c : cache_t) (sel : Nat) (hsel : sel ≠ 0)
    (hnew : c.holds sel = false) :
    ∃ b o, cache_t.prepared c = cache_t.dynamic b o ∧ 0 < b.length ∧
      (b.any fun x => x.sel == sel) = false := by
  have hrep : ∀ n, (List.replicate n cache_t.emptyBucket).any (fun x => x.sel == sel) = false := by
    intro n
    rw [Bool.eq_false_iff]
    intro hany
    rw [List.any_eq_true] at hany
    obtain ⟨x, hx, hxs⟩ := hany
    rw [List.eq_of_mem_replicate hx] at hxs
    have h0 : (0 : Nat) = sel := by simpa [cache_t.emptyBucket, bucket_t.sel] using hxs
    exact hsel h0.symm
  cases c with
  | preoptimized t =>
    refine ⟨_, 0, rfl, ?_, hrep _⟩
    rw [List.length_replicate]
    decide
  | dynamic b o =>
    by_cases hg : cache_t.grows (cache_t.dynamic b o) = true
    · refine ⟨List.replicate (max (2 * b.length) 4) cache_t.emptyBucket, 0, ?_, ?_, hrep _⟩
      · simp only [cache_t.prepared, hg, if_true, cache_t.reallocate]
      · rw [List.length_replicate]
        omega
    · have hg' : cache_t.grows (cache_t.dynamic b o) = false := by simpa using hg
      have hg2 := hg'
      simp only [cache_t.grows, Bool.or_eq_false_iff, decide_eq_false_iff_not] at hg2
      refine ⟨b, o, ?_, by omega, hnew⟩
      simp only [cache_t.prepared, hg', Bool.false_eq_true, if_false]

/-- After an `insert` of a selector the cache did not hold, the probe for the
selector stops at a bucket that decodes to the inserted implementation. -/
theorem insert_fresh_hit (mix : Nat → Nat) (enc : CACHE_IMP_ENCODING) (cls sel imp : Nat)
    (c c' : cache_t) (hsel : sel ≠ 0) (hnew : c.holds sel = false)
    (himp : enc = .NONE ∨ imp ≠ cls)
    (hins : cache_t.insert mix enc cls sel imp c = some c') :
    ∃ b o i, c' = cache_t.dynamic b o ∧
      cache_t.probe b sel b.length (mix sel &&& (b.length - 1)) = some (i, true) ∧
      (b.getD i cache_t.emptyBucket).imp enc 0 cls = imp := by
  obtain ⟨b, o, hp, hpos, hany⟩ := prepared_dynamic c sel hsel hnew
  simp only [cache_t.insert, hp] at hins
  cases hpr : cache_t.probe b sel b.length (mix sel &&& (b.length - 1)) with
  | none => rw [hpr] at hins; exact Option.noConfusion hins
  | some r =>
    obtain ⟨i, m⟩ := r
    rw [hpr] at hins
    have hi := probe_lt b sel hpos _ _ i m (and_mask_lt _ _ hpos) hpr
    cases m with
    | true =>
      have := any_of_probe b sel _ _ i hi hpr
      rw [hany] at this
      exact Bool.noConfusion this
    | false =>
      simp only [Option.some.injEq] at hins
      subst hins
      refine ⟨_, _, i, rfl, ?_, ?_⟩
      · rw [List.length_set]
        exact probe_after_write b sel ⟨sel, bucket_t.encodeImp enc 0 imp sel cls⟩ rfl i hi _ _ hpr
      · rw [getD_set_self _ _ _ hi]
        exact imp_encodeImp enc sel imp cls himp

/-- An `insert` that does not grow the table leaves the probe for a held
selector, and the bucket it stops at, as they were. -/
theorem insert_quiet_keeps (mix : Nat → Nat) (enc : CACHE_IMP_ENCODING) (cls sel : Nat)
    (hsel : sel ≠ 0) (b : List bucket_t) (o i : Nat) (s2 i2 : Nat) (c2 : cache_t)
    (hprobe : cache_t.probe b sel b.length (mix sel &&& (b.length - 1)) = some (i, true))
    (hquiet : cache_t.grows (cache_t.dynamic b o) = false)
    (hins : cache_t.insert mix enc cls s2 i2 (cache_t.dynamic b o) = some c2) :
    ∃ b2 o2, c2 = cache_t.dynamic b2 o2 ∧
      cache_t.probe b2 sel b2.length (mix sel &&& (b2.length - 1)) = some (i, true) ∧
      b2.getD i cache_t.emptyBucket = b.getD i cache_t.emptyBucket := by
  have hp : cache_t.prepared (cache_t.dynamic b o) = cache_t.dynamic b o := by
    simp only [cache_t.prepared, hquiet, Bool.false_eq_true, if_false]
  simp only [cache_t.insert, hp] at hins
  cases hpr : cache_t.probe b s2 b.length (mix s2 &&& (b.length - 1)) with
  | none => rw [hpr] at hins; exact Option.noConfusion hins
  | some r =>
    obtain ⟨k, m⟩ := r
    rw [hpr] at hins
    cases m with
    | true =>
      simp only [Option.some.injEq] at hins
      subst hins
      exact ⟨b, o, rfl, hprobe, rfl⟩
    | false =>
      simp only [Option.some.injEq] at hins
      subst hins
      have hempty := ((probe_stop b s2 _ _ k false hpr).2 rfl).1
      obtain ⟨h1, h2⟩ := probe_after_other_write b sel hsel
        ⟨s2, bucket_t.encodeImp enc 0 i2 s2 cls⟩ k hempty i _ _ hprobe
      refine ⟨_, _, rfl, ?_, h2⟩
      rw [List.length_set]
      exact h1

theorem insertQuietly_keeps (mix : Nat → Nat) (enc : CACHE_IMP_ENCODING) (cls sel : Nat)
    (hsel : sel ≠ 0) (i : Nat) (w : bucket_t) :
    ∀ (rest : List (Nat × Nat)) (b : List bucket_t) (o : Nat) (c2 : cache_t),
      cache_t.probe b sel b.length (mix sel &&& (b.length - 1)) = some (i, true) →
      b.getD i cache_t.emptyBucket = w →
      cache_t.insertQuietly mix enc cls rest (cache_t.dynamic b o) = some c2 →
      ∃ b2 o2, c2 = cache_t.dynamic b2 o2 ∧
        cache_t.probe b2 sel b2.length (mix sel &&& (b2.length - 1)) = some (i, true) ∧
        b2.getD i cache_t.emptyBucket = w := by
  intro rest
  induction rest with
  | nil =>
    intro b o c2 hprobe hw h
    simp only [cache_t.insertQuietly, Option.some.injEq] at h
    subst h
    exact ⟨b, o, rfl, hprobe, hw⟩
  | cons x rest ih =>
    intro b o c2 hprobe hw h
    obtain ⟨s2, i2⟩ := x
    simp only [cache_t.insertQuietly] at h
    split at h
    · exact Option.noConfusion h
    · rename_i hg
      have hquiet : cache_t.grows (cache_t.dynamic b o) = false := by simpa using hg
      cases h1 : cache_t.insert mix enc cls s2 i2 (cache_t.dynamic b o) with
      | none => rw [h1] at h; exact Option.noConfusion h
      | some c1 =>
        rw [h1] at h
        obtain ⟨b1, o1, hc1, hp1, hw1⟩ :=
          insert_quiet_keeps mix enc cls sel hsel b o i s2 i2 c1 hprobe hquiet h1
        subst hc1
        exact ih b1 o1 c2 hp1 (hw1.trans hw) h

theorem getImp_of_probe (mix : Nat → Nat) (enc : CACHE_IMP_ENCODING) (cls sel v : Nat)
    (b : List bucket_t) (o i : Nat)
    (hprobe : cache_t.probe b sel b.length (mix sel &&& (b.length - 1)) = some (i, true)) :
    cache_t.getImp mix enc cls (cache_t.dynamic b o) sel v =
      some ((b.getD i cache_t.emptyBucket).imp enc 0 cls) := by
  have hlen : b.length ≠ 0 := by
    intro h0
    rw [h0] at hprobe
    exact Option.noConfusion hprobe
  simp only [cache_t.getImp, hlen, if_false, hprobe]

/-- C16: for the cache of a class `cls`, a non-null selector `S` the cache does
not hold yet and an implementation `I` that the encoding of the build stores
faithfully (raw encoding, or `I` different from the class identity), after a
successful `insert(S, I)` a `get` of `S` returns `I`, and it still returns `I`
after any sequence of further successful inserts none of which grows the
table. -/
theorem C16_get_after_insert (mix : Nat → Nat) (enc : CACHE_IMP_ENCODING) (cls S I : Nat)
    (c c' c'' : cache_t) (rest : List (Nat × Nat)) (value_on_constant_cache_miss : Nat)
    (hS : S ≠ 0) (hnew : c.holds S = false) (hI : enc = .NONE ∨ I ≠ cls)
    (hins : cache_t.insert mix enc cls S I c = some c')
    (hrest : cache_t.insertQuietly mix enc cls rest c' = some c'') :
    cache_t.getImp mix enc cls c' S value_on_constant_cache_miss = some I ∧
      cache_t.getImp mix enc cls c'' S value_on_constant_cache_miss = some I := by
  obtain ⟨b, o, i, hc', hprobe, hdec⟩ := insert_fresh_hit mix enc cls S I c c' hS hnew hI hins
  subst hc'
  obtain ⟨b2, o2, hc2, hprobe2, hw2⟩ :=
    insertQuietly_keeps mix enc cls S hS i _ rest b o c'' hprobe rfl hrest
  subst hc2
  constructor
  · rw [getImp_of_probe mix enc cls S _ b o i hprobe, hdec]
  · rw [getImp_of_probe mix enc cls S _ b2 o2 i hprobe2, hw2, hdec]

/-- C16 at a concrete input: selector 5 is inserted into the empty cache, then
selectors 9 (which probes past the bucket of 5) and 6. -/
theorem C16_get_after_insert_witness :
    cache_t.getImp sampleMix .ISA_XOR 0x1000
      (cache_t.dynamic [⟨0, 0⟩, ⟨5, 0x5000⟩, ⟨9, 0x8000⟩, ⟨6, 0x7000⟩] 3) 5 0 = some 0x4000 :=
  (C16_get_after_insert sampleMix .ISA_XOR 0x1000 5 0x4000 cache_t.initializeToEmpty
    (cache_t.dynamic [⟨0, 0⟩, ⟨5, 0x5000⟩, ⟨0, 0⟩, ⟨0, 0⟩] 1)
    (cache_t.dynamic [⟨0, 0⟩, ⟨5, 0x5000⟩, ⟨9, 0x8000⟩, ⟨6, 0x7000⟩] 3)
    [(9, 0x9000), (6, 0x6000)] 0 (by decide) (by decide) (by decide) (by decide)
    (by decide)).2


/-! ### C17: growth of a minimum-capacity cache -/

theorem exists_empty_bucket :
    ∀ (buckets : List bucket_t), cache_t.used buckets < buckets.length →
      ∃ e, e < buckets.length ∧ (buckets.getD e cache_t.emptyBucket).sel = 0 := by
  intro buckets
  induction buckets with
  | nil => intro h; simp at h
  | cons x xs ih =>
    intro h
    rw [used_cons] at h
    by_cases hx : x.sel = 0
    · exact ⟨0, by simp, by simpa using hx⟩
    · rw [if_neg hx] at h
      obtain ⟨e, he, hs⟩ := ih (by simpa using h)
      exact ⟨e + 1, by simpa using he, by simpa using hs⟩

/-- A probe that has an empty or matching bucket within reach stops. -/
theorem probe_total_aux (buckets : List bucket_t) (sel k : Nat)
    (hlen : buckets.length = 2 ^ k) :
    ∀ (fuel j d : Nat), d < fuel → j < buckets.length →
      ((buckets.getD ((j + d) % buckets.length) cache_t.emptyBucket).sel = sel ∨
        (buckets.getD ((j + d) % buckets.length) cache_t.emptyBucket).sel = 0) →
      ∃ r, cache_t.probe buckets sel fuel j = some r := by
  intro fuel
  induction fuel with
  | zero => intro j d hd; omega
  | succ fuel ih =>
    intro j d hd hj hstop
    simp only [cache_t.probe]
    by_cases h1 : (buckets.getD j cache_t.emptyBucket).sel = sel
    · rw [if_pos h1]; exact ⟨_, rfl⟩
    · rw [if_neg h1]
      by_cases h2 : (buckets.getD j cache_t.emptyBucket).sel = 0
      · rw [if_pos h2]; exact ⟨_, rfl⟩
      · rw [if_neg h2]
        have hnext : (j + 1) &&& (buckets.length - 1) = (j + 1) % buckets.length := by
          rw [hlen, Nat.and_pow_two_sub_one_eq_mod]
        rw [hnext]
        cases d with
        | zero =>
          rw [Nat.add_zero, Nat.mod_eq_of_lt hj] at hstop
          rcases hstop with h | h
          · exact absurd h h1
          · exact absurd h h2
        | succ d =>
          have hpos : 0 < buckets.length := by omega
          apply ih ((j + 1) % buckets.length) d (by omega) (Nat.mod_lt _ hpos)
          have : ((j + 1) % buckets.length + d) % buckets.length =
              (j + (d + 1)) % buckets.length := by
            rw [Nat.mod_add_mod]
            congr 1
            omega
          rw [this]
          exact hstop

theorem probe_total (buckets : List bucket_t) (sel k j : Nat)
    (hlen : buckets.length = 2 ^ k) (hroom : cache_t.used buckets < buckets.length)
    (hj : j < buckets.length) :
    ∃ r, cache_t.probe buckets sel buckets.length j = some r := by
  obtain ⟨e, he, hs⟩ := exists_empty_bucket buckets hroom
  by_cases hje : j ≤ e
  · apply probe_total_aux buckets sel k hlen buckets.length j (e - j) (by omega) hj
    have : j + (e - j) = e := by omega
    rw [this, Nat.mod_eq_of_lt he]
    exact Or.inr hs
  · apply probe_total_aux buckets sel k hlen buckets.length j (e + buckets.length - j)
      (by omega) hj
    have : j + (e + buckets.length - j) = e + buckets.length := by omega
    rw [this, Nat.add_mod_right, Nat.mod_eq_of_lt he]
    exact Or.inr hs


theorem any_replicate_empty (sel n : Nat) (hsel : sel ≠ 0) :
    (List.replicate n cache_t.emptyBucket).any (fun x => x.sel == sel) = false := by
  rw [Bool.eq_false_iff]
  intro hany
  rw [List.any_eq_true] at hany
  obtain ⟨x, hx, hxs⟩ := hany
  rw [List.eq_of_mem_replicate hx] at hxs
  have h0 : (0 : Nat) = sel := by simpa [cache_t.emptyBucket, bucket_t.sel] using hxs
  exact hsel h0.symm

theorem any_set_other (buckets : List bucket_t) (i sel other w : Nat) (hne : other ≠ sel)
    (h : buckets.any (fun x => x.sel == sel) = false) :
    (buckets.set i ⟨other, w⟩).any (fun x => x.sel == sel) = false := by
  rw [Bool.eq_false_iff] at h ⊢
  intro hany
  rw [List.any_eq_true] at hany
  obtain ⟨x, hx, hxs⟩ := hany
  rcases List.mem_or_eq_of_mem_set hx with hmem | heq
  · exact h (List.any_eq_true.mpr ⟨x, hmem, hxs⟩)
  · rw [heq] at hxs
    exact hne (by simpa [bucket_t.sel] using hxs)

/-- One `insert` of a new selector into a dynamic table that does not grow: an
empty bucket receives the entry and the counter goes up by one. -/
theorem insert_step (mix : Nat → Nat) (enc : CACHE_IMP_ENCODING) (cls sel imp : Nat)
    (b : List bucket_t) (o k : Nat) (hlen : b.length = 2 ^ k)
    (hused : cache_t.used b = o) (hquiet : cache_t.grows (cache_t.dynamic b o) = false)
    (hnew : b.any (fun x => x.sel == sel) = false) :
    ∃ i, i < b.length ∧ (b.getD i cache_t.emptyBucket).sel = 0 ∧
      cache_t.insert mix enc cls sel imp (cache_t.dynamic b o) =
        some (cache_t.dynamic (b.set i ⟨sel, bucket_t.encodeImp enc 0 imp sel cls⟩) (o + 1)) := by
  have hp : cache_t.prepared (cache_t.dynamic b o) = cache_t.dynamic b o := by
    simp only [cache_t.prepared, hquiet, Bool.false_eq_true, if_false]
  have hg := hquiet
  simp only [cache_t.grows, Bool.or_eq_false_iff, decide_eq_false_iff_not, Nat.not_lt] at hg
  have hpos : 0 < b.length := by omega
  have hj := and_mask_lt (mix sel) b.length hpos
  obtain ⟨⟨i, m⟩, hpr⟩ := probe_total b sel k _ hlen (by omega) hj
  have hi := probe_lt b sel hpos _ _ i m hj hpr
  cases m with
  | true =>
    have := any_of_probe b sel _ _ i hi hpr
    rw [hnew] at this
    exact Bool.noConfusion this
  | false =>
    refine ⟨i, hi, ((probe_stop b sel _ _ i false hpr).2 rfl).1, ?_⟩
    simp only [cache_t.insert, hp, hpr]

/-- A `get` of a selector that no bucket holds is a miss. -/
theorem getImp_miss (mix : Nat → Nat) (enc : CACHE_IMP_ENCODING) (cls sel v : Nat)
    (b : List bucket_t) (o k : Nat) (hlen : b.length = 2 ^ k)
    (hroom : cache_t.used b < b.length)
    (hnew : b.any (fun x => x.sel == sel) = false) :
    cache_t.getImp mix enc cls (cache_t.dynamic b o) sel v = some 0 := by
  have hpos : 0 < b.length := by omega
  have hj := and_mask_lt (mix sel) b.length hpos
  obtain ⟨⟨i, m⟩, hpr⟩ := probe_total b sel k _ hlen hroom hj
  have hi := probe_lt b sel hpos _ _ i m hj hpr
  cases m with
  | true =>
    have := any_of_probe b sel _ _ i hi hpr
    rw [hnew] at this
    exact Bool.noConfusion this
  | false =>
    have hne : b.length ≠ 0 := by omega
    simp only [cache_t.getImp, hne, if_false, hpr]

theorem insert_of_prepared (mix : Nat → Nat) (enc : CACHE_IMP_ENCODING) (cls sel imp : Nat)
    (c d : cache_t) (h : cache_t.prepared c = cache_t.prepared d) :
    cache_t.insert mix enc cls sel imp c = cache_t.insert mix enc cls sel imp d := by
  simp only [cache_t.insert, h]


/-- C17: starting from a fresh cache of minimum capacity 4, the inserts of
four distinct non-null selectors all succeed; the first three do not grow the
table and leave capacity 4 with occupied 1, 2 and 3; the fourth, for which
occupied would exceed 3, grows the table to an empty one of capacity 8 with
occupied 0 and then stores its entry (occupied 1); after it a `get` of each
of the three earlier selectors is a miss, until the selector is inserted
again, after which `get` returns what was inserted. -/
theorem C17_growth_at_fourth_insert (mix : Nat → Nat) (enc : CACHE_IMP_ENCODING)
    (cls s1 s2 s3 s4 i1 i2 i3 i4 v : Nat)
    (hnonnull : s1 ≠ 0 ∧ s2 ≠ 0 ∧ s3 ≠ 0 ∧ s4 ≠ 0) (hdistinct : [s1, s2, s3, s4].Nodup) :
    ∃ c1 c2 c3 c4,
      cache_t.insert mix enc cls s1 i1
        (cache_t.dynamic (List.replicate 4 cache_t.emptyBucket) 0) = some c1 ∧
      cache_t.insert mix enc cls s2 i2 c1 = some c2 ∧
      cache_t.insert mix enc cls s3 i3 c2 = some c3 ∧
      cache_t.insert mix enc cls s4 i4 c3 = some c4 ∧
      (c1.capacity = 4 ∧ c1.occupied = 1 ∧ c1.grows = false) ∧
      (c2.capacity = 4 ∧ c2.occupied = 2 ∧ c2.grows = false) ∧
      (c3.capacity = 4 ∧ c3.occupied = 3 ∧ c3.grows = true) ∧
      cache_t.prepared c3 = cache_t.dynamic (List.replicate 8 cache_t.emptyBucket) 0 ∧
      (c4.capacity = 8 ∧ c4.occupied = 1) ∧
      cache_t.getImp mix enc cls c4 s1 v = some 0 ∧
      cache_t.getImp mix enc cls c4 s2 v = some 0 ∧
      cache_t.getImp mix enc cls c4 s3 v = some 0 ∧
      ((enc = .NONE ∨ i1 ≠ cls) → ∃ c5, cache_t.insert mix enc cls s1 i1 c4 = some c5 ∧
        cache_t.getImp mix enc cls c5 s1 v = some i1) := by
  obtain ⟨h1, h2, h3, h4⟩ := hnonnull
  simp only [List.nodup_cons, List.mem_cons, List.mem_singleton, List.not_mem_nil,
    not_or, List.nodup_nil, and_true, not_false_eq_true] at hdistinct
  obtain ⟨⟨h12, h13, h14⟩, ⟨h23, h24⟩, h34⟩ := hdistinct
  -- the first insert
  obtain ⟨j1, hj1, he1, hins1⟩ := insert_step mix enc cls s1 i1
    (List.replicate 4 cache_t.emptyBucket) 0 2 rfl (used_replicate 4) (by decide)
    (any_replicate_empty s1 4 h1)
  have hl1 : ((List.replicate 4 cache_t.emptyBucket).set j1
      ⟨s1, bucket_t.encodeImp enc 0 i1 s1 cls⟩).length = 2 ^ 2 := by
    rw [List.length_set]; rfl
  have hu1 := used_set ⟨s1, bucket_t.encodeImp enc 0 i1 s1 cls⟩ h1 _ j1 hj1 he1
  rw [used_replicate] at hu1
  have hq1 : cache_t.grows (cache_t.dynamic ((List.replicate 4 cache_t.emptyBucket).set j1
      ⟨s1, bucket_t.encodeImp enc 0 i1 s1 cls⟩) (0 + 1)) = false := by
    simp [cache_t.grows]
  -- the second insert
  obtain ⟨j2, hj2, he2, hins2⟩ := insert_step mix enc cls s2 i2 _ (0 + 1) 2 hl1 hu1 hq1
    (any_set_other _ j1 s2 s1 _ h12 (any_replicate_empty s2 4 h2))
  have hl2 := hl1
  rw [← List.length_set _ j2 ⟨s2, bucket_t.encodeImp enc 0 i2 s2 cls⟩] at hl2
  have hu2 := used_set ⟨s2, bucket_t.encodeImp enc 0 i2 s2 cls⟩ h2 _ j2 hj2 he2
  rw [hu1] at hu2
  have hq2 : cache_t.grows (cache_t.dynamic (((List.replicate 4 cache_t.emptyBucket).set j1
      ⟨s1, bucket_t.encodeImp enc 0 i1 s1 cls⟩).set j2
      ⟨s2, bucket_t.encodeImp enc 0 i2 s2 cls⟩) (0 + 1 + 1)) = false := by
    simp [cache_t.grows]
  -- the third insert
  obtain ⟨j3, hj3, he3, hins3⟩ := insert_step mix enc cls s3 i3 _ (0 + 1 + 1) 2 hl2 hu2 hq2
    (any_set_other _ j2 s3 s2 _ h23
      (any_set_other _ j1 s3 s1 _ h13 (any_replicate_empty s3 4 h3)))
  have hq3 : cache_t.grows (cache_t.dynamic ((((List.replicate 4 cache_t.emptyBucket).set j1
      ⟨s1, bucket_t.encodeImp enc 0 i1 s1 cls⟩).set j2
      ⟨s2, bucket_t.encodeImp enc 0 i2 s2 cls⟩).set j3
      ⟨s3, bucket_t.encodeImp enc 0 i3 s3 cls⟩) (0 + 1 + 1 + 1)) = true := by
    simp [cache_t.grows]
  have hp3 : cache_t.prepared (cache_t.dynamic ((((List.replicate 4 cache_t.emptyBucket).set j1
      ⟨s1, bucket_t.encodeImp enc 0 i1 s1 cls⟩).set j2
      ⟨s2, bucket_t.encodeImp enc 0 i2 s2 cls⟩).set j3
      ⟨s3, bucket_t.encodeImp enc 0 i3 s3 cls⟩) (0 + 1 + 1 + 1)) =
      cache_t.dynamic (List.replicate 8 cache_t.emptyBucket) 0 := by
    simp only [cache_t.prepared, hq3, if_true, cache_t.reallocate, List.length_set,
      List.length_replicate]
    rfl
  -- the fourth insert, into the grown table
  obtain ⟨j4, hj4, he4, hins4⟩ := insert_step mix enc cls s4 i4
    (List.replicate 8 cache_t.emptyBucket) 0 3 rfl (used_replicate 8) (by decide)
    (any_replicate_empty s4 8 h4)
  have hins4' := insert_of_prepared mix enc cls s4 i4 _
    (cache_t.dynamic (List.replicate 8 cache_t.emptyBucket) 0)
    (hp3.trans (show cache_t.dynamic (List.replicate 8 cache_t.emptyBucket) 0 =
      cache_t.prepared (cache_t.dynamic (List.replicate 8 cache_t.emptyBucket) 0) from rfl))
  rw [hins4] at hins4'
  have hl4 : ((List.replicate 8 cache_t.emptyBucket).set j4
      ⟨s4, bucket_t.encodeImp enc 0 i4 s4 cls⟩).length = 2 ^ 3 := by
    rw [List.length_set]; rfl
  have hu4 := used_set ⟨s4, bucket_t.encodeImp enc 0 i4 s4 cls⟩ h4 _ j4 hj4 he4
  rw [used_replicate] at hu4
  have hroom4 : cache_t.used ((List.replicate 8 cache_t.emptyBucket).set j4
      ⟨s4, bucket_t.encodeImp enc 0 i4 s4 cls⟩) <
      ((List.replicate 8 cache_t.emptyBucket).set j4
        ⟨s4, bucket_t.encodeImp enc 0 i4 s4 cls⟩).length := by
    rw [hu4, hl4]; decide
  have hmiss : ∀ s, s ≠ 0 → s4 ≠ s → cache_t.getImp mix enc cls
      (cache_t.dynamic ((List.replicate 8 cache_t.emptyBucket).set j4
        ⟨s4, bucket_t.encodeImp enc 0 i4 s4 cls⟩) (0 + 1)) s v = some 0 := fun s hs hne =>
    getImp_miss mix enc cls s v _ _ 3 hl4 hroom4
      (any_set_other _ j4 s s4 _ hne (any_replicate_empty s 8 hs))
  refine ⟨_, _, _, _, hins1, hins2, hins3, hins4', ?_, ?_, ?_, hp3, ?_,
    hmiss s1 h1 (Ne.symm h14), hmiss s2 h2 (Ne.symm h24), hmiss s3 h3 (Ne.symm h34), ?_⟩
  · exact ⟨by simp [cache_t.capacity], rfl, hq1⟩
  · exact ⟨by simp [cache_t.capacity], rfl, hq2⟩
  · exact ⟨by simp [cache_t.capacity], rfl, hq3⟩
  · exact ⟨by simp [cache_t.capacity], rfl⟩
  · intro hI
    have hq4 : cache_t.grows (cache_t.dynamic ((List.replicate 8 cache_t.emptyBucket).set j4
        ⟨s4, bucket_t.encodeImp enc 0 i4 s4 cls⟩) (0 + 1)) = false := by
      simp [cache_t.grows]
    have hnew : (cache_t.dynamic ((List.replicate 8 cache_t.emptyBucket).set j4
        ⟨s4, bucket_t.encodeImp enc 0 i4 s4 cls⟩) (0 + 1)).holds s1 = false :=
      any_set_other _ j4 s1 s4 _ (Ne.symm h14) (any_replicate_empty s1 8 h1)
    obtain ⟨j5, _, _, hins5⟩ := insert_step mix enc cls s1 i1 _ (0 + 1) 3 hl4 hu4 hq4 hnew
    refine ⟨_, hins5, ?_⟩
    obtain ⟨b, o, i, hc, hprobe, hdec⟩ :=
      insert_fresh_hit mix enc cls s1 i1 _ _ h1 hnew hI hins5
    rw [hc, getImp_of_probe mix enc cls s1 v b o i hprobe, hdec]

/-- C17 at a concrete input: selectors 1, 2, 3 and 4 under the raw encoding. -/
theorem C17_growth_at_fourth_insert_witness :
    ∃ c4, ((((cache_t.insert sampleMix .NONE 0x1000 1 0x4001
        (cache_t.dynamic (List.replicate 4 cache_t.emptyBucket) 0)).bind
        (cache_t.insert sampleMix .NONE 0x1000 2 0x4002)).bind
        (cache_t.insert sampleMix .NONE 0x1000 3 0x4003)).bind
        (cache_t.insert sampleMix .NONE 0x1000 4 0x4004)) = some c4 ∧
      c4.capacity = 8 ∧ cache_t.getImp sampleMix .NONE 0x1000 c4 1 0 = some 0 :=
  (C17_growth_at_fourth_insert sampleMix .NONE 0x1000 1 2 3 4 0x4001 0x4002 0x4003 0x4004 0
    (by decide) (by decide)).elim fun c1 h1 => h1.elim fun c2 h2 => h2.elim fun c3 h3 =>
      h3.elim fun c4 h => ⟨c4, by
        rw [h.1, Option.some_bind, h.2.1, Option.some_bind, h.2.2.1,
          Option.some_bind, h.2.2.2.1], h.2.2.2.2.2.2.2.2.1.1, h.2.2.2.2.2.2.2.2.2.1⟩


/-! ### C18: the lookup orchestrator -/

/-- An `insert` into a cache of the shape the operations keep succeeds. -/
theorem insert_total (mix : Nat → Nat) (enc : CACHE_IMP_ENCODING) (cls sel imp : Nat)
    (c : cache_t) (hwf : c.WellFormed) :
    ∃ c', cache_t.insert mix enc cls sel imp c = some c' := by
  have key : ∀ b o, cache_t.prepared c = cache_t.dynamic b o → o = cache_t.used b →
      (∃ k, 2 ≤ k ∧ b.length = 2 ^ k) → 4 * (o + 1) ≤ 3 * b.length →
      ∃ c', cache_t.insert mix enc cls sel imp c = some c' := by
    intro b o hp hocc hk hload
    obtain ⟨k, _, hlen⟩ := hk
    have hpos : 0 < b.length := by omega
    obtain ⟨⟨i, m⟩, hpr⟩ := probe_total b sel k _ hlen (by omega)
      (and_mask_lt (mix sel) b.length hpos)
    cases m with
    | true =>
      simp only [cache_t.insert, hp, hpr]
      exact ⟨_, rfl⟩
    | false =>
      simp only [cache_t.insert, hp, hpr]
      exact ⟨_, rfl⟩
  rcases prepared_spec c hwf with ⟨b, o, hp, hocc, hk, hload, _⟩ | ⟨_, hp⟩
  · exact key b o hp hocc hk hload
  · exact key _ 0 hp (used_replicate _).symm ⟨2, Nat.le_refl _, rfl⟩ (by decide)

/-- A `get` on a dynamic cache of the shape the operations keep, for a
selector it does not hold, is a miss. -/
theorem getImp_miss_of_wellFormed (mix : Nat → Nat) (enc : CACHE_IMP_ENCODING)
    (cls sel : Nat) (b : List bucket_t) (o : Nat) (hwf : (cache_t.dynamic b o).WellFormed)
    (hnew : (cache_t.dynamic b o).holds sel = false) :
    cache_t.getImp mix enc cls (cache_t.dynamic b o) sel 0 = some 0 := by
  obtain ⟨hocc, hshape⟩ := hwf
  rcases hshape with hb | ⟨k, hk, hlen, hload⟩
  · subst hb
    rfl
  · have h4 : 2 ^ 2 ≤ 2 ^ k := Nat.pow_le_pow_right (by decide) hk
    have hroom : cache_t.used b < b.length := by
      rw [← hocc, hlen]
      rw [hlen] at hload
      omega
    exact getImp_miss mix enc cls sel 0 b o k hlen hroom hnew

/-- The walk of the superclass chain: it stops at the first class of the chain
that has a method for the selector, or at the root. -/
theorem resolve_chain (classes : Ptr → objc_class) (sel : Nat) :
    ∀ (rest : List Ptr) (cls : Ptr) (fuel : Nat), IsChain classes cls rest →
      rest.length < fuel →
      (∀ c ∈ (cls :: rest).dropLast,
        ((classes c).methods.find? fun m => m.1 == sel) = none) →
      resolve classes sel fuel cls =
        some ((((classes ((cls :: rest).getLast (List.cons_ne_nil _ _))).methods.find?
          fun m => m.1 == sel)).map fun m => m.2) := by
  intro rest
  induction rest with
  | nil =>
    intro cls fuel hchain hfuel _
    obtain ⟨fuel, rfl⟩ : ∃ f, fuel = f + 1 := ⟨fuel - 1, by simp at hfuel; omega⟩
    have hroot : (classes cls).isRootClass = true := hchain
    simp only [resolve, List.getLast_singleton]
    cases hfind : (classes cls).methods.find? fun m => m.1 == sel with
    | some m => rfl
    | none => simp only [hroot, if_true, Option.map_none']
  | cons d rest ih =>
    intro cls fuel hchain hfuel hnone
    obtain ⟨fuel, rfl⟩ : ∃ f, fuel = f + 1 := ⟨fuel - 1, by simp at hfuel; omega⟩
    obtain ⟨hsuper, hd, hchain'⟩ := hchain
    have hfirst : ((classes cls).methods.find? fun m => m.1 == sel) = none :=
      hnone cls (by simp [List.dropLast])
    have hnotroot : (classes cls).isRootClass = false := by
      unfold objc_class.isRootClass
      rw [hsuper]
      simpa using hd
    simp only [resolve, hfirst, hnotroot, Bool.false_eq_true, if_false, hsuper]
    rw [ih d fuel hchain' (by simpa using hfuel)]
    · rw [List.getLast_cons (List.cons_ne_nil _ _)]
    · intro c hc
      apply hnone c
      rw [List.dropLast_cons₂]
      exact List.mem_cons_of_mem _ hc


/-- C18: for a leaf class `L` whose superclass chain runs over the classes
`mid` to the root `R`, where no class of the chain before `R` has a method for
the selector `S` and the first method for `S` in `R` has the implementation
`A`; `L`'s cache is a dynamic table (not a preoptimized one) in the shape the
cache operations keep and does not hold `S`, and `A` is non-nil and stored
faithfully by the encoding of the build.
Then `lookup(L, S)` returns `A` and stores `S -> A` in the cache of `L` alone:
every other class, `R` included, is as it was.  A second `lookup(L, S)` is
answered from `L`'s cache: it returns `A` without any class to walk (it
succeeds with no fuel) and changes nothing.  A `lookup` of a selector `T` that
no class of the chain has a method for, and that `L`'s cache does not hold,
returns not-found and changes nothing. -/
theorem C18_lookup_walks_to_root (mix : Nat → Nat) (enc : CACHE_IMP_ENCODING)
    (classes : Ptr → objc_class) (L R : Ptr) (mid : List Ptr) (S A T fuel : Nat)
    (hchain : IsChain classes L (mid ++ [R])) (hfuel : mid.length + 1 < fuel)
    (hS : S ≠ 0) (hA : A ≠ 0) (henc : enc = .NONE ∨ A ≠ L)
    (hdyn : ∃ b o, (classes L).cache = cache_t.dynamic b o)
    (hcache : (classes L).cache.WellFormed)
    (hcold : (classes L).cache.holds S = false)
    (honly : ∀ c ∈ L :: mid, ((classes c).methods.find? fun m => m.1 == S) = none)
    (hR : ((classes R).methods.find? fun m => m.1 == S) = some (S, A))
    (hT : ∀ c ∈ L :: (mid ++ [R]), ((classes c).methods.find? fun m => m.1 == T) = none)
    (hTcold : (classes L).cache.holds T = false) :
    ∃ cache, cache_t.insert mix enc L S A (classes L).cache = some cache ∧
      lookup mix enc classes fuel L S =
        some (some A, Function.update classes L { classes L with cache := cache }) ∧
      (∀ c, c ≠ L →
        Function.update classes L { classes L with cache := cache } c = classes c) ∧
      Function.update classes L { classes L with cache := cache } R = classes R ∧
      (∀ fuel2, lookup mix enc
          (Function.update classes L { classes L with cache := cache }) fuel2 L S =
        some (some A, Function.update classes L { classes L with cache := cache })) ∧
      lookup mix enc classes fuel L T = some (none, classes) := by
  have hdl : (L :: (mid ++ [R])).dropLast = L :: mid := by
    rw [← List.cons_append, List.dropLast_concat]
  have hgl : ∀ h, (L :: (mid ++ [R])).getLast h = R := by
    intro h
    simp
  have hlen : (mid ++ [R]).length < fuel := by
    rw [List.length_append]
    exact hfuel
  have hRL : R ≠ L := by
    intro h
    have := honly L (List.mem_cons_self _ _)
    rw [← h, hR] at this
    exact Option.noConfusion this
  -- the walk for S ends at R with A
  have hres : resolve classes S fuel L = some (some A) := by
    rw [resolve_chain classes S (mid ++ [R]) L fuel hchain hlen (by rw [hdl]; exact honly),
      hgl, hR]
    rfl
  -- the walk for T ends at R without a match
  have hresT : resolve classes T fuel L = some none := by
    rw [resolve_chain classes T (mid ++ [R]) L fuel hchain hlen
      (by rw [hdl]; exact fun c hc => hT c (by
        rcases List.mem_cons.mp hc with h | h
        · rw [h]; exact List.mem_cons_self _ _
        · exact List.mem_cons_of_mem _ (List.mem_append_left _ h))),
      hgl, hT R (List.mem_cons_of_mem _ (List.mem_append_right _ (List.mem_singleton_self _)))]
    rfl
  obtain ⟨b0, o0, hdyn⟩ := hdyn
  have hmiss : cache_t.getImp mix enc L (classes L).cache S 0 = some 0 := by
    rw [hdyn] at hcache hcold ⊢
    exact getImp_miss_of_wellFormed mix enc L S b0 o0 hcache hcold
  have hmissT : cache_t.getImp mix enc L (classes L).cache T 0 = some 0 := by
    rw [hdyn] at hcache hTcold ⊢
    exact getImp_miss_of_wellFormed mix enc L T b0 o0 hcache hTcold
  obtain ⟨cache, hins⟩ := insert_total mix enc L S A _ hcache
  obtain ⟨b, o, i, hc, hprobe, hdec⟩ :=
    insert_fresh_hit mix enc L S A _ cache hS hcold henc hins
  have hhit : cache_t.getImp mix enc L cache S 0 = some A := by
    rw [hc, getImp_of_probe mix enc L S 0 b o i hprobe, hdec]
  refine ⟨cache, hins, ?_, fun c hcL => Function.update_noteq hcL _ _,
    Function.update_noteq hRL _ _, ?_, ?_⟩
  · simp only [lookup, hmiss, ne_eq, not_true_eq_false, if_false, hres, hins]
  · intro fuel2
    simp only [lookup, Function.update_same, hhit, ne_eq, hA, not_false_eq_true, if_true]
  · simp only [lookup, hmissT, ne_eq, not_true_eq_false, if_false, hresT]

/-- C18 at a concrete input: the leaf class at `0x200` under the root class at
`0x100`, selector 7 found in the root, selector 8 found nowhere. -/
theorem C18_lookup_walks_to_root_witness :
    (lookup sampleMix .NONE sampleClasses 2 0x200 7).map (fun r => r.1) = some (some 0x4000) ∧
      lookup sampleMix .NONE sampleClasses 2 0x200 8 = some (none, sampleClasses) :=
  (C18_lookup_walks_to_root sampleMix .NONE sampleClasses 0x200 0x100 [] 7 0x4000 8 2
    ⟨rfl, by decide, rfl⟩ (by decide) (by decide) (by decide) (by decide) ⟨[], 0, rfl⟩
    ⟨rfl, Or.inl rfl⟩ (by decide) (by decide) (by decide) (by decide) (by decide)).elim
    fun _ h => ⟨by rw [h.2.1]; rfl, h.2.2.2.2.2⟩


/-! ### C10: method_list_t::duplicate -/

theorem relativePointer_get_congr (mem mem2 : Memory) (a : Ptr) (h : mem2 a = mem a) :
    RelativePointer.get mem2 a = RelativePointer.get mem a := by
  unfold RelativePointer.get
  rw [h]

/-- The fields of a method depend only on the memory at the addresses that
`reads` lists. -/
theorem method_fields_congr (rt : method_t.Runtime) (mem mem2 : Memory) (p : Ptr)
    (h : ∀ a ∈ method_t.reads rt mem p, mem2 a = mem a) :
    method_t.name rt mem2 p = method_t.name rt mem p ∧
      method_t.types rt mem2 p = method_t.types rt mem p ∧
      (∀ needsLock, method_t.imp rt mem2 p needsLock = method_t.imp rt mem p needsLock) ∧
      method_t.reads rt mem2 p = method_t.reads rt mem p := by
  unfold method_t.reads at h
  unfold method_t.name method_t.types method_t.imp method_t.reads
  by_cases hs : method_t.isSmall p = true
  · simp only [hs, if_true] at h ⊢
    by_cases hc : rt.inSharedCache (p &&& (0xFFFFFFFFFFFFFFFF ^^^ 1)) = true
    · simp only [hc, if_true] at h ⊢
      have h0 := h _ (List.mem_cons_self _ _)
      have h4 := h _ (List.mem_cons_of_mem _ (List.mem_cons_self _ _))
      have h8 := h _ (List.mem_cons_of_mem _ (List.mem_cons_of_mem _ (List.mem_cons_self _ _)))
      rw [relativePointer_get_congr _ _ _ h0, relativePointer_get_congr _ _ _ h4,
        relativePointer_get_congr _ _ _ h8]
      exact ⟨rfl, rfl, fun _ => rfl, trivial⟩
    · simp only [hc, Bool.false_eq_true, if_false] at h ⊢
      have h0 := h _ (List.mem_cons_self _ _)
      have h4 := h _ (List.mem_cons_of_mem _ (List.mem_cons_self _ _))
      have h8 := h _ (List.mem_cons_of_mem _ (List.mem_cons_of_mem _ (List.mem_cons_self _ _)))
      have hr := h _ (List.mem_cons_of_mem _ (List.mem_cons_of_mem _
        (List.mem_cons_of_mem _ (List.mem_cons_self _ _))))
      rw [relativePointer_get_congr _ _ _ h0, relativePointer_get_congr _ _ _ h4,
        relativePointer_get_congr _ _ _ h8, hr]
      exact ⟨rfl, rfl, fun _ => rfl, rfl⟩
  · simp only [hs, Bool.false_eq_true, if_false] at h ⊢
    have h0 := h _ (List.mem_cons_self _ _)
    have h8 := h _ (List.mem_cons_of_mem _ (List.mem_cons_self _ _))
    have h16 := h _ (List.mem_cons_of_mem _ (List.mem_cons_of_mem _ (List.mem_cons_self _ _)))
    rw [h0, h8, h16]
    exact ⟨rfl, rfl, fun _ => rfl, trivial⟩

theorem isSmall_of_even (p : Nat) (h : p % 2 = 0) : method_t.isSmall p = false := by
  unfold method_t.isSmall
  have hone : p &&& 1 = p % 2 := Nat.and_pow_two_sub_one_eq_mod p 1
  rw [hone, h]
  rfl

/-- `operator=` into a big record at the even address `d`, from a method whose
fields are stored elsewhere: the three fields of the record receive the name,
the types and the implementation of the other method, and nothing else
changes. -/
theorem assign_spec (rt : method_t.Runtime) (mem : Memory) (d other : Nat) (hd : d % 2 = 0)
    (hdis : ∀ a ∈ method_t.reads rt mem other, a ≠ d ∧ a ≠ d + 8 ∧ a ≠ d + 16) :
    ∃ mem', method_t.assign rt d other mem = some mem' ∧
      mem' d = method_t.name rt mem other ∧
      mem' (d + 8) = method_t.types rt mem other ∧
      mem' (d + 16) = method_t.imp rt mem other false ∧
      ∀ a, a ≠ d → a ≠ d + 8 → a ≠ d + 16 → mem' a = mem a := by
  have h1 : ∀ a ∈ method_t.reads rt mem other,
      Function.update mem d (method_t.name rt mem other) a = mem a := by
    intro a ha
    exact Function.update_noteq (hdis a ha).1 _ _
  obtain ⟨_, ht1, _, hr1⟩ := method_fields_congr rt mem _ other h1
  have h2 : ∀ a ∈ method_t.reads rt (Function.update mem d (method_t.name rt mem other)) other,
      Function.update (Function.update mem d (method_t.name rt mem other)) (d + 8)
        (method_t.types rt mem other) a =
      Function.update mem d (method_t.name rt mem other) a := by
    intro a ha
    rw [hr1] at ha
    exact Function.update_noteq (hdis a ha).2.1 _ _
  obtain ⟨_, _, hi2, _⟩ := method_fields_congr rt _ _ other h2
  obtain ⟨_, _, hi1, _⟩ := method_fields_congr rt mem _ other h1
  have hassign : method_t.assign rt d other mem =
      some (Function.update (Function.update (Function.update mem d (method_t.name rt mem other))
        (d + 8) (method_t.types rt mem other)) (d + 16) (method_t.imp rt mem other false)) := by
    unfold method_t.assign
    rw [if_neg (by rw [isSmall_of_even d hd]; exact Bool.false_ne_true)]
    simp only [ht1, hi2, hi1]
  refine ⟨_, hassign, ?_, ?_, ?_, ?_⟩
  · rw [Function.update_noteq (show d ≠ d + 16 by omega),
      Function.update_noteq (show d ≠ d + 8 by omega), Function.update_same]
  · rw [Function.update_noteq (show d + 8 ≠ d + 16 by omega), Function.update_same]
  · rw [Function.update_same]
  · intro a h0 h8 h16
    rw [Function.update_noteq h16, Function.update_noteq h8, Function.update_noteq h0]

theorem deref_nth_big (dup : Nat) (l' : entsize_list_tt) (j : Nat)
    (hE' : l'.entsize method_list_t.FlagMask = 24)
    (hnotag : l'.flags method_list_t.FlagMask &&& method_t.smallMethodListFlag = 0) :
    (entsize_list_tt.nth method_list_t.kind dup l' j).deref = dup + 8 + j * 24 := by
  show method_t.pointer_modifier.modify l' (dup + 8) + j * l'.entsize method_list_t.FlagMask = _
  unfold method_t.pointer_modifier.modify
  rw [if_neg (not_not.mpr hnotag), hE']

theorem copy_spec (rt : method_t.Runtime) (mem0 : Memory) (this : Ptr) (l : entsize_list_tt)
    (dup : Nat) (l' : entsize_list_tt) (w c : Nat)
    (hE : 0 < l.entsize method_list_t.FlagMask)
    (hfitE : l.count * l.entsize method_list_t.FlagMask < 2 ^ 32)
    (hE' : l'.entsize method_list_t.FlagMask = 24)
    (hnotag : l'.flags method_list_t.FlagMask &&& method_t.smallMethodListFlag = 0)
    (hdup : dup % 2 = 0)
    (hfresh : ∀ k, k < l.count → ∀ a : Nat,
      a ∈ method_t.reads rt mem0 (entsize_list_tt.nth method_list_t.kind this l k).deref →
        ¬ (dup ≤ a ∧ a < dup + (8 + l.count * 24))) :
    ∀ (fuel j : Nat) (m : Memory), j ≤ l.count → l.count - j ≤ fuel →
      CopyInv rt mem0 this l dup w c j m →
      ∃ m', method_list_t.copy rt (entsize_list_tt.nth method_list_t.kind this l l.count) fuel
          (entsize_list_tt.nth method_list_t.kind this l j)
          (entsize_list_tt.nth method_list_t.kind dup l' j) m = some m' ∧
        CopyInv rt mem0 this l dup w c l.count m' := by
  have hn32 : l.count < 2 ^ 32 := by
    have : l.count * 1 ≤ l.count * l.entsize method_list_t.FlagMask :=
      Nat.mul_le_mul_left _ hE
    omega
  have hatend : ∀ (fuel : Nat) (m : Memory),
      method_list_t.copy rt (entsize_list_tt.nth method_list_t.kind this l l.count) fuel
        (entsize_list_tt.nth method_list_t.kind this l l.count)
        (entsize_list_tt.nth method_list_t.kind dup l' l.count) m = some m := by
    intro fuel m
    cases fuel with
    | zero => simp [method_list_t.copy, ne_nth method_list_t.kind this l _ _ hE]
    | succ fuel => simp [method_list_t.copy, ne_nth method_list_t.kind this l _ _ hE]
  intro fuel
  induction fuel with
  | zero =>
    intro j m hj hfuel hinv
    have hjn : j = l.count := by omega
    subst hjn
    exact ⟨m, hatend 0 m, hinv⟩
  | succ fuel ih =>
    intro j m hj hfuel hinv
    by_cases hjn : j = l.count
    · subst hjn
      exact ⟨m, hatend _ m, hinv⟩
    · have hlt : j < l.count := by omega
      obtain ⟨hout, hw, hc, hrec⟩ := hinv
      have hagree : ∀ a ∈ method_t.reads rt mem0
          (entsize_list_tt.nth method_list_t.kind this l j).deref, m a = mem0 a :=
        fun a ha => hout a (hfresh j hlt a ha)
      obtain ⟨hname, htypes, himp, hreads⟩ := method_fields_congr rt mem0 m _ hagree
      have hd := deref_nth_big dup l' j hE' hnotag
      have hdis : ∀ a : Nat, a ∈ method_t.reads rt m
          (entsize_list_tt.nth method_list_t.kind this l j).deref →
          a ≠ dup + 8 + j * 24 ∧ a ≠ dup + 8 + j * 24 + 8 ∧ a ≠ dup + 8 + j * 24 + 16 := by
        intro a ha
        rw [hreads] at ha
        have hblock := hfresh j hlt a ha
        omega
      obtain ⟨m1, hassign, h0, h8, h16, hrest⟩ :=
        assign_spec rt m (dup + 8 + j * 24) _ (by omega) hdis
      have hinv1 : CopyInv rt mem0 this l dup w c (j + 1) m1 := by
        refine ⟨?_, ?_, ?_, ?_⟩
        · intro a ha
          rw [hrest a (by omega) (by omega) (by omega)]
          exact hout a ha
        · rw [hrest dup (by omega) (by omega) (by omega)]
          exact hw
        · rw [hrest (dup + 4) (by omega) (by omega) (by omega)]
          exact hc
        · intro k hk
          by_cases hkj : k = j
          · subst hkj
            rw [h0, h8, h16, hname, htypes, himp]
            exact ⟨rfl, rfl, rfl⟩
          · have hklt : k < j := by omega
            rw [hrest _ (by omega) (by omega) (by omega),
              hrest _ (by omega) (by omega) (by omega),
              hrest _ (by omega) (by omega) (by omega)]
            exact hrec k hklt
      obtain ⟨m', hcopy, hfinal⟩ := ih (j + 1) m1 (by omega) (by omega) hinv1
      refine ⟨m', ?_, hfinal⟩
      rw [← hcopy]
      simp only [method_list_t.copy, ne_nth method_list_t.kind this l _ _ hE, hjn, ne_eq,
        not_false_eq_true, decide_True, if_true, hd, hassign,
        incr_nth method_list_t.kind this l j (by omega),
        incr_nth method_list_t.kind dup l' j (by omega)]

theorem headerAt_outside (mem : Memory) (this dup size w : Nat)
    (h0 : ¬ (dup ≤ this ∧ this < dup + size)) (h4 : ¬ (dup ≤ this + 4 ∧ this + 4 < dup + size))
    (hsize : 8 ≤ size) :
    headerAt (Function.update (calloc dup size mem) dup w) this = headerAt mem this ∧
      ∀ c, headerAt (Function.update (Function.update (calloc dup size mem) dup w) (dup + 4) c)
        this = headerAt mem this := by
  have e0 : this ≠ dup := by omega
  have e4 : this + 4 ≠ dup := by omega
  have f0 : this ≠ dup + 4 := by omega
  have f4 : this + 4 ≠ dup + 4 := by omega
  have c0 : calloc dup size mem this = mem this := by
    unfold calloc
    rw [if_neg h0]
  have c4 : calloc dup size mem (this + 4) = mem (this + 4) := by
    unfold calloc
    rw [if_neg h4]
  constructor
  · unfold headerAt
    rw [Function.update_noteq e0, Function.update_noteq e4, c0, c4]
  · intro c
    unfold headerAt
    rw [Function.update_noteq f0, Function.update_noteq f4, Function.update_noteq e0,
      Function.update_noteq e4, c0, c4]

/-- The memory after `calloc` and the two header stores of `duplicate`. -/
theorem copyInv_start (rt : method_t.Runtime) (mem : Memory) (this : Ptr)
    (l : entsize_list_tt) (dup w c : Nat) :
    CopyInv rt mem this l dup w c 0
      (Function.update (Function.update (calloc dup (8 + l.count * 24) mem) dup w) (dup + 4) c) ∧
    headerAt
      (Function.update (Function.update (calloc dup (8 + l.count * 24) mem) dup w) (dup + 4) c)
      dup = ⟨w, c⟩ := by
  refine ⟨⟨?_, ?_, ?_, ?_⟩, ?_⟩
  · intro a ha
    rw [Function.update_noteq (show a ≠ dup + 4 by omega),
      Function.update_noteq (show a ≠ dup by omega)]
    unfold calloc
    rw [if_neg ha]
  · rw [Function.update_noteq (show dup ≠ dup + 4 by omega), Function.update_same]
  · rw [Function.update_same]
  · intro k hk
    omega
  · unfold headerAt
    rw [Function.update_same, Function.update_noteq (show dup ≠ dup + 4 by omega),
      Function.update_same]

/-- The run of `duplicate` on a list of the expected size into a fresh block
at an even address: it returns the block, whose header holds the count of the
source and whose records hold the fields of the source's methods; outside the
block the memory is as before. -/
theorem duplicate_spec (rt : method_t.Runtime) (mem : Memory) (this : Ptr) (dup fuel : Nat)
    (hexp : method_list_t.isExpectedSize (headerAt mem this) = true)
    (hfit : (headerAt mem this).count * 24 < 2 ^ 32) (hdup : dup % 2 = 0)
    (h0 : ¬ (dup ≤ this ∧ this < dup + (8 + (headerAt mem this).count * 24)))
    (h4 : ¬ (dup ≤ this + 4 ∧ this + 4 < dup + (8 + (headerAt mem this).count * 24)))
    (hfresh : ∀ k, k < (headerAt mem this).count → ∀ a : Nat,
      a ∈ method_t.reads rt mem
        (entsize_list_tt.nth method_list_t.kind this (headerAt mem this) k).deref →
        ¬ (dup ≤ a ∧ a < dup + (8 + (headerAt mem this).count * 24)))
    (hfuel : (headerAt mem this).count ≤ fuel) :
    ∃ mem', method_list_t.duplicate rt dup fuel this mem = some (dup, mem') ∧
      CopyInv rt mem this (headerAt mem this) dup
        (if method_list_t.isSmallList (headerAt mem this) then method_t.bigSize
          else (headerAt mem this).entsizeAndFlags)
        (headerAt mem this).count (headerAt mem this).count mem' := by
  obtain ⟨l, hl⟩ : ∃ l, headerAt mem this = l := ⟨_, rfl⟩
  rw [hl] at hexp hfit h0 h4 hfresh hfuel ⊢
  have hmod : ∀ x : Nat, x < 2 ^ 32 → x % 2 ^ 32 = x := fun x hx => Nat.mod_eq_of_lt hx
  -- the destination header word and the size of the block, in both cases
  obtain ⟨w, hw, hE, hsize, hE', hnotag⟩ : ∃ w,
      w = (if method_list_t.isSmallList l then method_t.bigSize else l.entsizeAndFlags) ∧
      (l.entsize method_list_t.FlagMask = 12 ∨ l.entsize method_list_t.FlagMask = 24) ∧
      (if method_list_t.isSmallList l then
          entsize_list_tt.byteSize method_t.bigSize l.count
        else entsize_list_tt.byteSize (l.entsize method_list_t.FlagMask) l.count) =
        8 + l.count * 24 ∧
      entsize_list_tt.entsize method_list_t.FlagMask ⟨w, l.count⟩ = 24 ∧
      entsize_list_tt.flags method_list_t.FlagMask ⟨w, l.count⟩ &&&
        method_t.smallMethodListFlag = 0 := by
    refine ⟨_, rfl, ?_⟩
    unfold method_list_t.isExpectedSize at hexp
    by_cases hs : method_list_t.isSmallList l = true
    · rw [if_pos hs] at hexp
      simp only [hs, if_true]
      refine ⟨Or.inl (by simpa [method_t.smallSize] using hexp), ?_, ?_, ?_⟩
      rotate_left
      · show (24 : Nat) &&& (0xFFFFFFFF ^^^ 0xffff0003) = 24
        decide
      · show ((24 : Nat) &&& 0xffff0003) &&& 0x80000000 = 0
        decide
      unfold entsize_list_tt.byteSize method_t.bigSize
      rw [hmod _ hfit]
    · rw [if_neg hs] at hexp
      have hE24 : l.entsize method_list_t.FlagMask = 24 := by
        simpa [method_t.bigSize] using hexp
      simp only [hs, Bool.false_eq_true, if_false]
      refine ⟨Or.inr hE24, ?_, hE24, ?_⟩
      · unfold entsize_list_tt.byteSize
        rw [hE24, hmod _ hfit]
      · have hns : method_list_t.isSmallList l = false := by simpa using hs
        unfold method_list_t.isSmallList at hns
        simpa using hns
  have hEpos : 0 < l.entsize method_list_t.FlagMask := by omega
  have hfitE : l.count * l.entsize method_list_t.FlagMask < 2 ^ 32 := by
    rcases hE with h | h <;> rw [h] <;> omega
  obtain ⟨hhdr1, hhdr2⟩ := headerAt_outside mem this dup (8 + l.count * 24) w h0 h4 (by omega)
  rw [hl] at hhdr1 hhdr2
  obtain ⟨hinv0, hdst⟩ := copyInv_start rt mem this l dup w l.count
  obtain ⟨mem', hcopy, hinv⟩ := copy_spec rt mem this l dup ⟨w, l.count⟩ w l.count hEpos hfitE
    hE' hnotag hdup hfresh fuel 0 _ (Nat.zero_le _) (by omega) hinv0
  refine ⟨mem', ?_, by rw [← hw]; exact hinv⟩
  -- the memory before the copy loop
  have hc0 : calloc dup (8 + l.count * 24) mem this = mem this := by
    unfold calloc
    rw [if_neg h0]
  have hM1 : (if method_list_t.isSmallList l then
        Function.update (calloc dup (entsize_list_tt.byteSize method_t.bigSize l.count) mem)
          dup method_t.bigSize
      else
        Function.update
          (calloc dup (entsize_list_tt.byteSize (l.entsize method_list_t.FlagMask) l.count) mem)
          dup
          (headerAt
            (calloc dup (entsize_list_tt.byteSize (l.entsize method_list_t.FlagMask) l.count)
              mem) this).entsizeAndFlags) =
      Function.update (calloc dup (8 + l.count * 24) mem) dup w := by
    by_cases hs : method_list_t.isSmallList l = true
    · simp only [hs, if_true] at hsize hw ⊢
      rw [hsize, ← hw]
    · simp only [hs, Bool.false_eq_true, if_false] at hsize hw ⊢
      rw [hsize]
      have hword : (headerAt (calloc dup (8 + l.count * 24) mem) this).entsizeAndFlags =
          l.entsizeAndFlags := by
        show calloc dup (8 + l.count * 24) mem this = _
        rw [hc0, ← hl]
        rfl
      rw [hword, ← hw]
  simp only [method_list_t.duplicate, hl, hM1, hhdr1, hhdr2, hdst, begin_eq_nth,
    end_eq_nth method_list_t.kind this l strideInvariant_method_list_t hfitE, hcopy,
    Option.map_some']

theorem fields_of_big (rt : method_t.Runtime) (mem : Memory) (q : Nat) (hq : q % 2 = 0) :
    method_t.name rt mem q = mem q ∧ method_t.types rt mem q = mem (q + 8) ∧
      method_t.imp rt mem q false = mem (q + 16) := by
  have hs : ¬ (method_t.isSmall q = true) := by
    rw [isSmall_of_even q hq]
    exact Bool.false_ne_true
  unfold method_t.name method_t.types method_t.imp
  rw [if_neg hs, if_neg hs, if_neg hs]
  exact ⟨rfl, rfl, rfl⟩

/-- The methods of the list that `duplicate` returns; the shared core of the
statements about `duplicate` and `duplicateInto`. -/
theorem duplicate_fields (rt : method_t.Runtime) (mem : Memory) (this : Ptr) (dup fuel : Nat)
    (hexp : method_list_t.isExpectedSize (headerAt mem this) = true)
    (hfit : (headerAt mem this).count * 24 < 2 ^ 32) (hdup : dup % 2 = 0)
    (hfresh : ∀ a : Nat, a ∈ method_list_t.footprint rt mem this →
      ¬ (dup ≤ a ∧ a < dup + (8 + (headerAt mem this).count * 24)))
    (hfuel : (headerAt mem this).count ≤ fuel) :
    ∃ mem', method_list_t.duplicate rt dup fuel this mem = some (dup, mem') ∧
      (∀ a : Nat, ¬ (dup ≤ a ∧ a < dup + (8 + (headerAt mem this).count * 24)) →
        mem' a = mem a) ∧
      headerAt mem' dup =
        ⟨if method_list_t.isSmallList (headerAt mem this) then method_t.bigSize
          else (headerAt mem this).entsizeAndFlags, (headerAt mem this).count⟩ ∧
      (headerAt mem' dup).entsize method_list_t.FlagMask = method_t.bigSize ∧
      method_list_t.isSmallList (headerAt mem' dup) = false ∧
      ∀ i, i < (headerAt mem this).count →
        ∃ p q, entsize_list_tt.get method_list_t.kind this (headerAt mem this) i = some p ∧
          entsize_list_tt.get method_list_t.kind dup (headerAt mem' dup) i = some q ∧
          q = dup + 8 + i * 24 ∧
          method_t.name rt mem' q = method_t.name rt mem p ∧
          method_t.types rt mem' q = method_t.types rt mem p ∧
          method_t.imp rt mem' q false = method_t.imp rt mem p false := by
  obtain ⟨l, hl⟩ : ∃ l, headerAt mem this = l := ⟨_, rfl⟩
  have hE : l.entsize method_list_t.FlagMask = 12 ∨ l.entsize method_list_t.FlagMask = 24 := by
    have h := hexp
    rw [hl] at h
    unfold method_list_t.isExpectedSize at h
    by_cases hs : method_list_t.isSmallList l = true
    · rw [if_pos hs] at h
      exact Or.inl (by simpa [method_t.smallSize] using h)
    · rw [if_neg hs] at h
      exact Or.inr (by simpa [method_t.bigSize] using h)
  have hfitE : l.count * l.entsize method_list_t.FlagMask < 2 ^ 32 := by
    rw [hl] at hfit
    rcases hE with h | h <;> rw [h] <;> omega
  have hrefs := refs_eq_map method_list_t.kind this l strideInvariant_method_list_t hfitE
  have hfresh' : ∀ k, k < (headerAt mem this).count → ∀ a : Nat,
      a ∈ method_t.reads rt mem
        (entsize_list_tt.nth method_list_t.kind this (headerAt mem this) k).deref →
        ¬ (dup ≤ a ∧ a < dup + (8 + (headerAt mem this).count * 24)) := by
    intro k hk a ha
    apply hfresh a
    unfold method_list_t.footprint
    refine List.mem_cons_of_mem _ (List.mem_cons_of_mem _ ?_)
    rw [List.mem_flatMap]
    refine ⟨_, ?_, ha⟩
    rw [hl, hrefs, List.mem_map]
    rw [hl] at hk
    exact ⟨k, List.mem_range.mpr hk, rfl⟩
  obtain ⟨mem', hdupl, hout, hw, hc, hrec⟩ := duplicate_spec rt mem this dup fuel hexp hfit hdup
    (hfresh this (List.mem_cons_self _ _))
    (hfresh (this + 4) (List.mem_cons_of_mem _ (List.mem_cons_self _ _))) hfresh' hfuel
  have hhdr : headerAt mem' dup =
      ⟨if method_list_t.isSmallList (headerAt mem this) then method_t.bigSize
        else (headerAt mem this).entsizeAndFlags, (headerAt mem this).count⟩ := by
    unfold headerAt at hw hc ⊢
    rw [hw, hc]
  have hE' : (headerAt mem' dup).entsize method_list_t.FlagMask = method_t.bigSize ∧
      (headerAt mem' dup).flags method_list_t.FlagMask &&& method_t.smallMethodListFlag = 0 := by
    rw [hhdr, hl]
    by_cases hs : method_list_t.isSmallList l = true
    · simp only [hs, if_true]
      constructor
      · show (24 : Nat) &&& (0xFFFFFFFF ^^^ 0xffff0003) = 24
        decide
      · show ((24 : Nat) &&& 0xffff0003) &&& 0x80000000 = 0
        decide
    · simp only [hs, Bool.false_eq_true, if_false]
      have hE24 : l.entsize method_list_t.FlagMask = 24 := by
        have h := hexp
        rw [hl] at h
        unfold method_list_t.isExpectedSize at h
        rw [if_neg hs] at h
        simpa [method_t.bigSize] using h
      have hns : method_list_t.isSmallList l = false := by simpa using hs
      unfold method_list_t.isSmallList at hns
      exact ⟨hE24, by simpa using hns⟩
  have hnsmall : method_list_t.isSmallList (headerAt mem' dup) = false := by
    unfold method_list_t.isSmallList
    rw [hE'.2]
    rfl
  refine ⟨mem', hdupl, hout, hhdr, hE'.1, hnsmall, ?_⟩
  intro i hi
  have hcount : (headerAt mem' dup).count = (headerAt mem this).count := by rw [hhdr]
  have hq := deref_nth_big dup (headerAt mem' dup) i hE'.1 hE'.2
  have hfit' : (headerAt mem' dup).count *
      (headerAt mem' dup).entsize method_list_t.FlagMask < 2 ^ 32 := by
    rw [hcount, hE'.1]
    exact hfit
  have hget := get_eq_nth method_list_t.kind this (headerAt mem this)
    strideInvariant_method_list_t (by rw [hl]; exact hfitE) i hi
  have hget' := get_eq_nth method_list_t.kind dup (headerAt mem' dup)
    strideInvariant_method_list_t hfit' i (by rw [hcount]; exact hi)
  rw [hq] at hget'
  obtain ⟨hn, ht, him⟩ := fields_of_big rt mem' (dup + 8 + i * 24) (by omega)
  obtain ⟨r0, r8, r16⟩ := hrec i hi
  exact ⟨_, _, hget, hget', rfl, by rw [hn, r0], by rw [ht, r8], by rw [him, r16]⟩

/-- C10: for a method list of the expected size stored at `this` (its
`count*24` within `uint32_t`), when `calloc` hands out a block at an even
address that none of the list's fields lies in, `duplicate()` returns a list
with the same count whose `i`-th method has the same `name()`, `types()` and
`imp(false)` as the `i`-th method of the source, for every `i < count`; the
new list is in big format, with stride `method_t::bigSize` and, for a small
source, the header word `method_t::bigSize`. -/
theorem C10_duplicate_keeps_methods (rt : method_t.Runtime) (mem : Memory) (this : Ptr)
    (dup fuel : Nat)
    (hexp : method_list_t.isExpectedSize (headerAt mem this) = true)
    (hfit : (headerAt mem this).count * 24 < 2 ^ 32) (hdup : dup % 2 = 0)
    (hfresh : ∀ a : Nat, a ∈ method_list_t.footprint rt mem this →
      ¬ (dup ≤ a ∧ a < dup + (8 + (headerAt mem this).count * 24)))
    (hfuel : (headerAt mem this).count ≤ fuel) :
    ∃ mem', method_list_t.duplicate rt dup fuel this mem = some (dup, mem') ∧
      (headerAt mem' dup).count = (headerAt mem this).count ∧
      (method_list_t.isSmallList (headerAt mem this) = true →
        (headerAt mem' dup).entsizeAndFlags = method_t.bigSize) ∧
      (headerAt mem' dup).entsize method_list_t.FlagMask = method_t.bigSize ∧
      method_list_t.isSmallList (headerAt mem' dup) = false ∧
      ∀ i, i < (headerAt mem this).count →
        ∃ p q, entsize_list_tt.get method_list_t.kind this (headerAt mem this) i = some p ∧
          entsize_list_tt.get method_list_t.kind dup (headerAt mem' dup) i = some q ∧
          method_t.name rt mem' q = method_t.name rt mem p ∧
          method_t.types rt mem' q = method_t.types rt mem p ∧
          method_t.imp rt mem' q false = method_t.imp rt mem p false := by
  obtain ⟨mem', hdupl, _, hhdr, hE, hns, hall⟩ :=
    duplicate_fields rt mem this dup fuel hexp hfit hdup hfresh hfuel
  refine ⟨mem', hdupl, by rw [hhdr], ?_, hE, hns, ?_⟩
  · intro hs
    rw [hhdr]
    simp only [hs, if_true]
  · intro i hi
    obtain ⟨p, q, hp, hq, _, h1, h2, h3⟩ := hall i hi
    exact ⟨p, q, hp, hq, h1, h2, h3⟩

/-- C10 at a concrete input: the small list of two methods at `0x2000` is
duplicated into the block at `0x8000`. -/
theorem C10_duplicate_keeps_methods_witness :
    ∃ mem', method_list_t.duplicate sampleRuntime 0x8000 2 0x2000 sampleMemory =
        some (0x8000, mem') ∧
      (headerAt mem' 0x8000).count = (headerAt sampleMemory 0x2000).count ∧
      (headerAt mem' 0x8000).entsize method_list_t.FlagMask = method_t.bigSize :=
  (C10_duplicate_keeps_methods sampleRuntime sampleMemory 0x2000 0x8000 2 (by decide)
    (by decide) (by decide) (by decide) (by decide)).elim
    fun mem' h => ⟨mem', h.1, h.2.1, h.2.2.2.1⟩


/-! ### C9: list_array_tt::duplicateInto -/

/-- A memory that agrees with `mem` on the footprint of a list shows the same
list: the same header, the same element references and footprint, and the
same fields of every method. -/
theorem list_congr (rt : method_t.Runtime) (mem m : Memory) (this : Ptr)
    (h : ∀ a : Nat, a ∈ method_list_t.footprint rt mem this → m a = mem a) :
    headerAt m this = headerAt mem this ∧
      method_list_t.footprint rt m this = method_list_t.footprint rt mem this ∧
      ∀ p ∈ entsize_list_tt.refs method_list_t.kind this (headerAt mem this),
        method_t.name rt m p = method_t.name rt mem p ∧
        method_t.types rt m p = method_t.types rt mem p ∧
        method_t.imp rt m p false = method_t.imp rt mem p false := by
  have hhdr : headerAt m this = headerAt mem this := by
    unfold headerAt
    rw [h this (List.mem_cons_self _ _),
      h (this + 4) (List.mem_cons_of_mem _ (List.mem_cons_self _ _))]
  have hp : ∀ p ∈ entsize_list_tt.refs method_list_t.kind this (headerAt mem this),
      ∀ a ∈ method_t.reads rt mem p, m a = mem a := by
    intro p hp a ha
    apply h a
    unfold method_list_t.footprint
    exact List.mem_cons_of_mem _ (List.mem_cons_of_mem _ (List.mem_flatMap.mpr ⟨p, hp, ha⟩))
  refine ⟨hhdr, ?_, ?_⟩
  · unfold method_list_t.footprint
    rw [hhdr]
    congr 2
    apply List.flatMap_congr
    intro p hp'
    exact (method_fields_congr rt mem m p (hp p hp')).2.2.2
  · intro p hp'
    obtain ⟨h1, h2, h3, _⟩ := method_fields_congr rt mem m p (hp p hp')
    exact ⟨h1, h2, h3 false⟩

theorem copiedList_frame (rt : method_t.Runtime) (mem : Memory) (this : Ptr) (dup : Nat)
    (m m' : Memory) (h : method_array_t.CopiedList rt mem this dup m)
    (hsame : ∀ a : Nat, method_array_t.block mem this dup a → m' a = m a) :
    method_array_t.CopiedList rt mem this dup m' := by
  obtain ⟨hhdr, hrec⟩ := h
  constructor
  · rw [← hhdr]
    unfold headerAt
    rw [hsame dup ⟨Nat.le_refl _, by omega⟩, hsame (dup + 4) ⟨by omega, by omega⟩]
  · intro i hi
    obtain ⟨p, hp, h0, h8, h16⟩ := hrec i hi
    refine ⟨p, hp, ?_, ?_, ?_⟩
    · rw [hsame _ ⟨by omega, by omega⟩]
      exact h0
    · rw [hsame _ ⟨by omega, by omega⟩]
      exact h8
    · rw [hsame _ ⟨by omega, by omega⟩]
      exact h16

/-- One call of `duplicate` inside `duplicateInto`. -/
theorem duplicate_step (rt : method_t.Runtime) (mem : Memory) (fresh : Nat → Nat) (fuel : Nat)
    (ps : List Ptr) (hd : method_array_t.Duplicable rt mem fresh fuel ps) (k : Nat)
    (hk : k < ps.length) (m : Memory) (hinv : method_array_t.CopiedUpTo rt mem fresh ps k m) :
    ∃ m', method_array_t.duplicateList rt fresh fuel (ps.getD k 0) (m, k) =
        some (fresh k, (m', k + 1)) ∧
      method_array_t.CopiedUpTo rt mem fresh ps (k + 1) m' := by
  obtain ⟨hexp, hfit, hfuel, _, heven, hfoot, hapart⟩ := hd k hk
  have hagree : ∀ a : Nat, a ∈ method_list_t.footprint rt mem (ps.getD k 0) → m a = mem a :=
    fun a ha => hinv.1 a fun j hj => (hd j (Nat.lt_trans hj hk)).2.2.2.2.2.1 k hk a ha
  obtain ⟨hhdr, hfp, hfields⟩ := list_congr rt mem m (ps.getD k 0) hagree
  obtain ⟨m', hdupl, hout, hhdr', _, _, hall⟩ := duplicate_fields rt m (ps.getD k 0) (fresh k)
    fuel (by rw [hhdr]; exact hexp) (by rw [hhdr]; exact hfit) heven
    (by rw [hhdr, hfp]; exact fun a ha => hfoot k hk a ha) (by rw [hhdr]; exact hfuel)
  rw [hhdr] at hout hhdr' hall
  refine ⟨m', ?_, ?_, ?_⟩
  · unfold method_array_t.duplicateList
    simp only [hdupl, Option.map_some']
  · intro a ha
    rw [hout a (ha k (Nat.lt_succ_self k))]
    exact hinv.1 a fun j hj => ha j (Nat.lt_succ_of_lt hj)
  · intro j hj
    by_cases hjk : j = k
    · subst hjk
      refine ⟨hhdr', ?_⟩
      intro i hi
      obtain ⟨p, q, hp, _, hq, h1, h2, h3⟩ := hall i hi
      have hmem : p ∈ entsize_list_tt.refs method_list_t.kind (ps.getD j 0)
          (headerAt mem (ps.getD j 0)) := by
        unfold entsize_list_tt.refs
        rw [List.mem_filterMap]
        exact ⟨i, List.mem_range.mpr hi, hp⟩
      obtain ⟨g1, g2, g3⟩ := hfields p hmem
      obtain ⟨f1, f2, f3⟩ := fields_of_big rt m' (fresh j + 8 + i * 24) (by omega)
      subst hq
      exact ⟨p, hp, by rw [← f1, h1, g1], by rw [← f2, h2, g2], by rw [← f3, h3, g3]⟩
    · have hlt : j < k := by omega
      apply copiedList_frame rt mem (ps.getD j 0) (fresh j) m m' (hinv.2 j hlt)
      intro a ha
      apply hout a
      have hap := hapart j hlt
      unfold method_array_t.block at ha
      omega

theorem set_after_prefix (fresh : Nat → Nat) (ps : List Ptr) (k : Nat) (hk : k < ps.length) :
    ((List.range k).map fresh ++ ps.drop k).set k (fresh k) =
      (List.range (k + 1)).map fresh ++ ps.drop (k + 1) := by
  apply List.ext_getElem?
  intro n
  rw [List.getElem?_set]
  by_cases hn : k = n
  · subst hn
    have hlen : k < ((List.range k).map fresh ++ ps.drop k).length := by
      simp only [List.length_append, List.length_map, List.length_range, List.length_drop]
      omega
    rw [if_pos rfl, if_pos hlen, List.getElem?_append_left (by simp)]
    simp [List.getElem?_range]
  · rw [if_neg hn]
    by_cases hlt : n < k
    · rw [List.getElem?_append_left (by simpa using hlt),
        List.getElem?_append_left (by simp; omega)]
      simp only [List.getElem?_map, List.getElem?_range hlt,
        List.getElem?_range (show n < k + 1 by omega)]
    · have hgt : k < n := by omega
      rw [List.getElem?_append_right (by simp; omega),
        List.getElem?_append_right (by simp; omega)]
      simp only [List.length_map, List.length_range, List.getElem?_drop]
      congr 1
      omega

/-- The loop of `duplicateInto` over the first `k` slots of the array. -/
theorem duplicate_loop (rt : method_t.Runtime) (mem : Memory) (fresh : Nat → Nat) (fuel : Nat)
    (ps : List Ptr) (c : Nat) (hd : method_array_t.Duplicable rt mem fresh fuel ps) :
    ∀ k, k ≤ ps.length → ∃ m,
      (List.range k).foldlM
        (fun (st : array_t × (Memory × Nat)) i =>
          (method_array_t.duplicateList rt fresh fuel (ps.getD i 0) st.2).map fun r =>
            (({ st.1 with lists := st.1.lists.set i r.1 } : array_t), r.2))
        ((⟨c, ps⟩ : array_t), (mem, 0)) =
          some ((⟨c, (List.range k).map fresh ++ ps.drop k⟩ : array_t), (m, k)) ∧
      method_array_t.CopiedUpTo rt mem fresh ps k m := by
  intro k
  induction k with
  | zero =>
    intro _
    refine ⟨mem, ?_, fun a _ => rfl, fun j hj => absurd hj (Nat.not_lt_zero _)⟩
    simp
  | succ k ih =>
    intro hk
    obtain ⟨m, hfold, hinv⟩ := ih (by omega)
    obtain ⟨m', hstep, hinv'⟩ := duplicate_step rt mem fresh fuel ps hd k (by omega) m hinv
    refine ⟨m', ?_, hinv'⟩
    rw [List.range_succ, List.foldlM_append, hfold]
    simp only [Option.bind_eq_bind, Option.some_bind, List.foldlM_cons, List.foldlM_nil, hstep,
      Option.map_some', Option.pure_def, set_after_prefix fresh ps k (by omega)]
    rw [List.range_succ]

/-- The methods of a copied list, read back: the list at `dup` has the count
of its source and, index by index, the same fields. -/
theorem copiedList_values (rt : method_t.Runtime) (mem : Memory) (this : Ptr) (dup : Nat)
    (m : Memory) (hexp : method_list_t.isExpectedSize (headerAt mem this) = true)
    (hfit : (headerAt mem this).count * 24 < 2 ^ 32) (hdup : dup % 2 = 0)
    (h : method_array_t.CopiedList rt mem this dup m) :
    (headerAt m dup).count = (headerAt mem this).count ∧
      (entsize_list_tt.refs method_list_t.kind dup (headerAt m dup)).map (method_t.fields rt m) =
        (entsize_list_tt.refs method_list_t.kind this (headerAt mem this)).map
          (method_t.fields rt mem) := by
  obtain ⟨hhdr, hrec⟩ := h
  obtain ⟨l, hl⟩ : ∃ l, headerAt mem this = l := ⟨_, rfl⟩
  rw [hl] at hexp hfit hhdr hrec ⊢
  have hE : l.entsize method_list_t.FlagMask = 12 ∨ l.entsize method_list_t.FlagMask = 24 := by
    have hx := hexp
    unfold method_list_t.isExpectedSize at hx
    by_cases hs : method_list_t.isSmallList l = true
    · rw [if_pos hs] at hx
      exact Or.inl (by simpa [method_t.smallSize] using hx)
    · rw [if_neg hs] at hx
      exact Or.inr (by simpa [method_t.bigSize] using hx)
  have hfitE : l.count * l.entsize method_list_t.FlagMask < 2 ^ 32 := by
    rcases hE with h | h <;> rw [h] <;> omega
  have hE' : (headerAt m dup).entsize method_list_t.FlagMask = 24 ∧
      (headerAt m dup).flags method_list_t.FlagMask &&& method_t.smallMethodListFlag = 0 := by
    rw [hhdr]
    by_cases hs : method_list_t.isSmallList l = true
    · simp only [hs, if_true]
      constructor
      · show (24 : Nat) &&& (0xFFFFFFFF ^^^ 0xffff0003) = 24
        decide
      · show ((24 : Nat) &&& 0xffff0003) &&& 0x80000000 = 0
        decide
    · simp only [hs, Bool.false_eq_true, if_false]
      have hE24 : l.entsize method_list_t.FlagMask = 24 := by
        have hx := hexp
        unfold method_list_t.isExpectedSize at hx
        rw [if_neg hs] at hx
        simpa [method_t.bigSize] using hx
      have hns : method_list_t.isSmallList l = false := by simpa using hs
      unfold method_list_t.isSmallList at hns
      exact ⟨hE24, by simpa using hns⟩
  have hcount : (headerAt m dup).count = l.count := by rw [hhdr]
  refine ⟨hcount, ?_⟩
  rw [refs_eq_map method_list_t.kind dup (headerAt m dup) strideInvariant_method_list_t
      (by
        rw [hcount]
        show l.count * (headerAt m dup).entsize method_list_t.FlagMask < 2 ^ 32
        rw [hE'.1]
        exact hfit),
    refs_eq_map method_list_t.kind this l strideInvariant_method_list_t hfitE, hcount,
    List.map_map, List.map_map]
  apply List.map_congr_left
  intro i hi
  have hi' : i < l.count := List.mem_range.mp hi
  obtain ⟨p, hp, h0, h8, h16⟩ := hrec i hi'
  have hget := get_eq_nth method_list_t.kind this l strideInvariant_method_list_t hfitE i hi'
  rw [hp] at hget
  have hpe : p = (entsize_list_tt.nth method_list_t.kind this l i).deref :=
    Option.some.inj hget
  obtain ⟨f1, f2, f3⟩ := fields_of_big rt m (dup + 8 + i * 24) (by omega)
  simp only [Function.comp, method_t.fields, deref_nth_big dup (headerAt m dup) i hE'.1 hE'.2,
    f1, f2, f3, h0, h8, h16, hpe]

theorem getD_range_map (ps : List Ptr) :
    ps = (List.range ps.length).map fun j => ps.getD j 0 := by
  apply List.ext_getElem?
  intro n
  by_cases hn : n < ps.length
  · rw [List.getElem?_map, List.getElem?_range hn, List.getElem?_eq_getElem hn]
    simp [List.getD_eq_getElem?_getD, List.getElem?_eq_getElem hn]
  · rw [List.getElem?_eq_none (by omega), List.getElem?_eq_none (by simp; omega)]

/-- The memory after all lists of `ps` were duplicated: every copy has the
count and, in order, the method fields of its source, and the sources are as
they were. -/
theorem copied_all (rt : method_t.Runtime) (mem : Memory) (fresh : Nat → Nat) (fuel : Nat)
    (ps : List Ptr) (m : Memory) (hd : method_array_t.Duplicable rt mem fresh fuel ps)
    (hinv : method_array_t.CopiedUpTo rt mem fresh ps ps.length m) :
    (∀ i, i < ps.length →
      (headerAt m (fresh i)).count = (headerAt mem (ps.getD i 0)).count ∧
      (entsize_list_tt.refs method_list_t.kind (fresh i) (headerAt m (fresh i))).map
          (method_t.fields rt m) =
        (entsize_list_tt.refs method_list_t.kind (ps.getD i 0)
          (headerAt mem (ps.getD i 0))).map (method_t.fields rt mem)) ∧
    ((((List.range ps.length).map fresh).flatMap fun d =>
        entsize_list_tt.refs method_list_t.kind d (headerAt m d)).map (method_t.fields rt m) =
      (ps.flatMap fun p =>
        entsize_list_tt.refs method_list_t.kind p (headerAt mem p)).map
          (method_t.fields rt mem)) ∧
    ((ps.flatMap fun p =>
        entsize_list_tt.refs method_list_t.kind p (headerAt m p)).map (method_t.fields rt m) =
      (ps.flatMap fun p =>
        entsize_list_tt.refs method_list_t.kind p (headerAt mem p)).map
          (method_t.fields rt mem)) ∧
    (∀ p ∈ ps, ∀ a : Nat, a ∈ method_list_t.footprint rt mem p → m a = mem a) := by
  have hper : ∀ i, i < ps.length →
      (headerAt m (fresh i)).count = (headerAt mem (ps.getD i 0)).count ∧
      (entsize_list_tt.refs method_list_t.kind (fresh i) (headerAt m (fresh i))).map
          (method_t.fields rt m) =
        (entsize_list_tt.refs method_list_t.kind (ps.getD i 0)
          (headerAt mem (ps.getD i 0))).map (method_t.fields rt mem) := by
    intro i hi
    obtain ⟨hexp, hfit, _, _, heven, _, _⟩ := hd i hi
    exact copiedList_values rt mem (ps.getD i 0) (fresh i) m hexp hfit heven (hinv.2 i hi)
  have hsrc : ∀ p ∈ ps, ∀ a : Nat, a ∈ method_list_t.footprint rt mem p → m a = mem a := by
    intro p hp a ha
    obtain ⟨j, hj, hpj⟩ := List.mem_iff_getElem.mp hp
    have hgetD : ps.getD j 0 = p := by
      rw [List.getD_eq_getElem?_getD, List.getElem?_eq_getElem hj, hpj]
      rfl
    apply hinv.1 a
    intro i hi
    have := (hd i hi).2.2.2.2.2.1 j hj a (by rw [hgetD]; exact ha)
    exact this
  have hsrcv : ∀ p ∈ ps,
      (entsize_list_tt.refs method_list_t.kind p (headerAt m p)).map (method_t.fields rt m) =
        (entsize_list_tt.refs method_list_t.kind p (headerAt mem p)).map
          (method_t.fields rt mem) := by
    intro p hp
    obtain ⟨hhdr, _, hfields⟩ := list_congr rt mem m p (hsrc p hp)
    rw [hhdr]
    apply List.map_congr_left
    intro x hx
    obtain ⟨h1, h2, h3⟩ := hfields x hx
    simp only [method_t.fields, h1, h2, h3]
  refine ⟨hper, ?_, ?_, hsrc⟩
  · rw [List.flatMap_map, List.map_flatMap, List.map_flatMap]
    conv_rhs => rw [getD_range_map ps, List.flatMap_map]
    apply List.flatMap_congr
    intro i hi
    simp only [List.length_map, List.length_range] at hi ⊢
    exact (hper i (List.mem_range.mp hi)).2
  · rw [List.map_flatMap, List.map_flatMap]
    exact List.flatMap_congr hsrcv

/-- The run of `duplicateInto` on an aggregator of method lists. -/
theorem duplicateInto_core (rt : method_t.Runtime) (mem : Memory) (fresh : Nat → Nat)
    (fuel : Nat) (self : list_array_tt) (hwf : self.WellFormed)
    (hd : method_array_t.Duplicable rt mem fresh fuel self.listPtrs) :
    ∃ other m', self.duplicateInto (method_array_t.duplicateList rt fresh fuel) (mem, 0) =
        some (other, (m', self.listPtrs.length)) ∧
      other.hasArray = self.hasArray ∧ (other = list 0 ↔ self = list 0) ∧ other.WellFormed ∧
      other.listPtrs = (List.range self.listPtrs.length).map fresh ∧
      method_array_t.CopiedUpTo rt mem fresh self.listPtrs self.listPtrs.length m' := by
  cases self with
  | array a =>
    have hlen : a.count = a.lists.length := hwf
    have hptrs : (array a).listPtrs = a.lists := by
      show (a.lists.drop 0).take (a.count - 0) = a.lists
      rw [List.drop_zero, Nat.sub_zero, hlen, List.take_length]
    rw [hptrs] at hd ⊢
    obtain ⟨m', hfold, hinv⟩ := duplicate_loop rt mem fresh fuel a.lists a.count hd
      a.lists.length (Nat.le_refl _)
    rw [List.drop_length, List.append_nil] at hfold
    refine ⟨array ⟨a.count, (List.range a.lists.length).map fresh⟩, m', ?_, rfl,
      ⟨fun h => list_array_tt.noConfusion h, fun h => list_array_tt.noConfusion h⟩, ?_, ?_, hinv⟩
    · have hmd : a.memdup = some ⟨a.count, a.lists⟩ := by
        unfold array_t.memdup
        rw [if_neg (by omega), hlen, List.take_length]
      simp only [list_array_tt.duplicateInto, hmd]
      rw [hlen] at hfold ⊢
      simp only [hfold, Option.map_some']
    · show a.count = ((List.range a.lists.length).map fresh).length
      rw [List.length_map, List.length_range, hlen]
    · show (((List.range a.lists.length).map fresh).drop 0).take (a.count - 0) = _
      rw [List.drop_zero, Nat.sub_zero, hlen]
      apply List.take_of_length_le
      simp
  | list l =>
    by_cases hl : l = 0
    · subst hl
      refine ⟨list 0, mem, rfl, rfl, Iff.rfl, trivial, rfl, fun a _ => rfl,
        fun j hj => absurd hj (Nat.not_lt_zero _)⟩
    · have hptrs : (list l).listPtrs = [l] := by
        simp [list_array_tt.listPtrs, list_array_tt.slots, list_array_tt.beginLists,
          list_array_tt.endLists, hl]
      rw [hptrs] at hd ⊢
      obtain ⟨m', hstep, hinv⟩ := duplicate_step rt mem fresh fuel [l] hd 0 (by simp) mem
        ⟨fun a _ => rfl, fun j hj => absurd hj (Nat.not_lt_zero _)⟩
      have hnz : fresh 0 ≠ 0 := (hd 0 (by simp)).2.2.2.1
      have hstep' : method_array_t.duplicateList rt fresh fuel l (mem, 0) =
          some (fresh 0, (m', 1)) := hstep
      refine ⟨list (fresh 0), m', ?_, rfl, ?_, trivial, ?_, hinv⟩
      · simp only [list_array_tt.duplicateInto, ne_eq, hl, not_false_eq_true, if_true, hstep',
          Option.map_some']
        rfl
      · constructor
        · intro h
          exact absurd (list_array_tt.list.inj h) hnz
        · intro h
          exact absurd (list_array_tt.list.inj h) hl
      · have h1 : (list (fresh 0)).listPtrs = [fresh 0] := by
          simp [list_array_tt.listPtrs, list_array_tt.slots, list_array_tt.beginLists,
            list_array_tt.endLists, hnz]
        rw [h1]
        rfl

/-- C9: for a `method_array_t` whose lists have the expected size, when
`calloc` hands out fresh blocks at even non-null addresses, `duplicateInto`
produces an aggregator of the same form as the source (empty, single list, or
array with the same count), whose `i`-th list is the block of the `i`-th
`duplicate()` call and holds the count and, index by index, the method fields
of the source's `i`-th list; the element references of the copy, in iteration
order, carry the same name, types and implementation as those of the source;
the source's lists read as before the call. -/
theorem C9_duplicateInto (rt : method_t.Runtime) (mem : Memory) (fresh : Nat → Nat)
    (fuel : Nat) (self : list_array_tt) (hwf : self.WellFormed)
    (hd : method_array_t.Duplicable rt mem fresh fuel self.listPtrs) :
    ∃ other mem', self.duplicateInto (method_array_t.duplicateList rt fresh fuel) (mem, 0) =
        some (other, (mem', self.countLists)) ∧
      (other.hasArray = self.hasArray ∧ other.countLists = self.countLists ∧
        (other = list 0 ↔ self = list 0) ∧ other.WellFormed) ∧
      other.listPtrs = (List.range self.countLists).map fresh ∧
      (∀ i, i < self.countLists →
        (headerAt mem' (fresh i)).count = (headerAt mem (self.listPtrs.getD i 0)).count ∧
        (entsize_list_tt.refs method_list_t.kind (fresh i) (headerAt mem' (fresh i))).map
            (method_t.fields rt mem') =
          (entsize_list_tt.refs method_list_t.kind (self.listPtrs.getD i 0)
            (headerAt mem (self.listPtrs.getD i 0))).map (method_t.fields rt mem)) ∧
      (other.refs method_list_t.kind (headerAt mem')).map (method_t.fields rt mem') =
        (self.refs method_list_t.kind (headerAt mem)).map (method_t.fields rt mem) ∧
      (self.refs method_list_t.kind (headerAt mem')).map (method_t.fields rt mem') =
        (self.refs method_list_t.kind (headerAt mem)).map (method_t.fields rt mem) ∧
      (∀ p ∈ self.listPtrs, ∀ a : Nat, a ∈ method_list_t.footprint rt mem p →
        mem' a = mem a) := by
  obtain ⟨other, m', hrun, hform, hempty, hwf', hptrs, hinv⟩ :=
    duplicateInto_core rt mem fresh fuel self hwf hd
  obtain ⟨hper, hcopy, hsource, hframe⟩ :=
    copied_all rt mem fresh fuel self.listPtrs m' hd hinv
  have hn := countLists_eq_length self hwf
  have hn' : other.countLists = self.countLists := by
    rw [countLists_eq_length other hwf', hptrs, List.length_map, List.length_range, hn]
  rw [← hn] at hrun hptrs hper
  refine ⟨other, m', hrun, ⟨hform, hn', hempty, hwf'⟩, hptrs, hper, ?_, hsource, hframe⟩
  show (other.listPtrs.flatMap fun p =>
      entsize_list_tt.refs method_list_t.kind p (headerAt m' p)).map (method_t.fields rt m') = _
  rw [hptrs, hn]
  exact hcopy

/-- C9 at a concrete input: the array of two lists, both slots holding the
small method list at `0x2000`, duplicated into the blocks at `0x8000` and
`0x9000`. -/
theorem C9_duplicateInto_witness :
    ∃ other mem', (array ⟨2, [0x2000, 0x2000]⟩).duplicateInto
        (method_array_t.duplicateList sampleRuntime (fun i => 0x8000 + 0x1000 * i) 2)
        (sampleMemory, 0) = some (other, (mem', 2)) ∧
      other.listPtrs = [0x8000, 0x9000] ∧
      (other.refs method_list_t.kind (headerAt mem')).map (method_t.fields sampleRuntime mem') =
        ((array ⟨2, [0x2000, 0x2000]⟩).refs method_list_t.kind (headerAt sampleMemory)).map
          (method_t.fields sampleRuntime sampleMemory) :=
  (C9_duplicateInto sampleRuntime sampleMemory (fun i => 0x8000 + 0x1000 * i) 2
    (array ⟨2, [0x2000, 0x2000]⟩) rfl (by decide)).elim fun other h => h.elim fun mem' h =>
      ⟨other, mem', h.1, h.2.2.1, h.2.2.2.2.1⟩

/-! ### C31: indexOfMethod inverts get -/

theorem indexOfMethod_of_offset (this : Nat) (l : entsize_list_tt) (i e d meth : Nat)
    (he : l.entsize method_list_t.FlagMask = e) (hd : 8 + d < e) (hi : i < l.count)
    (hcount : l.count < 2 ^ 32) (hmeth : meth = this + 8 + i * e + d)
    (haddr : meth < 2 ^ 64) :
    method_list_t.indexOfMethod this l meth = some i := by
  have hthis : this % 2 ^ 64 = this := Nat.mod_eq_of_lt (by omega)
  have hm : meth % 2 ^ 64 = meth := Nat.mod_eq_of_lt haddr
  have hdiff : (meth + 2 ^ 64 - this) % 2 ^ 64 = i * e + (8 + d) := by
    have h1 : meth + 2 ^ 64 - this = i * e + (8 + d) + 2 ^ 64 := by omega
    rw [h1, Nat.add_mod_right]
    exact Nat.mod_eq_of_lt (by omega)
  have hdiv : (i * e + (8 + d)) / e = i := by
    rw [Nat.mul_comm, Nat.mul_add_div (by omega), Nat.div_eq_of_lt hd]
    rfl
  have hi32 : i % 2 ^ 32 = i := Nat.mod_eq_of_lt (by omega)
  unfold method_list_t.indexOfMethod
  rw [he, if_neg (by omega)]
  simp only [hthis, hm, hdiff, hdiv, hi32, if_pos hi]

/-- C31: for a `method_list_t` of the expected size stored at `this`, whose
records lie within the range of the `uint32_t` offset and within the address
space, and every `i < count`: `get(i)` returns an element pointer and
`indexOfMethod` of that pointer is `i`, for a big list (stride 24, untagged
pointer) and for a small list (stride 12, low bit of the pointer set). -/
theorem C31_indexOfMethod_get (this : Nat) (l : entsize_list_tt) (i : Nat)
    (hsz : method_list_t.isExpectedSize l = true)
    (hfit : l.count * l.entsize method_list_t.FlagMask < 2 ^ 32)
    (haddr : this + 8 + l.count * l.entsize method_list_t.FlagMask ≤ 2 ^ 64)
    (hi : i < l.count) :
    ∃ meth, entsize_list_tt.get method_list_t.kind this l i = some meth ∧
      method_list_t.indexOfMethod this l meth = some i ∧
      (method_list_t.isSmallList l = true → meth &&& 1 = 1) ∧
      (method_list_t.isSmallList l = false → meth = this + 8 + i * 24) := by
  have hget : entsize_list_tt.get method_list_t.kind this l i =
      some (method_t.pointer_modifier.modify l
        (this + 8 + (i * l.entsize method_list_t.FlagMask) % 2 ^ 32)) := by
    unfold entsize_list_tt.get entsize_list_tt.getOrEnd
    rw [if_pos hi, if_pos (Nat.le_of_lt hi)]
    rfl
  refine ⟨_, hget, ?_⟩
  unfold method_list_t.isExpectedSize at hsz
  unfold method_t.pointer_modifier.modify
  by_cases hs : method_list_t.isSmallList l = true
  · rw [hs, if_pos rfl] at hsz
    have he : l.entsize method_list_t.FlagMask = 12 := by
      simpa [method_t.smallSize] using hsz
    have hflag : l.flags method_list_t.FlagMask &&& method_t.smallMethodListFlag ≠ 0 := by
      simpa [method_list_t.isSmallList] using hs
    rw [he] at hfit haddr
    have hcount : l.count < 2 ^ 32 := by omega
    have hmod : (i * 12) % 2 ^ 32 = i * 12 := Nat.mod_eq_of_lt (by omega)
    rw [if_pos hflag, he, hmod]
    have hone : ∀ x : Nat, x &&& 1 = x % 2 := fun x => Nat.and_pow_two_sub_one_eq_mod x 1
    have hor := lor_one (this + 8 + i * 12)
    refine ⟨?_, fun _ => ?_, fun h => ?_⟩
    · rcases Nat.mod_two_eq_zero_or_one (this + 8 + i * 12) with hpar | hpar
      · exact indexOfMethod_of_offset this l i 12 1 _ he (by omega) hi hcount (by omega)
          (by omega)
      · exact indexOfMethod_of_offset this l i 12 0 _ he (by omega) hi hcount (by omega)
          (by omega)
    · rw [hone, hor, Nat.mul_add_mod]
    · rw [hs] at h; exact absurd h (by decide)
  · have hs0 : method_list_t.isSmallList l = false := by
      cases h : method_list_t.isSmallList l
      · rfl
      · exact absurd h hs
    rw [hs0, if_neg (by decide)] at hsz
    have he : l.entsize method_list_t.FlagMask = 24 := by
      simpa [method_t.bigSize] using hsz
    have hflag : ¬ (l.flags method_list_t.FlagMask &&& method_t.smallMethodListFlag ≠ 0) := by
      simpa [method_list_t.isSmallList] using hs0
    rw [he] at hfit haddr
    have hcount : l.count < 2 ^ 32 := by omega
    have hmod : (i * 24) % 2 ^ 32 = i * 24 := Nat.mod_eq_of_lt (by omega)
    rw [if_neg hflag, he, hmod]
    refine ⟨?_, fun h => ?_, fun _ => rfl⟩
    · exact indexOfMethod_of_offset this l i 24 0 _ he (by omega) hi hcount (by omega)
        (by omega)
    · rw [hs0] at h; exact absurd h (by decide)

/-- C31 at a concrete input: record 1 of the small method list at `0x2000`,
whose element pointer is the tagged `0x2015`. -/
theorem C31_indexOfMethod_get_witness :
    ∃ meth, entsize_list_tt.get method_list_t.kind 0x2000 ⟨0x8000000C, 2⟩ 1 = some meth ∧
      method_list_t.indexOfMethod 0x2000 ⟨0x8000000C, 2⟩ meth = some 1 ∧
      meth &&& 1 = 1 :=
  (C31_indexOfMethod_get 0x2000 ⟨0x8000000C, 2⟩ 1 (by decide) (by decide) (by decide)
    (by decide)).elim fun meth h => ⟨meth, h.1, h.2.1, h.2.2.1 (by decide)⟩

/-! ### C32: RelativePointer::get -/

theorem relativePointer_get_core (o a g : Nat) (h32 : o < 2 ^ 32) (ha : a < 2 ^ 64)
    (hg : g = if o = 0 then 0
      else (a + (if o < 2 ^ 31 then o else o + (2 ^ 64 - 2 ^ 32))) % 2 ^ 64) :
    (o = 0 → g = 0) ∧
      (o ≠ 0 → ∃ s : Int,
        s = (if o < 2 ^ 31 then (o : Int) else (o : Int) - 2 ^ 32) ∧
        -2 ^ 31 ≤ s ∧ s < 2 ^ 31 ∧ s ≠ 0 ∧ (g : Int) = ((a : Int) + s) % 2 ^ 64) ∧
      (2 ^ 31 < a → a + 2 ^ 31 ≤ 2 ^ 64 →
        (g = 0 ↔ o = 0) ∧
        (o ≠ 0 →
          (g : Int) = (a : Int) + (if o < 2 ^ 31 then (o : Int) else (o : Int) - 2 ^ 32) ∧
          (a : Int) - 2 ^ 31 ≤ (g : Int) ∧ (g : Int) < (a : Int) + 2 ^ 31 ∧ g ≠ a)) := by
  refine ⟨fun h => by rw [hg, if_pos h], fun h => ?_, fun hlo hhi => ⟨?_, fun h => ?_⟩⟩
  · rw [if_neg h] at hg
    refine ⟨_, rfl, ?_⟩
    split at hg <;> split <;> omega
  · constructor
    · intro h
      by_contra h0
      rw [if_neg h0] at hg
      split at hg <;> omega
    · intro h; rw [hg, if_pos h]
  · rw [if_neg h] at hg
    split at hg <;> split <;> omega

/-- C32, the claim as stated fails.  The relative pointer stored at address
`4` with offset `-4` (bit pattern `0xFFFFFFFC`) has a non-zero offset, and
`get()` computes `4 + 0xFFFFFFFFFFFFFFFC = 0` modulo `2^64`: it returns null.
The relative pointer stored at `2^64 - 4` with offset `8` yields `4`, which is
not within `2^31` bytes of the field as a number. -/
theorem C32_null_without_zero_offset_counterexample :
    (fun x : Nat => if x = 4 then 0xFFFFFFFC else 0) 4 ≠ 0 ∧
      RelativePointer.get (fun x => if x = 4 then 0xFFFFFFFC else 0) 4 = 0 ∧
      RelativePointer.get (fun x => if x = 2 ^ 64 - 4 then 8 else 0) (2 ^ 64 - 4) = 4 := by
  decide

/-- C32, amended: for a relative pointer stored at `a` whose field holds the
32-bit pattern of `offset`, `get()` returns null when `offset == 0`, and
otherwise the address `a` plus the offset sign-extended from 32 bits, modulo
`2^64`, the sign-extended offset `s` being non-zero within `[-2^31, 2^31)`.
When the field lies at an address above `2^31` and at most
`2^64 - 2^31`, the sum does not wrap: `get()` returns null exactly when
`offset == 0`, and every non-null result lies within `[-2^31, 2^31)` bytes of
`a`, at an address other than `a`. -/
theorem C32_relative_pointer_get (mem : Memory) (a : Nat) (h32 : mem a < 2 ^ 32)
    (ha : a < 2 ^ 64) :
    (mem a = 0 → RelativePointer.get mem a = 0) ∧
      (mem a ≠ 0 → ∃ s : Int,
        s = (if mem a < 2 ^ 31 then (mem a : Int) else (mem a : Int) - 2 ^ 32) ∧
        -2 ^ 31 ≤ s ∧ s < 2 ^ 31 ∧ s ≠ 0 ∧
        (RelativePointer.get mem a : Int) = ((a : Int) + s) % 2 ^ 64) ∧
      (2 ^ 31 < a → a + 2 ^ 31 ≤ 2 ^ 64 →
        (RelativePointer.get mem a = 0 ↔ mem a = 0) ∧
        (mem a ≠ 0 →
          (RelativePointer.get mem a : Int) =
            (a : Int) + (if mem a < 2 ^ 31 then (mem a : Int) else (mem a : Int) - 2 ^ 32) ∧
          (a : Int) - 2 ^ 31 ≤ (RelativePointer.get mem a : Int) ∧
          (RelativePointer.get mem a : Int) < (a : Int) + 2 ^ 31 ∧
          RelativePointer.get mem a ≠ a)) := by
  exact relativePointer_get_core (mem a) a (RelativePointer.get mem a) h32 ha rfl

/-- C32, amended, at a concrete input: the field at `0x100002014` holds the
offset `-0x1000` (bit pattern `0xFFFFF000`) and refers to `0x100001014`. -/
theorem C32_relative_pointer_get_witness :
    (RelativePointer.get (fun x => if x = 0x100002014 then 0xFFFFF000 else 0) 0x100002014 = 0 ↔
        (fun x : Nat => if x = 0x100002014 then 0xFFFFF000 else 0) 0x100002014 = 0) ∧
      (RelativePointer.get (fun x => if x = 0x100002014 then 0xFFFFF000 else 0)
        0x100002014 : Int) = 0x100002014 - 0x1000 :=
  ⟨((C32_relative_pointer_get (fun x => if x = 0x100002014 then 0xFFFFF000 else 0) 0x100002014
      (by decide) (by decide)).2.2 (by decide) (by decide)).1,
    (((C32_relative_pointer_get (fun x => if x = 0x100002014 then 0xFFFFF000 else 0) 0x100002014
      (by decide) (by decide)).2.2 (by decide) (by decide)).2 (by decide)).1⟩

/-! ### C33: the order attachLists leaves the lists in -/

/-- C33: for a well-formed aggregator and `addedCount >= 1` non-null added
lists, the new number of lists fitting `int`, `attachLists` leaves the list
references in the order `addedLists[0]`, ..., `addedLists[addedCount-1]`
followed by the lists held before in their previous order: for an array these
are its slots, for the empty aggregator none, for a single list that list.
Hence, for a stride-invariant instantiation and non-empty lists with a
positive stride, iterating from `begin()` to `end()` visits the elements of
the added lists first, in `addedLists` order, and then the elements held
before, the base list last. -/
theorem C33_attach_puts_added_lists_first (K : ListKind) (hdr : Ptr → entsize_list_tt)
    (junk addedLists : Nat → Ptr) (addedCount : Nat) (self : list_array_tt)
    (hwf : self.WellFormed) (hk : 1 ≤ addedCount)
    (hnn : ∀ i, i < addedCount → addedLists i ≠ 0)
    (hfit : self.countLists + addedCount < 2 ^ 31) :
    (self.attachLists junk addedLists addedCount).listPtrs =
        (List.range addedCount).map addedLists ++ self.listPtrs ∧
      (∀ a, self = array a →
        (self.attachLists junk addedLists addedCount).listPtrs =
          (List.range addedCount).map addedLists ++ a.lists) ∧
      (self = list 0 →
        (self.attachLists junk addedLists addedCount).listPtrs =
          (List.range addedCount).map addedLists) ∧
      (∀ p, p ≠ 0 → self = list p →
        (self.attachLists junk addedLists addedCount).listPtrs =
          (List.range addedCount).map addedLists ++ [p]) ∧
      (K.StrideInvariant →
        (∀ p ∈ (List.range addedCount).map addedLists ++ self.listPtrs, (hdr p).Iterable K) →
        ∀ fuel, (((List.range addedCount).map addedLists).flatMap
            (fun p => entsize_list_tt.refs K p (hdr p)) ++ self.refs K hdr).length ≤ fuel →
          (self.attachLists junk addedLists addedCount).elements K hdr fuel =
            some (((List.range addedCount).map addedLists).flatMap
              (fun p => entsize_list_tt.refs K p (hdr p)) ++ self.refs K hdr)) := by
  have hptrs := listPtrs_attachLists junk addedLists addedCount self hwf hfit
    (fun _ _ => hnn 0 hk)
  have hwf1 := wellFormed_attachLists junk addedLists addedCount self hwf
  refine ⟨hptrs, ?_, ?_, ?_, ?_⟩
  · intro a ha
    subst ha
    rw [hptrs]
    have hl : (array a).listPtrs = a.lists := by
      simp only [WellFormed] at hwf
      simp [listPtrs, slots, beginLists, endLists, hwf]
    rw [hl]
  · intro h0
    subst h0
    rw [hptrs]
    have hl : (list 0).listPtrs = [] := by decide
    rw [hl, List.append_nil]
  · intro p hp hs
    subst hs
    rw [hptrs]
    have hl : (list p).listPtrs = [p] := by
      simp [listPtrs, slots, beginLists, endLists, hp]
    rw [hl]
  · intro hK hit fuel hfuel
    have hrefs : (self.attachLists junk addedLists addedCount).refs K hdr =
        ((List.range addedCount).map addedLists).flatMap
          (fun p => entsize_list_tt.refs K p (hdr p)) ++ self.refs K hdr := by
      rw [list_array_tt.refs, list_array_tt.refs, hptrs, List.flatMap_append]
    rw [← hrefs] at hfuel ⊢
    apply elements_eq_refs K hK hdr _ hwf1 _ fuel hfuel
    intro p hp
    rw [hptrs] at hp
    exact hit p hp

/-- C33 at a concrete input: the list at `0x3000` is attached to the array that
holds the lists `0x2000` and `0x1000`. -/
theorem C33_attach_puts_added_lists_first_witness :
    ((array ⟨2, [0x2000, 0x1000]⟩).attachLists sampleJunk (fun _ => 0x3000) 1).listPtrs =
        [0x3000, 0x2000, 0x1000] ∧
      ((array ⟨2, [0x2000, 0x1000]⟩).attachLists sampleJunk (fun _ => 0x3000) 1).elements
        property_list_t.kind sampleHeaders 6 =
          some [0x3008, 0x3018, 0x3028, 0x2008, 0x1008, 0x1018] :=
  ⟨(C33_attach_puts_added_lists_first property_list_t.kind sampleHeaders sampleJunk
      (fun _ => 0x3000) 1 (array ⟨2, [0x2000, 0x1000]⟩) rfl (by decide) (by decide)
      (by decide)).1,
    (C33_attach_puts_added_lists_first property_list_t.kind sampleHeaders sampleJunk
      (fun _ => 0x3000) 1 (array ⟨2, [0x2000, 0x1000]⟩) rfl (by decide) (by decide)
      (by decide)).2.2.2.2 (strideInvariant_nop 0) (by decide) 6 (by decide)⟩

end Objc
